import Mathlib

/-!
# Verification of the FileGDB FID-hack index-repair engine

This file is a shallow embedding, in Lean 4, of the identifier-remapping and
binary index-repair subsystem of `ogr/ogrsf_frmts/filegdb/FGdbLayer.cpp`:

* `fileSwap` — the `.gdbtablx` three-step replacement performed by
  `FGdbLayer::EditIndexesForFIDHack` (lines 247-256);
* `DeleteFeature` / `ISetFeature` — the FID-dispatch logic of
  `FGdbLayer::DeleteFeature` (lines 1558-1597) and `FGdbLayer::ISetFeature`
  (lines 1603-1651);
* `EditATXOrSPX` — the recursive `.atx`/`.spx` page editor
  (lines 266-565, both overloads, and `FGdbLayerSortATX`);
* `EditGDBTablX` — the row-offset-table rewriter (lines 617-916, together
  with `UpdateNextOGRFIDAndFGDBFID`, lines 583-606).

Machine integers of the source are modelled as `Nat`/`Int` (the source only
ever manipulates non-negative row identifiers below 2^31 on these paths; the
single spot where signed overflow is guarded, the `i > INT_MAX - 1024` check
of `EditGDBTablX`, is carried over literally).  Bytes are modelled as `Nat`,
byte buffers as `List Nat`.  Fallible I/O is modelled by `Option`/result
records: reading a page that does not exist fails exactly where a short
`VSIFReadL` makes the source return `FALSE`.
-/

/- ========================================================================
   Part 1.  FileSwap (`EditIndexesForFIDHack`, FGdbLayer.cpp:247-256)
   ======================================================================== -/

/-- A flat filesystem: an association list from path to file content
(content abstracted as a `Nat`).  Operations below keep at most one entry
per path. -/
abbrev FS := List (String × Nat)

/-- Look a path up in the filesystem. -/
def fsLookup (fs : FS) (p : String) : Option Nat :=
  fs.lookup p

/-- Remove every entry with the given path. -/
def fsRemove (fs : FS) (p : String) : FS :=
  fs.filter (fun e => !(e.1 == p))

/-- Model of `VSIRename`: fails (returns non-zero) iff the source path does
not exist; on success the source entry is removed and the destination is
overwritten with the source content (POSIX rename semantics). -/
def vsiRename (fs : FS) (src dst : String) : Bool × FS :=
  match fsLookup fs src with
  | none => (false, fs)
  | some c => (true, (dst, c) :: fsRemove (fsRemove fs src) dst)

/-- Model of `VSIUnlink`: removes the entry; always proceeds. -/
def vsiUnlink (fs : FS) (p : String) : FS :=
  fsRemove fs p

/-- The `.gdbtablx` swap of `FGdbLayer::EditIndexesForFIDHack`
(FGdbLayer.cpp:247-256): rename `target` to `target ++ ".tmp"`, then (only
if that succeeded — the source uses `&&`) rename `newPath` to `target`, then
unconditionally `VSIUnlink` the `".tmp"` path, and report success iff both
renames succeeded. -/
def fileSwap (fs : FS) (target newPath : String) : Bool × FS :=
  let tmp := target ++ ".tmp"
  let r1 := vsiRename fs target tmp
  let r2 := if r1.1 then vsiRename r1.2 newPath target else (false, r1.2)
  let fs3 := vsiUnlink r2.2 tmp
  (r1.1 && r2.1, fs3)

/-- `C8` counterexample input: a filesystem holding only the target file. -/
def c8FS : FS := [("x.gdbtablx", 1)]

/- ========================================================================
   Part 2.  Feature-level FID dispatch
   (`FGdbLayer::DeleteFeature`, FGdbLayer.cpp:1558-1597, and
    `FGdbLayer::ISetFeature`, FGdbLayer.cpp:1603-1651)
   ======================================================================== -/

/-- OGR error codes appearing on these paths. -/
inductive OGRErr where
  | ogrNone
  | failure
  | nonExisting
deriving DecidableEq, Repr

/-- The slice of `FGdbLayer` state these two methods touch.  `o2f` is
`m_oMapOGRFIDToFGDBFID` (external → internal), `f2o` is
`m_oMapFGDBFIDToOGRFID` (internal → external); both are `std::map<int,int>`,
modelled as key-sorted association lists.  `tableRows` is the set of rows of
the underlying FileGDB table, keyed by (internal) FGDB FID, with abstract
row content.  `CreateRealCopy` (only file duplication) is modelled as always
succeeding without touching this state. -/
structure LayerState where
  o2f : List (Int × Int)
  f2o : List (Int × Int)
  updateMode : Bool          -- m_pDS->GetUpdate()
  hasTable : Bool            -- m_pTable != nullptr
  bulkLoadInProgress : Bool  -- m_bBulkLoadInProgress
  tableRows : List (Int × Nat)

/-- `FGdbLayer::EndBulkLoad` (FGdbLayer.cpp:4076-4089): only toggles the
bulk-load flag and the table's load-only mode/write lock; it does not touch
the rows or the remap maps. -/
def EndBulkLoad (s : LayerState) : LayerState :=
  { s with bulkLoadInProgress := false }

/-- `FGdbLayer::GetRow` outcome combined with `m_pTable->Delete`: the row
with the given FGDB FID is deleted if present, `nonExisting` reported
otherwise.  (`GetRow` at FGdbLayer.cpp:1586-1588 returns
`OGRERR_NON_EXISTING_FEATURE` when the FID query finds no row.) -/
def tableDeleteRow (rows : List (Int × Nat)) (fid : Int) :
    OGRErr × List (Int × Nat) :=
  if (rows.lookup fid).isSome then
    (.ogrNone, rows.filter (fun e => !(e.1 == fid)))
  else (.nonExisting, rows)

/-- Whether a 64-bit FID value fits in a signed 32-bit integer
(`CPL_INT64_FITS_ON_INT32`). -/
def fitsInt32 (n : Int) : Prop := -(2 ^ 31) ≤ n ∧ n < 2 ^ 31

instance (n : Int) : Decidable (fitsInt32 n) := by
  unfold fitsInt32; infer_instance

/-- `FGdbLayer::DeleteFeature` (FGdbLayer.cpp:1558-1597).  The FID is first
looked up in `o2f`: a hit redirects to the internal FID and erases the pair
from both maps.  Otherwise a FID that appears as a key of `f2o` (an internal
identifier whose row was relocated to an external identifier) is rejected
with `OGRERR_NON_EXISTING_FEATURE` before anything is modified. -/
def DeleteFeature (s : LayerState) (nFID : Int) : OGRErr × LayerState :=
  if s.updateMode = false ∨ s.hasTable = false then (.failure, s)
  else if ¬ fitsInt32 nFID then (.nonExisting, s)
  else
    match s.o2f.lookup nFID with
    | some internal =>
        let s1 := { s with
          f2o := s.f2o.filter (fun e => !(e.1 == internal)),
          o2f := s.o2f.filter (fun e => !(e.1 == nFID)) }
        let s2 := EndBulkLoad s1
        let r := tableDeleteRow s2.tableRows internal
        (r.1, { s2 with tableRows := r.2 })
    | none =>
        if (s.f2o.lookup nFID).isSome then (.nonExisting, s)
        else
          let s2 := EndBulkLoad s
          let r := tableDeleteRow s2.tableRows nFID
          (r.1, { s2 with tableRows := r.2 })

/-- `GetRow` followed by `PopulateRowWithFeature` and `m_pTable->Update`:
the row with the given FGDB FID has its content replaced if present,
`nonExisting` is reported otherwise. -/
def tableUpdateRow (s : LayerState) (fid : Int) (newContent : Nat) :
    OGRErr × LayerState :=
  if (s.tableRows.lookup fid).isSome then
    (.ogrNone, { s with tableRows :=
      (s.tableRows.map (fun e => if e.1 == fid then (e.1, newContent) else e)) })
  else (.nonExisting, s)

/-- `FGdbLayer::ISetFeature` (FGdbLayer.cpp:1603-1651).  Note that
`EndBulkLoad` runs *before* the map dispatch here, and that nothing is ever
erased from the maps; row update is abstracted as rewriting the row's
content. -/
def ISetFeature (s : LayerState) (featureFID : Int) (newContent : Nat) :
    OGRErr × LayerState :=
  if s.updateMode = false ∨ s.hasTable = false then (.failure, s)
  else if featureFID = -1 then (.failure, s)   -- OGRNullFID
  else if ¬ fitsInt32 featureFID then (.nonExisting, s)
  else
    let s1 := EndBulkLoad s
    match s1.o2f.lookup featureFID with
    | some internal => tableUpdateRow s1 internal newContent
    | none =>
        if (s1.f2o.lookup featureFID).isSome then (.nonExisting, s1)
        else tableUpdateRow s1 featureFID newContent

/- ========================================================================
   Part 3.  The .atx/.spx index page editor
   (`FGdbLayer::EditATXOrSPX`, FGdbLayer.cpp:266-565, and
    `FGdbLayerSortATX`, lines 315-325)
   ======================================================================== -/

/-- One 4096-byte page of an `.atx`/`.spx` index file, in structured form.
A leaf page (tree depth 1) holds the next-page pointer, the row-identifier
array (`fids`, one `int32` each) and the fixed-width indexed-value array
(`vals`, one byte string of length `sizeIndexedValue` each), entries at
equal positions corresponding; its feature count is `fids.length`.  An
interior page holds the child page-number array (the source stores
`count - 1` at byte offset 4; `children.length` is the actual count). -/
inductive IdxPage where
  | leaf (next : Int) (fids : List Int) (vals : List (List Nat))
  | interior (children : List Int)

/-- An `.atx`/`.spx` index file: the two trailer fields the editor reads
(`sizeIndexedValue`, one byte at offset `-22`; `depth`, an `int32` at offset
`-16`) and the page array.  `pages p = none` models a page that cannot be
read (the file is too short): there `VSIFReadL` comes up short and the
source returns `FALSE`.  A structured page of the wrong kind is likewise
treated as a failed read; the claims below only quantify over well-formed
files, where this does not arise. -/
structure IdxFile where
  sizeIndexedValue : Nat
  depth : Nat
  pages : Int → Option IdxPage

/-- The mutable state threaded through `FGdbLayer::EditATXOrSPX`'s recursion
(the reference parameters of the second overload, FGdbLayer.cpp:327-333,
plus the file itself and `m_oMapFGDBFIDToOGRFID`). -/
structure AtxState where
  f2o : List (Int × Int)            -- m_oMapFGDBFIDToOGRFID
  pages : Int → Option IdxPage      -- the file content (read and written)
  lastPageVisited : Int             -- nLastPageVisited
  lastVal : List Nat                -- pabyLastIndexedValue
  validVal : Bool                   -- bIndexedValueIsValid
  firstIndexAtThisValue : Int       -- nFirstIndexAtThisValue (starts at -1)
  pagesAtThisValue : List Int       -- anPagesAtThisValue
  sortThisValue : Bool              -- bSortThisValue
  invalidateIndex : Bool            -- bInvalidateIndex

/-- Keep a `std::map<int,int>` model sorted on insertion.  (The duplicate-key
case keeps the existing entry, as `std::map` does; it is unreachable from
`mapIndexOp`, which only inserts after a failed lookup.) -/
def insertSorted (m : List (Int × Int)) (k v : Int) : List (Int × Int) :=
  match m with
  | [] => [(k, v)]
  | (a, b) :: rest =>
      if k < a then (k, v) :: (a, b) :: rest
      else if k = a then (a, b) :: rest
      else (a, b) :: insertSorted rest k v

/-- `std::map::operator[]` (FGdbLayer.cpp:372): returns the mapped value and,
when the key is absent, *inserts* a value-initialized entry `(k, 0)`. -/
def mapIndexOp (m : List (Int × Int)) (k : Int) : Int × List (Int × Int) :=
  match m.lookup k with
  | some v => (v, m)
  | none => (0, insertSorted m k 0)

/-- Insert into an ascending list. -/
def insertAsc (x : Int) : List Int → List Int
  | [] => [x]
  | y :: ys => if x ≤ y then x :: y :: ys else y :: insertAsc x ys

/-- Ascending sort of `int32` row identifiers.  The source uses `qsort` with
`FGdbLayerSortATX` (FGdbLayer.cpp:315-325), a plain signed comparison of the
little-endian-decoded values; any comparison sort produces the same output
list, so an insertion sort stands in for `qsort`. -/
def sortInts : List Int → List Int
  | [] => []
  | x :: xs => insertAsc x (sortInts xs)

/-- Read the row-identifier array of a (previously visited, hence leaf) run
page back from the file, as the multi-page re-sort does with `VSIFSeekL` and
`VSIFReadL` (FGdbLayer.cpp:413-448).  The wildcard mirrors the source's
unchecked reads: a run page is always an existing leaf. -/
def filePageFids (pages : Int → Option IdxPage) (p : Int) : List Int :=
  match pages p with
  | some (.leaf _ fids _) => fids
  | _ => []

/-- Overwrite the row-identifier array of the leaf page `p`, keeping its
next pointer and indexed values (the source only writes the id region). -/
def setLeafFids (pages : Int → Option IdxPage) (p : Int) (newFids : List Int) :
    Int → Option IdxPage :=
  fun q => if q = p then
    match pages p with
    | some (.leaf next _ vals) => some (.leaf next newFids vals)
    | other => other
  else pages q

/-- Gather phase of the multi-page re-sort (FGdbLayer.cpp:405-449): walk the
run's pages collecting row identifiers — from `firstIdx` on for the first
page, the first `lastCnt` entries of the in-memory buffer for the current
(last) page, whole pages in between. -/
def gatherRun (thisPage : Int) (firstIdx lastCnt total : Nat)
    (buffer : List Int) (pages : Int → Option IdxPage) :
    Nat → List Int → List Int
  | _, [] => []
  | j, p :: rest =>
      (if j = 0 then (filePageFids pages p).drop firstIdx
       else if j = total - 1 ∧ p = thisPage then buffer.take lastCnt
       else filePageFids pages p) ++
      gatherRun thisPage firstIdx lastCnt total buffer pages (j + 1) rest

/-- Scatter phase of the multi-page re-sort (FGdbLayer.cpp:453-489): write
the sorted identifiers back over the very same positions, page by page. -/
def scatterRun (thisPage : Int) (firstIdx lastCnt total : Nat) :
    Nat → List Int → (Int → Option IdxPage) → List Int → List Int →
    (Int → Option IdxPage) × List Int
  | _, [], pages, buffer, _ => (pages, buffer)
  | j, p :: rest, pages, buffer, sorted =>
      if j = 0 then
        let old := filePageFids pages p
        let cnt := old.length - firstIdx
        scatterRun thisPage firstIdx lastCnt total (j + 1) rest
          (setLeafFids pages p (old.take firstIdx ++ sorted.take cnt))
          buffer (sorted.drop cnt)
      else if j = total - 1 ∧ p = thisPage then
        scatterRun thisPage firstIdx lastCnt total (j + 1) rest pages
          (sorted.take lastCnt ++ buffer.drop lastCnt) (sorted.drop lastCnt)
      else
        let cnt := (filePageFids pages p).length
        scatterRun thisPage firstIdx lastCnt total (j + 1) rest
          (setLeafFids pages p (sorted.take cnt)) buffer (sorted.drop cnt)

/-- The re-sort fired on a value-boundary crossing (FGdbLayer.cpp:388-491).
Returns the updated state (file pages), buffer and rewrite flag.  The
single-page branch sorts the buffer range `[firstIdx, firstIdx + cnt)` in
place; the multi-page branch gathers, sorts and scatters across the run's
pages. -/
def sortAction (thisPage next : Int) (i n : Nat) (bNewVal : Bool)
    (st : AtxState) (fids : List Int) (rewrite : Bool) :
    AtxState × List Int × Bool :=
  let extra : Nat := if bNewVal = false ∧ i = n - 1 ∧ next = 0 then 1 else 0
  if st.pagesAtThisValue.headD 0 = thisPage then
    let first := st.firstIndexAtThisValue.toNat
    let cnt := i - first + extra
    (st, (fids.take first ++ sortInts ((fids.drop first).take cnt) ++
      fids.drop (first + cnt), true))
  else
    let first := st.firstIndexAtThisValue.toNat
    let lastCnt := i + extra
    let total := st.pagesAtThisValue.length
    let gathered := gatherRun thisPage first lastCnt total fids st.pages 0
      st.pagesAtThisValue
    let pr := scatterRun thisPage first lastCnt total 0 st.pagesAtThisValue
      st.pages fids (sortInts gathered)
    ({ st with pages := pr.1 },
     (pr.2, rewrite || (st.pagesAtThisValue.getLast? == some thisPage)))

/-- The in-progress processing of one leaf page: the working copy of the
page's row-identifier array (`abyBuffer`), the dirty flag (`bRewritePage`)
and the threaded editor state. -/
structure LeafStep where
  fids : List Int
  rewrite : Bool
  st : AtxState

/-- Processing of one entry of a leaf page (the body of the `for` loop at
FGdbLayer.cpp:361-522): compute the value-boundary flag, remap the row
identifier through `operator[]`, possibly fire the re-sort, then update the
run-tracking state.  `Sum.inr` is the early `return FALSE` of the run-limit
check (which raises `bInvalidateIndex`); `Sum.inl` continues the loop. -/
def leafEntryStep (next : Int) (vals : List (List Nat)) (n : Nat)
    (thisPage : Int) (i : Nat) (ls : LeafStep) : Sum LeafStep LeafStep :=
  let v := vals.getD i []
  let bNewVal := !ls.st.validVal || decide (ls.st.lastVal ≠ v)
  let nFID := ls.fids.getD i 0
  let mr := mapIndexOp ls.st.f2o nFID
  let nOGRFID := mr.1
  let st1 := { ls.st with f2o := mr.2 }
  let fids1 := if nOGRFID ≠ 0 then ls.fids.set i nOGRFID else ls.fids
  let rewrite1 := ls.rewrite || decide (nOGRFID ≠ 0)
  let st2 := if nOGRFID ≠ 0 ∧ st1.validVal = true ∧ i = n - 1 ∧ next = 0
             then { st1 with sortThisValue := true } else st1
  let tr := if st2.sortThisValue = true ∧
      (bNewVal = true ∨ (i = n - 1 ∧ next = 0)) then
      sortAction thisPage next i n bNewVal st2 fids1 rewrite1
    else (st2, (fids1, rewrite1))
  let st3 := tr.1
  let fids2 := tr.2.1
  let rewrite2 := tr.2.2
  -- the two trailing statements of the loop body
  -- (`if (nOGRFID) bSortThisValue = TRUE;` and `bIndexedValueIsValid = TRUE;`)
  let push := fun (st4 : AtxState) =>
    (Sum.inl ⟨fids2, rewrite2,
      { st4 with
        sortThisValue := if nOGRFID ≠ 0 then true else st4.sortThisValue
        validVal := true }⟩ : Sum LeafStep LeafStep)
  if bNewVal then
    push { st3 with
      firstIndexAtThisValue := Int.ofNat i
      pagesAtThisValue := [thisPage]
      lastVal := v
      sortThisValue := false }
  else if i = 0 then
    (if 100000 < st3.pagesAtThisValue.length then
      Sum.inr ⟨fids2, rewrite2, { st3 with invalidateIndex := true }⟩
    else
      push { st3 with pagesAtThisValue := st3.pagesAtThisValue ++ [thisPage] })
  else push st3

/-- The per-entry loop over a leaf page (FGdbLayer.cpp:361-522), entry `i`
upward; at most `n - i` iterations run, so the structural `fuel` (passed as
`n` by `processLeafPage`) never runs out.  Returns `false` exactly on the
source's early `return FALSE` (the run-limit check). -/
def leafLoop (next : Int) (vals : List (List Nat)) (n : Nat) (thisPage : Int) :
    Nat → Nat → LeafStep → Bool × LeafStep
  | 0, _, ls => (true, ls)
  | fuel + 1, i, ls =>
      if n ≤ i then (true, ls)
      else
        match leafEntryStep next vals n thisPage i ls with
        | Sum.inr bad => (false, bad)
        | Sum.inl good => leafLoop next vals n thisPage fuel (i + 1) good

/-- Processing of one leaf page (`nDepth == 1` branch, FGdbLayer.cpp:339-533):
skip an immediately revisited page, fail on an unreadable page or an
over-full feature count, run the entry loop, then write the buffer back if
dirty and record the page as last visited. -/
def processLeafPage (sizeVal : Nat) (thisPage : Int) (s : AtxState) :
    Bool × AtxState :=
  if thisPage = s.lastPageVisited then (true, s)
  else
    match s.pages thisPage with
    | some (.leaf next fids vals) =>
        let n := fids.length
        let maxPer := (4096 - 12) / (4 + sizeVal)
        if maxPer < n then (false, s)
        else
          let r := leafLoop next vals n thisPage n 0 ⟨fids, false, s⟩
          if r.1 = false then (false, r.2.st)
          else
            let st2 := if r.2.rewrite then
                { r.2.st with
                  pages := setLeafFids r.2.st.pages thisPage r.2.fids }
              else r.2.st
            (true, { st2 with lastPageVisited := thisPage })
    | _ => (false, s)

/-- The recursive page walk (second `EditATXOrSPX` overload,
FGdbLayer.cpp:327-565).  `depth 0` marks the nonpositive trailer depth for
which the source recursion would never terminate; well-formed files have
`depth ≥ 1`.  An interior page (FGdbLayer.cpp:535-564) first bounds-checks
the child count, then descends into each child, stopping at the first
failure (a child page number below 1 is itself a hard failure); the fold
latches a failure and carries the state of the moment of failure, which is
the same outcome as the source's early `return`. -/
def walkIdx (sizeVal : Nat) : Nat → Int → AtxState → Bool × AtxState
  | 0, _, s => (false, s)
  | 1, p, s => processLeafPage sizeVal p s
  | d + 2, p, s =>
      match s.pages p with
      | some (.interior children) =>
          if (4096 - 8) / 4 < children.length then (false, s)
          else
            children.foldl (fun acc c =>
              if acc.1 = false then acc
              else if c < 1 then (false, acc.2)
              else walkIdx sizeVal (d + 1) c acc.2) (true, s)
      | _ => (false, s)

/-- Outcome of `FGdbLayer::EditATXOrSPX` (first overload,
FGdbLayer.cpp:266-313) together with what the caller-visible file system
then holds: `fileAfter = none` iff the function `VSIUnlink`ed the index. -/
structure AtxResult where
  ret : Bool
  invalidated : Bool
  f2o : List (Int × Int)
  fileAfter : Option IdxFile

/-- `FGdbLayer::EditATXOrSPX` (first overload, FGdbLayer.cpp:266-313): check
the trailer (`nSizeIndexedValue > 0`), walk from page 1 at the trailer
depth, and afterwards — only if `bInvalidateIndex` was raised — delete the
index file.  A plain failure leaves the (possibly partially rewritten)
file in place. -/
def EditATXOrSPX (f : IdxFile) (f2o : List (Int × Int)) : AtxResult :=
  if f.sizeIndexedValue = 0 then
    { ret := false, invalidated := false, f2o := f2o, fileAfter := some f }
  else
    let s0 : AtxState := {
      f2o := f2o
      pages := f.pages
      lastPageVisited := 0
      lastVal := []
      validVal := false
      firstIndexAtThisValue := -1
      pagesAtThisValue := []
      sortThisValue := false
      invalidateIndex := false }
    let r := walkIdx f.sizeIndexedValue f.depth 1 s0
    { ret := r.1, invalidated := r.2.invalidateIndex, f2o := r.2.f2o,
      fileAfter := if r.2.invalidateIndex then none
                   else some { f with pages := r.2.pages } }

/-- `C5` counterexample input: a one-leaf index whose single row identifier 7
is not a key of the remap table. -/
def c5Pages : Int → Option IdxPage :=
  fun p => if p = 1 then some (.leaf 0 [7] [[1]]) else none

/-- `C5` counterexample file. -/
def c5File : IdxFile := { sizeIndexedValue := 1, depth := 1, pages := c5Pages }

/-- State evolution of `m_oMapFGDBFIDToOGRFID` under the editor: every old
entry survives, and anything new has mapped value 0. -/
def f2oExtends (old new : List (Int × Int)) : Prop :=
  (∀ kv, kv ∈ old → kv ∈ new) ∧ (∀ kv, kv ∈ new → kv ∈ old ∨ kv.2 = 0)

/-- `C6` counterexample input: a depth-2 index whose root references page 5,
which cannot be read (the file is too short). -/
def c6Pages : Int → Option IdxPage :=
  fun p => if p = 1 then some (.interior [5]) else none

/-- `C6` counterexample file. -/
def c6File : IdxFile :=
  { sizeIndexedValue := 1, depth := 2, pages := c6Pages }

/-- `C7` witness state: an accumulated run of 100001 pages, about to be
continued by the single-entry leaf page 3 whose value equals the last one
seen. -/
def c7WitnessState : AtxState :=
  { f2o := [(10, 7)]
    pages := fun p => if p = 3 then some (.leaf 0 [10] [[1]]) else none
    lastPageVisited := 2
    lastVal := [1]
    validVal := true
    firstIndexAtThisValue := 0
    pagesAtThisValue := List.replicate 100001 2
    sortThisValue := true
    invalidateIndex := false }

/-- `C7` counterexample input: two chained leaf pages claiming 50001 and
50000 entries (100001 in total) at one indexed value, below a depth-2 root. -/
def c7Pages : Int → Option IdxPage :=
  fun p => if p = 1 then some (.interior [2, 3])
           else if p = 2 then
             some (.leaf 3 (List.replicate 50001 10) (List.replicate 50001 [1]))
           else if p = 3 then
             some (.leaf 0 (List.replicate 50000 20) (List.replicate 50000 [1]))
           else none

/-- `C7` counterexample file. -/
def c7File : IdxFile := { sizeIndexedValue := 1, depth := 2, pages := c7Pages }

/-- The state `EditATXOrSPX` starts the walk of `c7File` with. -/
def c7Init : AtxState :=
  { f2o := [(10, 7)]
    pages := c7Pages
    lastPageVisited := 0
    lastVal := []
    validVal := false
    firstIndexAtThisValue := -1
    pagesAtThisValue := []
    sortThisValue := false
    invalidateIndex := false }

/- ========================================================================
   Part 4.  The row-offset-table rewriter
   (`FGdbLayer::EditGDBTablX`, FGdbLayer.cpp:617-916, with
    `UpdateNextOGRFIDAndFGDBFID`, lines 583-606)
   ======================================================================== -/

/-- The input `.gdbtablx` file in structured form.  `n1024Blocks` is header
word 1 (the number of 1024-row pages physically stored), `maxFID` header
word 2, `recordSize` header word 3 (4..6 bytes per offset record).
`bitmapWords` is the first word of the trailer header; when non-zero, the
file carries the sparse-block bitmap `blockMap` (one bit per 1024-row
block) and only marked blocks are stored.  `phys i` is the stored offset
record at physical (packed) row index `i`, a byte string of length
`recordSize`. -/
structure TablXIn where
  n1024Blocks : Nat
  maxFID : Nat
  recordSize : Nat
  bitmapWords : Nat
  blockMap : Nat → Bool
  phys : Nat → List Nat

/-- The all-zero "absent" offset record (`abyEmptyOffset`). -/
def zeroRecord (rs : Nat) : List Nat := List.replicate rs 0

/-- Number of marked blocks strictly before block `n` (the
`nCountBlocksBefore` computation, FGdbLayer.cpp:805-823). -/
def countSetBefore (bm : Nat → Bool) (n : Nat) : Nat :=
  ((List.range n).filter (fun j => bm j)).length

/-- Marked blocks in `[a, b)` — the incremental leg of the cached
`nCountBlocksBefore` computation (FGdbLayer.cpp:808-813). -/
def countSetRange (bm : Nat → Bool) (a b : Nat) : Nat :=
  ((List.range' a (b - a)).filter (fun j => bm j)).length

/-- The effective offset record of row `srcFID` of the input file, as the
source fetches it (FGdbLayer.cpp:797-852): with a bitmap, a row in an
unmarked block is absent (all zeros), and a row in a marked block sits at
packed position `countSetBefore * 1024 + (srcFID-1) % 1024`; without a
bitmap rows are stored contiguously. -/
def readSrcRecord (f : TablXIn) (srcFID : Nat) : List Nat :=
  if f.bitmapWords ≠ 0 then
    let iBlock := (srcFID - 1) / 1024
    if f.blockMap iBlock then
      f.phys (countSetBefore f.blockMap iBlock * 1024 + (srcFID - 1) % 1024)
    else zeroRecord f.recordSize
  else f.phys (srcFID - 1)

/-- `std::map` iterator advance of `UpdateNextOGRFIDAndFGDBFID`
(FGdbLayer.cpp:583-606): drop entries whose key is below `i`; the head of
the remainder is `nNextOGRFID`/`nNextFGDBFID` (or the end, i.e. `-1`). -/
def advanceKeys (m : List (Nat × Nat)) (i : Nat) : List (Nat × Nat) :=
  m.dropWhile (fun kv => kv.1 < i)

/-- The key the iterator currently points at (`none` encodes the source's
`-1` end marker). -/
def nextKey (m : List (Nat × Nat)) : Option Nat :=
  match m with
  | [] => none
  | kv :: _ => some kv.1

/-- `nNext > 0 && i < nNext - 1024` for a key that must exist
(the skip-to-created-FID test, FGdbLayer.cpp:742-743; `i + 1024 < k` is the
same comparison carried out in `Int` rather than with truncating `Nat`
subtraction). -/
def keyFar (m : List (Nat × Nat)) (i : Nat) : Bool :=
  match nextKey m with
  | none => false
  | some k => i + 1024 < k

/-- `nNext < 0 || i < nNext - 1024` (the empty-input-block skip test,
FGdbLayer.cpp:758-759). -/
def keyFarIfAny (m : List (Nat × Nat)) (i : Nat) : Bool :=
  match nextKey m with
  | none => true
  | some k => i + 1024 < k

/-- `((nNextOGRFID - 1) / 1024) * 1024 + 1` (FGdbLayer.cpp:747). -/
def jumpTarget (m : List (Nat × Nat)) : Nat :=
  match nextKey m with
  | none => 1
  | some k => ((k - 1) / 1024) * 1024 + 1

/-- Loop-invariant context of the main rewrite loop. -/
structure XCtx where
  f : TablXIn
  o2f : List (Nat × Nat)       -- m_oMapOGRFIDToFGDBFID (sorted by key)
  f2o : List (Nat × Nat)       -- m_oMapFGDBFIDToOGRFID (sorted by key)
  disableSparse : Bool         -- FILEGDB_DISABLE_SPARSE_PAGES
  nInMaxFID : Nat              -- nInMaxFID after the trailing compaction
  nOutMaxFID : Nat             -- nOutMaxFID after the trailing compaction

/-- Mutable state of the main rewrite loop.  Byte offsets of the source
(`nOffsetInPage`, `nLastWrittenOffset`) are carried in record units — the
source only ever uses them at multiples of `nRecordSize`.  `page` is the
1024-record output buffer `pabyPage` (positions at or beyond `lastW` are
stale and are zero-filled before every use, exactly as the source's
`memset` calls do), `outPages` the pages already written to the new file,
`outMap` the in-memory `pabyBlockMapOut`, `cacheIdx`/`cacheVal` the
`nCountBlocksBeforeIBlockIdx`/`...Value` pair. -/
structure XState where
  remO2F : List (Nat × Nat)
  remF2O : List (Nat × Nat)
  ofs : Nat
  lastW : Nat
  page : Nat → List Nat
  outPages : List (List (List Nat))
  outMap : Nat → Bool
  nonEmpty : Nat
  cacheIdx : Nat
  cacheVal : Nat

/-- `SET_BIT` on the output block map. -/
def setBit (bm : Nat → Bool) (b : Nat) : Nat → Bool :=
  fun j => if j = b then true else bm j

/-- Copy a non-empty record into the page buffer at position `ofs`,
zero-filling the gap `[lastW, ofs)` first (the `memset` at
FGdbLayer.cpp:832-834/846-848). -/
def pageWrite (rs : Nat) (page : Nat → List Nat) (lastW ofs : Nat)
    (rec : List Nat) : Nat → List Nat :=
  fun q => if q = ofs then rec
           else if lastW ≤ q ∧ q < ofs then zeroRecord rs
           else page q

/-- The 1024 records of the page buffer as flushed to disk: positions from
`lastW` on are zero-filled (the `memset` at FGdbLayer.cpp:729-731 and
860-862). -/
def flushRecords (rs : Nat) (page : Nat → List Nat) (lastW : Nat) :
    List (List Nat) :=
  (List.range 1024).map (fun p => if p < lastW then page p else zeroRecord rs)

/-- Flush the buffered page: set the given block's bit, count it, and append
its records to the new file (FGdbLayer.cpp:725-737 and 855-868). -/
def doFlush (C : XCtx) (s : XState) (bit : Nat) : XState :=
  { s with
    outMap := setBit s.outMap bit
    nonEmpty := s.nonEmpty + 1
    outPages := s.outPages ++ [flushRecords C.f.recordSize s.page s.lastW] }

/-- Fetch the record of `srcFID` from the input file and copy it into the
page buffer if it is not all-zero (FGdbLayer.cpp:797-852), maintaining the
marked-blocks-before cache exactly as the source does. -/
def fetchCopy (C : XCtx) (srcFID : Nat) (s : XState) : XState :=
  if C.f.bitmapWords ≠ 0 then
    let iBlock := (srcFID - 1) / 1024
    if C.f.blockMap iBlock then
      let cnt := if s.cacheIdx ≤ iBlock
                 then s.cacheVal + countSetRange C.f.blockMap s.cacheIdx iBlock
                 else countSetBefore C.f.blockMap iBlock
      let s1 := { s with cacheIdx := iBlock, cacheVal := cnt }
      let rec0 := C.f.phys (cnt * 1024 + (srcFID - 1) % 1024)
      if rec0 ≠ zeroRecord C.f.recordSize then
        { s1 with
          page := pageWrite C.f.recordSize s1.page s1.lastW s1.ofs rec0
          lastW := s1.ofs + 1 }
      else s1
    else s
  else
    let rec0 := C.f.phys (srcFID - 1)
    if rec0 ≠ zeroRecord C.f.recordSize then
      { s with
        page := pageWrite C.f.recordSize s.page s.lastW s.ofs rec0
        lastW := s.ofs + 1 }
    else s

/-- Per-row body of the main loop (FGdbLayer.cpp:770-852): advance both
iterators to `i`, then either redirect to the mapped FGDB record (`i` is a
user-defined OGR FID), skip the row (`i` is a relocated FGDB FID or beyond
the input), or copy the record of row `i` itself. -/
def rowStep (C : XCtx) (i : Nat) (s : XState) : XState :=
  let rO := advanceKeys s.remO2F i
  let rF := advanceKeys s.remF2O i
  let s1 := { s with remO2F := rO, remF2O := rF }
  if nextKey rO = some i then
    fetchCopy C ((rO.headD (0, 0)).2) s1
  else if nextKey rF = some i ∨ C.nInMaxFID < i then
    s1
  else
    fetchCopy C i s1

/-- Outcome of the block-boundary handling at the top of a loop iteration:
`fall i` proceeds to the per-row body at row `i` (which the skip-ahead at
FGdbLayer.cpp:742-748 may have moved forward), `skip i` is the `continue`
after jumping over an empty input block, `halt` the `INT_MAX` break. -/
inductive BStep where
  | fall (i : Nat) (s : XState)
  | skip (i : Nat) (s : XState)
  | halt (s : XState)

/-- Block-boundary handling (FGdbLayer.cpp:723-768): when the page buffer is
full, flush it (if non-empty or sparse pages are disabled) and reset; then
possibly jump ahead to the block of the next user-defined OGR FID, or skip
an empty input block wholesale. -/
def boundaryStep (C : XCtx) (i : Nat) (s : XState) : BStep :=
  if s.ofs ≠ 1024 then .fall i s
  else
    let s1 := if 0 < s.lastW ∨ C.disableSparse = true
              then doFlush C s ((i - 2) / 1024) else s
    let s2 := { s1 with ofs := 0, lastW := 0 }
    if C.disableSparse = false ∧ C.nInMaxFID < i ∧ keyFar s2.remO2F i = true
    then
      .fall (jumpTarget s2.remO2F) s2
    else if C.disableSparse = false ∧ C.f.bitmapWords ≠ 0 ∧
        i ≤ C.nInMaxFID ∧ C.f.blockMap ((i - 1) / 1024) = false then
      let s3 := { s2 with
        remO2F := advanceKeys s2.remO2F i
        remF2O := advanceKeys s2.remF2O i }
      if keyFarIfAny s3.remO2F i = true ∧ keyFarIfAny s3.remF2O i = true then
        if 2147483647 - 1024 < i then .halt s3
        else .skip (i + 1023) { s3 with ofs := s3.ofs + 1023 }
      else .fall i s3
    else .fall i s2

/-- The main rewrite loop (FGdbLayer.cpp:717-853).  One fuel unit is spent
per iteration; since the row number `i` strictly increases every iteration,
fuel `nOutMaxFID + 1` (as passed by `EditGDBTablX`) never runs out.  The
`skip`/`fall` recursion tail applies the `for` update
(`i + 1`, `nOffsetInPage += nRecordSize`). -/
def xLoop (C : XCtx) : Nat → Nat → XState → XState
  | 0, _, s => s
  | fuel + 1, i, s =>
      if C.nOutMaxFID < i then s
      else
        match boundaryStep C i s with
        | .halt s1 => s1
        | .skip j s1 => xLoop C fuel (j + 1) { s1 with ofs := s1.ofs + 1 }
        | .fall j s1 =>
            let s2 := rowStep C j s1
            xLoop C fuel (j + 1) { s2 with ofs := s2.ofs + 1 }

/-- `nMaxOGRFID`: the source iterates the whole map, ending at the last
(largest) key, 0 when empty (FGdbLayer.cpp:644-647). -/
def maxKey (m : List (Nat × Nat)) : Nat :=
  m.foldl (fun _ kv => kv.1) 0

/-- The trailing-compaction loop (FGdbLayer.cpp:652-663): while the highest
input row is a relocated FGDB FID (a key of `f2o`) above `nMaxOGRFID`, drop
it from both `nInMaxFID` and `nOutMaxFID`.  The source's loop variable `i`
always equals the current `nInMaxFID`, so one counter drives the
recursion. -/
def compactLoop (f2o : List (Nat × Nat)) (maxOGR : Nat) :
    Nat → Nat → Nat × Nat
  | 0, nOut => (0, nOut)
  | nIn + 1, nOut =>
      if maxOGR < nIn + 1 ∧ (f2o.lookup (nIn + 1)).isSome then
        compactLoop f2o maxOGR nIn (nOut - 1)
      else (nIn + 1, nOut)

/-- The output `.gdbtablx` file in structured form, as `EditGDBTablX` leaves
it on disk.  `headerBlocks` is header word 1 *after* the final patch at
FGdbLayer.cpp:903-905 (the non-empty page count when pages were omitted).
`physRecs` is the concatenation of all written pages.  `bitmapWordsOut`/
`bitmapSizeBytes` describe the emitted bitmap section (zero/absent when
every block was written); `blockMapOut` is the in-memory block map
(`pabyBlockMapOut`), also exposed when not emitted.  `usedBitmapWords` is
trailer word 3 (`((nOutMaxFID-1)/1024 + 31)/32`, unused by readers).  The
final map states are carried to state the read-only (frame) property: the
source only ever iterates or `find`s them here. -/
structure TablXOut where
  headerBlocks : Nat
  headerMaxFID : Nat
  recordSize : Nat
  physRecs : List (List Nat)
  totalBlocks : Nat
  nonEmptyPages : Nat
  bitmapWordsOut : Nat
  bitmapSizeBytes : Nat
  usedBitmapWords : Nat
  blockMapOut : Nat → Bool
  o2f : List (Nat × Nat)
  f2o : List (Nat × Nat)

/-- `FGdbLayer::EditGDBTablX` (FGdbLayer.cpp:617-916).  `none` models the
undefined behaviour of dereferencing `begin()` of an *empty* map at lines
709-712 (the function is only ever invoked with pending remaps).  The
model covers the success path; an I/O write failure makes the source
return `FALSE` with a partial file that the caller discards. -/
def EditGDBTablX (f : TablXIn) (o2f f2o : List (Nat × Nat))
    (disableSparse : Bool) : Option TablXOut :=
  match o2f, f2o with
  | [], _ => none
  | _, [] => none
  | _ :: _, _ :: _ =>
    let maxOGR := maxKey o2f
    let p := compactLoop f2o maxOGR f.maxFID (max f.maxFID maxOGR)
    let nInMax := p.1
    let nOutMax := p.2
    let n1024BlocksOut := (nOutMax + 1023) / 1024
    let C : XCtx := {
      f := f
      o2f := o2f
      f2o := f2o
      disableSparse := disableSparse
      nInMaxFID := nInMax
      nOutMaxFID := nOutMax }
    let s0 : XState := {
      remO2F := o2f
      remF2O := f2o
      ofs := 0
      lastW := 0
      page := fun _ => zeroRecord f.recordSize
      outPages := []
      outMap := fun _ => false
      nonEmpty := 0
      cacheIdx := 0
      cacheVal := 0 }
    let sEnd := xLoop C (nOutMax + 1) 1 s0
    let sFin := if 0 < sEnd.lastW ∨ disableSparse = true
                then doFlush C sEnd ((nOutMax - 1) / 1024) else sEnd
    let nSizeBytes := (((n1024BlocksOut + 7) / 8 + 127) / 128) * 128
    some {
      headerBlocks := if sFin.nonEmpty < n1024BlocksOut then sFin.nonEmpty
                      else n1024BlocksOut
      headerMaxFID := nOutMax
      recordSize := f.recordSize
      physRecs := sFin.outPages.flatten
      totalBlocks := n1024BlocksOut
      nonEmptyPages := sFin.nonEmpty
      bitmapWordsOut := if sFin.nonEmpty < n1024BlocksOut then nSizeBytes / 4
                        else 0
      bitmapSizeBytes := if sFin.nonEmpty < n1024BlocksOut then nSizeBytes
                         else 0
      usedBitmapWords := if sFin.nonEmpty < n1024BlocksOut then
                           ((nOutMax - 1) / 1024 + 31) / 32
                         else 0
      blockMapOut := sFin.outMap
      o2f := o2f
      f2o := f2o }

/-- Reading an offset record back from the written output file, by the same
procedure `readSrcRecord` models for the input (a row beyond the table, or
in an unmarked block of a sparse file, is absent). -/
def readOutRecord (o : TablXOut) (fid : Nat) : List Nat :=
  if fid = 0 ∨ o.headerMaxFID < fid then zeroRecord o.recordSize
  else if o.bitmapWordsOut ≠ 0 then
    let b := (fid - 1) / 1024
    if o.blockMapOut b then
      o.physRecs.getD (countSetBefore o.blockMapOut b * 1024 +
        (fid - 1) % 1024) (zeroRecord o.recordSize)
    else zeroRecord o.recordSize
  else o.physRecs.getD (fid - 1) (zeroRecord o.recordSize)

/-- The per-row specification of the rewrite: output row `j` holds the
record of the mapped FGDB row when `j` is a user-defined OGR FID, is absent
when `j` is a relocated FGDB FID or beyond the (compacted) input, and holds
row `j`'s own record otherwise. -/
def specOutRecord (f : TablXIn) (o2f f2o : List (Nat × Nat)) (nInMax : Nat)
    (j : Nat) : List Nat :=
  match o2f.lookup j with
  | some v => readSrcRecord f v
  | none =>
      if (f2o.lookup j).isSome ∨ nInMax < j then zeroRecord f.recordSize
      else readSrcRecord f j

/-- `C2` input: a row-offset table with `maxIdentifier = 1000001`, record
size 4, and a bitmap marking only the block of row 1000001, whose record is
`[1,2,3,4]` at packed position 576 (block 976, offset 576 within it). -/
def c2In : TablXIn :=
  { n1024Blocks := 1
    maxFID := 1000001
    recordSize := 4
    bitmapWords := 32
    blockMap := fun b => b = 976
    phys := fun i => if i = 576 then [1, 2, 3, 4] else [0, 0, 0, 0] }

/-! ### Sorted-map toolkit for the `.gdbtablx` rewrite -/

/-- `std::map<int64,int>` key order: strictly ascending keys. -/
def sKeys (m : List (Nat × Nat)) : Prop :=
  List.Pairwise (fun a b => a.1 < b.1) m

/-! ### The compaction results and the per-block view of the output -/

/-- `nInMaxFID` as `EditGDBTablX` computes it (FGdbLayer.cpp:644-663). -/
def nInMaxOf (f : TablXIn) (o2f f2o : List (Nat × Nat)) : Nat :=
  (compactLoop f2o (maxKey o2f) f.maxFID (max f.maxFID (maxKey o2f))).1

/-- `nOutMaxFID` as `EditGDBTablX` computes it. -/
def nOutMaxOf (f : TablXIn) (o2f f2o : List (Nat × Nat)) : Nat :=
  (compactLoop f2o (maxKey o2f) f.maxFID (max f.maxFID (maxKey o2f))).2

/-- The loop context `EditGDBTablX` hands to its main rewrite loop. -/
def ctxOf (f : TablXIn) (o2f f2o : List (Nat × Nat)) (ds : Bool) : XCtx :=
  { f := f
    o2f := o2f
    f2o := f2o
    disableSparse := ds
    nInMaxFID := nInMaxOf f o2f f2o
    nOutMaxFID := nOutMaxOf f o2f f2o }

/-- Shorthand: the specified record of output row `j` under a context. -/
def specR (C : XCtx) (j : Nat) : List Nat :=
  specOutRecord C.f C.o2f C.f2o C.nInMaxFID j

/-- The specified contents of output block `b` (rows `1024b+1 .. 1024b+1024`). -/
def blockRec (C : XCtx) (b : Nat) : List (List Nat) :=
  (List.range 1024).map (fun p => specR C (1024 * b + 1 + p))

/-- Whether output block `b` is materialised: always under
`FILEGDB_DISABLE_SPARSE_PAGES`, otherwise iff some row of the block is
non-empty. -/
def blockKeepB (C : XCtx) (b : Nat) : Bool :=
  C.disableSparse ||
    (List.range 1024).any
      (fun p => decide (specR C (1024 * b + 1 + p) ≠ zeroRecord C.f.recordSize))

/-- The pages of the first `n` output blocks, in file order: one page per
materialised block. -/
def keptList (C : XCtx) (n : Nat) : List (List (List Nat)) :=
  ((List.range n).filter (blockKeepB C)).map (blockRec C)

/-- The loop-context invariants the main-loop proof relies on. -/
structure XHyps (C : XCtx) : Prop where
  hsO : sKeys C.o2f
  hsF : sKeys C.f2o
  hkLe : ∀ kv ∈ C.o2f, kv.1 ≤ C.nOutMaxFID
  hIO : C.nInMaxFID ≤ C.nOutMaxFID
  h1 : 1 ≤ C.nOutMaxFID
  hB : C.nOutMaxFID ≤ 2147482623

/-- The loop invariant of the main rewrite loop of `EditGDBTablX`, at the top
of the iteration for row `i`, having fully emitted `cb` 1024-row blocks. -/
structure XInv (C : XCtx) (i cb : Nat) (s : XState) : Prop where
  hi : 1 ≤ i
  hofs : i - 1 = 1024 * cb + s.ofs
  hofs_le : s.ofs ≤ 1024
  hlast : s.lastW ≤ s.ofs
  hpage : ∀ p, p < s.lastW → s.page p = specR C (1024 * cb + 1 + p)
  hzero : ∀ p, s.lastW ≤ p → p < s.ofs →
    specR C (1024 * cb + 1 + p) = zeroRecord C.f.recordSize
  hlastNE : 0 < s.lastW →
    specR C (1024 * cb + s.lastW) ≠ zeroRecord C.f.recordSize
  hO2F : ∃ k, k ≤ i ∧ s.remO2F = advanceKeys C.o2f k
  hF2O : ∃ k, k ≤ i ∧ s.remF2O = advanceKeys C.f2o k
  hpages : s.outPages = keptList C cb
  hmap : ∀ b, s.outMap b = (decide (b < cb) && blockKeepB C b)
  hne : s.nonEmpty = ((List.range cb).filter (blockKeepB C)).length
  hcache : s.cacheVal = countSetBefore C.f.blockMap s.cacheIdx

/-- The loop's start state (FGdbLayer.cpp:690-716). -/
def xStart (f : TablXIn) (o2f f2o : List (Nat × Nat)) : XState :=
  { remO2F := o2f
    remF2O := f2o
    ofs := 0
    lastW := 0
    page := fun _ => zeroRecord f.recordSize
    outPages := []
    outMap := fun _ => false
    nonEmpty := 0
    cacheIdx := 0
    cacheVal := 0 }

/-- The loop's final state. -/
def xEnd (f : TablXIn) (o2f f2o : List (Nat × Nat)) (ds : Bool) : XState :=
  xLoop (ctxOf f o2f f2o ds) (nOutMaxOf f o2f f2o + 1) 1 (xStart f o2f f2o)

/-- The state after the trailing flush. -/
def xFin (f : TablXIn) (o2f f2o : List (Nat × Nat)) (ds : Bool) : XState :=
  if 0 < (xEnd f o2f f2o ds).lastW ∨ ds = true
  then doFlush (ctxOf f o2f f2o ds) (xEnd f o2f f2o ds)
    ((nOutMaxOf f o2f f2o - 1) / 1024)
  else xEnd f o2f f2o ds

/-- The output record `EditGDBTablX` assembles on its success path, named
field by field. -/
def editXBody (f : TablXIn) (o2f f2o : List (Nat × Nat)) (ds : Bool) :
    TablXOut :=
  { headerBlocks := if (xFin f o2f f2o ds).nonEmpty <
        (nOutMaxOf f o2f f2o + 1023) / 1024
      then (xFin f o2f f2o ds).nonEmpty
      else (nOutMaxOf f o2f f2o + 1023) / 1024
    headerMaxFID := nOutMaxOf f o2f f2o
    recordSize := f.recordSize
    physRecs := (xFin f o2f f2o ds).outPages.flatten
    totalBlocks := (nOutMaxOf f o2f f2o + 1023) / 1024
    nonEmptyPages := (xFin f o2f f2o ds).nonEmpty
    bitmapWordsOut := if (xFin f o2f f2o ds).nonEmpty <
        (nOutMaxOf f o2f f2o + 1023) / 1024
      then ((((nOutMaxOf f o2f f2o + 1023) / 1024 + 7) / 8 + 127) / 128) * 128 / 4
      else 0
    bitmapSizeBytes := if (xFin f o2f f2o ds).nonEmpty <
        (nOutMaxOf f o2f f2o + 1023) / 1024
      then ((((nOutMaxOf f o2f f2o + 1023) / 1024 + 7) / 8 + 127) / 128) * 128
      else 0
    usedBitmapWords := if (xFin f o2f f2o ds).nonEmpty <
        (nOutMaxOf f o2f f2o + 1023) / 1024
      then ((nOutMaxOf f o2f f2o - 1) / 1024 + 31) / 32
      else 0
    blockMapOut := (xFin f o2f f2o ds).outMap
    o2f := o2f
    f2o := f2o }

/-- `C1` witness input: a 4-row table with 1-byte records `[1] [2] [3] [4]`
and the remap pair `2 → 4`. -/
def c1In : TablXIn :=
  { n1024Blocks := 1
    maxFID := 4
    recordSize := 1
    bitmapWords := 0
    blockMap := fun _ => false
    phys := fun i => if i < 4 then [i + 1] else [0] }

/-- `C9` witness input: a 3-row table with records `[1] [2] [3]`. -/
def c9In : TablXIn :=
  { n1024Blocks := 1
    maxFID := 3
    recordSize := 1
    bitmapWords := 0
    blockMap := fun _ => false
    phys := fun i => if i < 3 then [i + 1] else [0] }

/-- `C4` witness input: a 3-row table with records `[1] [2] [3]`. -/
def c4In : TablXIn :=
  { n1024Blocks := 1
    maxFID := 3
    recordSize := 1
    bitmapWords := 0
    blockMap := fun _ => false
    phys := fun i => if i < 3 then [i + 1] else [0] }

/-! ### Toolkit for the index sort invariant -/

/-- The effective row-identifier rewrite `EditATXOrSPX` applies to one leaf
entry (FGdbLayer.cpp:371-377): replace by the mapped OGR FID when the map
holds a non-zero value for it, keep it otherwise. -/
def remapVal (f2o : List (Int × Int)) (x : Int) : Int :=
  if (f2o.lookup x).getD 0 ≠ 0 then (f2o.lookup x).getD 0 else x

/-- First index of the maximal equal-value run containing entry `j`. -/
def runStart (vals : List (List Nat)) : Nat → Nat
  | 0 => 0
  | j + 1 => if vals.getD (j + 1) [] = vals.getD j [] then runStart vals j
             else j + 1

/-- Positions `[a, b)` of `l` are strictly ascending. -/
def SegSorted (l : List Int) (a b : Nat) : Prop :=
  ∀ j, a ≤ j → j + 1 < b → l.getD j 0 < l.getD (j + 1) 0

/-- Loop invariant for the per-entry walk over a single leaf page
(`next = 0`), tied to the loop-entry values: `f2o0` the remap map, `fids0`
the page's stored row identifiers, `vals` its indexed values, `p` the page
number, `pg0`/`lpv0` the file pages and last-visited page at loop entry.
Holds after the first `i` entries have been processed. -/
structure LInv (f2o0 : List (Int × Int)) (fids0 : List Int)
    (vals : List (List Nat)) (p : Int) (pg0 : Int → Option IdxPage)
    (lpv0 : Int) (n i : Nat) (ls : LeafStep) : Prop where
  hlen : ls.fids.length = n
  hf2o : ∀ k, ((ls.st.f2o).lookup k).getD 0 = (f2o0.lookup k).getD 0
  hvalid : ls.st.validVal = true
  hlast : ls.st.lastVal = vals.getD (i - 1) []
  hpv : ls.st.pagesAtThisValue = [p]
  hfi : ls.st.firstIndexAtThisValue = Int.ofNat (runStart vals (i - 1))
  hinv : ls.st.invalidateIndex = false
  hpg : ls.st.pages = pg0
  hlpv : ls.st.lastPageVisited = lpv0
  hclosed : ∀ a b, a < b → b ≤ runStart vals (i - 1) →
      runStart vals (b - 1) = a → SegSorted ls.fids a b
  htrail : ∀ j, runStart vals (i - 1) ≤ j → j < i →
      ls.fids.getD j 0 = remapVal f2o0 (fids0.getD j 0)
  hrest : ∀ j, i ≤ j → ls.fids.getD j 0 = fids0.getD j 0
  hflag : ls.st.sortThisValue = false →
      ∀ j, runStart vals (i - 1) ≤ j → j < i →
      (f2o0.lookup (fids0.getD j 0)).getD 0 = 0

/-- What holds of the loop state after the last entry of the single leaf
page has been processed: the buffer still has `n` identifiers, no
invalidation was raised, the file pages are untouched (the buffer is only
written back by `processLeafPage` afterwards), and every equal-value run of
the page is strictly ascending in the buffer. -/
structure LOut (vals : List (List Nat)) (pg0 : Int → Option IdxPage)
    (n : Nat) (ls : LeafStep) : Prop where
  hlen : ls.fids.length = n
  hinv : ls.st.invalidateIndex = false
  hpg : ls.st.pages = pg0
  hsorted : ∀ a b, a < b → b ≤ n → runStart vals (b - 1) = a →
      SegSorted ls.fids a b

/-- The claim's own scenario: a single leaf page holding
`[(10,A),(20,A),(30,B)]` with remap `{20 -> 5}` (values as one-byte strings,
`A = 65`, `B = 66`). -/
def c3ScenFile : IdxFile :=
  { sizeIndexedValue := 1, depth := 1,
    pages := fun p =>
      if p = 1 then some (.leaf 0 [10, 20, 30] [[65], [65], [66]])
      else none }

/-- A well-formed two-level index whose single value-run spans two chained
leaf pages and whose last page holds exactly one entry: root interior page 1
with children `[2, 3]`; leaf page 2 (`next = 3`) holds `[(10,A),(20,A)]`;
leaf page 3 (`next = 0`) holds `[(30,A)]`. -/
def c3BugFile : IdxFile :=
  { sizeIndexedValue := 1, depth := 2,
    pages := fun p =>
      if p = 1 then some (.interior [2, 3])
      else if p = 2 then some (.leaf 3 [10, 20] [[65], [65]])
      else if p = 3 then some (.leaf 0 [30] [[65]])
      else none }

/-! ## Theorems -/

theorem fsLookup_fsRemove_self (fs : FS) (p : String) :
    fsLookup (fsRemove fs p) p = none := by
  induction fs with
  | nil => rfl
  | cons e t ih =>
      by_cases h : e.1 = p
      · have hb : (e.1 == p) = true := by simpa using h
        simpa [fsRemove, fsLookup, List.filter, hb] using ih
      · have hb : (e.1 == p) = false := by simpa using h
        have hb2 : (p == e.1) = false := by
          simpa using (Ne.symm h)
        simp only [fsRemove, fsLookup, List.filter, hb, Bool.not_false] at ih ⊢
        simpa [List.lookup, hb2] using ih

theorem fsLookup_fsRemove_other (fs : FS) (p q : String) (h : p ≠ q) :
    fsLookup (fsRemove fs q) p = fsLookup fs p := by
  induction fs with
  | nil => rfl
  | cons e t ih =>
      by_cases he : e.1 = q
      · have hb : (e.1 == q) = true := by simpa using he
        have hb2 : (p == e.1) = false := by
          simp only [beq_eq_false_iff_ne, ne_eq]
          rw [he]; exact h
        simp only [fsRemove, fsLookup, List.filter, hb, Bool.not_true] at ih ⊢
        simpa [List.lookup, hb2] using ih
      · have hb : (e.1 == q) = false := by simpa using he
        simp only [fsRemove, fsLookup, List.filter, hb, Bool.not_false] at ih ⊢
        cases hbe : (p == e.1) with
        | true => simp [List.lookup, hbe]
        | false => simpa [List.lookup, hbe] using ih

theorem vsiRename_fst (fs : FS) (a b : String) :
    (vsiRename fs a b).1 = (fsLookup fs a).isSome := by
  unfold vsiRename
  cases fsLookup fs a <;> rfl

theorem vsiRename_some (fs : FS) (a b : String) (c : Nat)
    (h : fsLookup fs a = some c) :
    vsiRename fs a b = (true, (b, c) :: fsRemove (fsRemove fs a) b) := by
  unfold vsiRename
  rw [h]

theorem vsiRename_none (fs : FS) (a b : String)
    (h : fsLookup fs a = none) :
    vsiRename fs a b = (false, fs) := by
  unfold vsiRename
  rw [h]

theorem fsLookup_cons_ne (a : String) (c : Nat) (l : FS) (p : String)
    (h : p ≠ a) : fsLookup ((a, c) :: l) p = fsLookup l p := by
  have hb : (p == a) = false := by simpa using h
  simp [fsLookup, List.lookup, hb]

theorem fsLookup_cons_self (a : String) (c : Nat) (l : FS) :
    fsLookup ((a, c) :: l) a = some c := by
  simp [fsLookup, List.lookup]

theorem append_tmp_ne (t : String) : t ++ ".tmp" ≠ t := by
  intro h
  have hlen := congrArg String.length h
  rw [String.length_append] at hlen
  have h4 : ".tmp".length = 4 := by decide
  omega

/-- `C8` (counterexample): with the target present but the new file missing,
the first rename succeeds and the second fails, so `fileSwap` reports
failure — yet the `".tmp"` artifact (holding the original data) has been
deleted, contradicting the claim that on failure the artifacts, including
the `.tmp` file, are left in place. -/
theorem fileSwap_failure_removes_tmp :
    (fileSwap c8FS "x.gdbtablx" "x.gdbtablx.new").1 = false ∧
    fsLookup (fileSwap c8FS "x.gdbtablx" "x.gdbtablx.new").2 "x.gdbtablx.tmp" =
      none := by
  constructor <;> rfl

/-- `C8` (amended): `fileSwap` renames `target` to `target ++ ".tmp"`, then —
only if that succeeded — renames `newPath` to `target`; it reports success
iff both renames succeeded; and it deletes the `".tmp"` path
*unconditionally*, on failure as well as on success, so the `.tmp` artifact
never survives the call.  On success (and when `newPath` is not itself the
`.tmp` path) the target ends up holding the previous content of
`newPath`. -/
theorem fileSwap_spec (fs : FS) (t n : String) :
    fsLookup (fileSwap fs t n).2 (t ++ ".tmp") = none ∧
    ((fileSwap fs t n).1 = true ↔
      (fsLookup fs t).isSome = true ∧
      (fsLookup (vsiRename fs t (t ++ ".tmp")).2 n).isSome = true) ∧
    ((fileSwap fs t n).1 = true → n ≠ t ++ ".tmp" →
      fsLookup (fileSwap fs t n).2 t = fsLookup fs n) := by
  refine ⟨fsLookup_fsRemove_self _ _, ?_, ?_⟩
  · cases hl : fsLookup fs t with
    | none =>
        rw [fileSwap, vsiRename_none fs t _ hl]
        simp [hl]
    | some c =>
        rw [fileSwap, vsiRename_some fs t _ c hl]
        simp only [hl, Option.isSome_some, true_and, if_pos trivial,
          Bool.true_and]
        rw [vsiRename_fst]
  · intro hok hne
    cases hl : fsLookup fs t with
    | none =>
        rw [fileSwap, vsiRename_none fs t _ hl] at hok
        simp at hok
    | some c =>
        rw [fileSwap, vsiRename_some fs t _ c hl] at hok ⊢
        simp only [if_pos trivial, Bool.true_and] at hok ⊢
        set fs1 : FS := (t ++ ".tmp", c) :: fsRemove (fsRemove fs t)
          (t ++ ".tmp") with hfs1
        cases hl2 : fsLookup fs1 n with
        | none =>
            rw [vsiRename_none fs1 n t hl2] at hok
            simp at hok
        | some d =>
            -- the value moved into the target is the original content of n
            have hl2r : fsLookup (fsRemove (fsRemove fs t) (t ++ ".tmp")) n
                = some d := by
              rw [← hl2, hfs1, fsLookup_cons_ne _ _ _ _ hne]
            have hnet : n ≠ t := by
              intro h
              subst h
              rw [fsLookup_fsRemove_other _ _ _ (Ne.symm (append_tmp_ne n)),
                fsLookup_fsRemove_self] at hl2r
              exact Option.noConfusion hl2r
            have hstep : fsLookup fs n = some d := by
              rw [← hl2r, fsLookup_fsRemove_other _ _ _ hne,
                fsLookup_fsRemove_other _ _ _ hnet]
            rw [vsiRename_some fs1 n t d hl2]
            show fsLookup (vsiUnlink ((t, d) :: fsRemove (fsRemove fs1 n) t)
              (t ++ ".tmp")) t = fsLookup fs n
            rw [vsiUnlink, show fsRemove ((t, d) :: fsRemove (fsRemove fs1 n) t)
                (t ++ ".tmp") = (t, d) :: fsRemove (fsRemove (fsRemove fs1 n) t)
                (t ++ ".tmp") from ?_]
            · rw [fsLookup_cons_self, hstep]
            · have hbt : (t == t ++ ".tmp") = false := by
                simpa using (Ne.symm (append_tmp_ne t))
              simp [fsRemove, List.filter, hbt]

/-- `C8` witness: on a filesystem holding both the target and the new file the
swap succeeds, the `.tmp` file is gone, and the target holds the new
content. -/
theorem fileSwap_spec_witness :
    (fileSwap [("a.gdbtablx", 5), ("a.gdbtablx.new", 9)] "a.gdbtablx"
        "a.gdbtablx.new").1 = true ∧
    fsLookup (fileSwap [("a.gdbtablx", 5), ("a.gdbtablx.new", 9)] "a.gdbtablx"
        "a.gdbtablx.new").2 "a.gdbtablx" = some 9 := by
  have h := fileSwap_spec [("a.gdbtablx", 5), ("a.gdbtablx.new", 9)]
    "a.gdbtablx" "a.gdbtablx.new"
  refine ⟨by decide, ?_⟩
  have h2 := h.2.2 (by decide) (by decide)
  rw [h2]
  rfl

/-- `C10`: a relocated internal identifier — a key of `f2o` that is not a key
of `o2f` — is not addressable through the public feature interface: both
`DeleteFeature` and `ISetFeature` report `OGRERR_NON_EXISTING_FEATURE` and
leave the table rows and both remap maps unchanged. -/
theorem relocated_internal_fids_not_addressable (s : LayerState) (n : Int)
    (hupd : s.updateMode = true) (htab : s.hasTable = true)
    (hpos : 1 ≤ n) (h32 : n < 2 ^ 31)
    (hf2o : (s.f2o.lookup n).isSome = true)
    (ho2f : s.o2f.lookup n = none) :
    (DeleteFeature s n).1 = .nonExisting ∧
    (DeleteFeature s n).2.o2f = s.o2f ∧
    (DeleteFeature s n).2.f2o = s.f2o ∧
    (DeleteFeature s n).2.tableRows = s.tableRows ∧
    (ISetFeature s n 0).1 = .nonExisting ∧
    (ISetFeature s n 0).2.o2f = s.o2f ∧
    (ISetFeature s n 0).2.f2o = s.f2o ∧
    (ISetFeature s n 0).2.tableRows = s.tableRows := by
  have hnot : ¬ (s.updateMode = false ∨ s.hasTable = false) := by
    rw [hupd, htab]; simp
  have hfits : fitsInt32 n := by
    constructor
    · calc -(2 ^ 31) ≤ (0 : Int) := by norm_num
        _ ≤ n := le_trans (by norm_num) hpos
    · exact h32
  have hne1 : n ≠ -1 := by omega
  unfold DeleteFeature ISetFeature
  rw [if_neg hnot, if_neg (not_not_intro hfits), if_neg hnot, if_neg hne1,
    if_neg (not_not_intro hfits)]
  rw [ho2f]
  simp [ho2f, hf2o, EndBulkLoad]

/-- `C10` witness: concrete state where internal FID 1000001 was relocated to
external FID 5. -/
theorem relocated_internal_fids_not_addressable_witness :
    (DeleteFeature
      { o2f := [(5, 1000001)], f2o := [(1000001, 5)], updateMode := true,
        hasTable := true, bulkLoadInProgress := false,
        tableRows := [(3, 7)] } 1000001).1 = .nonExisting ∧
    (ISetFeature
      { o2f := [(5, 1000001)], f2o := [(1000001, 5)], updateMode := true,
        hasTable := true, bulkLoadInProgress := false,
        tableRows := [(3, 7)] } 1000001 0).2.tableRows = [(3, 7)] := by
  have h := relocated_internal_fids_not_addressable
    { o2f := [(5, 1000001)], f2o := [(1000001, 5)], updateMode := true,
      hasTable := true, bulkLoadInProgress := false, tableRows := [(3, 7)] }
    1000001 rfl rfl (by norm_num) (by norm_num) (by decide) (by decide)
  exact ⟨h.1, h.2.2.2.2.2.2.2⟩

/-- `C5`/`C6`/`C7` shared fact: the outer editor unlinks the index file iff
the walk raised `bInvalidateIndex` (FGdbLayer.cpp:306-311); in particular a
plain failure (read/seek/write error) leaves the file in place. -/
theorem editATX_fileAfter_isNone_eq_invalidated (f : IdxFile)
    (m : List (Int × Int)) :
    (EditATXOrSPX f m).fileAfter.isNone = (EditATXOrSPX f m).invalidated := by
  unfold EditATXOrSPX
  split
  · rfl
  · cases h : (walkIdx f.sizeIndexedValue f.depth 1
      { f2o := m, pages := f.pages, lastPageVisited := 0, lastVal := [],
        validVal := false, firstIndexAtThisValue := -1, pagesAtThisValue := [],
        sortThisValue := false,
        invalidateIndex := false }).2.invalidateIndex <;> simp [h]

/-- `C5` (counterexample): `EditATXOrSPX` does *not* leave
`m_oMapFGDBFIDToOGRFID` unchanged: looking up each row identifier with
`std::map::operator[]` (FGdbLayer.cpp:372) inserts a value-initialized
entry `(7, 0)` for the identifier 7 that was absent from the map. -/
theorem editATX_mutates_f2o :
    (EditATXOrSPX c5File [(3, 5)]).f2o ≠ [(3, 5)] := by decide

theorem f2oExtends_refl (m : List (Int × Int)) : f2oExtends m m :=
  ⟨fun _ h => h, fun _ h => Or.inl h⟩

theorem f2oExtends_trans {a b c : List (Int × Int)}
    (h1 : f2oExtends a b) (h2 : f2oExtends b c) : f2oExtends a c := by
  refine ⟨fun kv h => h2.1 kv (h1.1 kv h), fun kv h => ?_⟩
  rcases h2.2 kv h with h' | h'
  · rcases h1.2 kv h' with h'' | h''
    · exact Or.inl h''
    · exact Or.inr h''
  · exact Or.inr h'

theorem mem_insertSorted (m : List (Int × Int)) (k v : Int)
    (kv : Int × Int) :
    kv ∈ insertSorted m k v → kv ∈ m ∨ kv = (k, v) := by
  induction m with
  | nil =>
      intro h
      simp only [insertSorted, List.mem_singleton] at h
      exact Or.inr h
  | cons e rest ih =>
      intro h
      simp only [insertSorted] at h
      split at h
      · rcases List.mem_cons.1 h with h' | h'
        · exact Or.inr h'
        · exact Or.inl h'
      · split at h
        · exact Or.inl h
        · rcases List.mem_cons.1 h with h' | h'
          · exact Or.inl (List.mem_cons.2 (Or.inl h'))
          · rcases ih h' with h'' | h''
            · exact Or.inl (List.mem_cons.2 (Or.inr h''))
            · exact Or.inr h''

theorem mem_insertSorted_of_mem (m : List (Int × Int)) (k v : Int)
    (kv : Int × Int) (h : kv ∈ m) : kv ∈ insertSorted m k v := by
  induction m with
  | nil => cases h
  | cons e rest ih =>
      simp only [insertSorted]
      split
      · exact List.mem_cons.2 (Or.inr h)
      · split
        · exact h
        · rcases List.mem_cons.1 h with h' | h'
          · exact List.mem_cons.2 (Or.inl h')
          · exact List.mem_cons.2 (Or.inr (ih h'))

theorem f2oExtends_mapIndexOp (m : List (Int × Int)) (k : Int) :
    f2oExtends m (mapIndexOp m k).2 := by
  unfold mapIndexOp
  cases h : m.lookup k with
  | some v => exact f2oExtends_refl m
  | none =>
      refine ⟨fun kv hm => mem_insertSorted_of_mem m k 0 kv hm, fun kv hm => ?_⟩
      rcases mem_insertSorted m k 0 kv hm with h' | h'
      · exact Or.inl h'
      · exact Or.inr (by rw [h'])

theorem sortAction_f2o (tp nx : Int) (i n : Nat) (b : Bool) (st : AtxState)
    (fids : List Int) (rw : Bool) :
    (sortAction tp nx i n b st fids rw).1.f2o = st.f2o ∧
    (sortAction tp nx i n b st fids rw).1.pagesAtThisValue =
      st.pagesAtThisValue ∧
    (sortAction tp nx i n b st fids rw).1.invalidateIndex =
      st.invalidateIndex ∧
    (sortAction tp nx i n b st fids rw).1.validVal = st.validVal ∧
    (sortAction tp nx i n b st fids rw).1.lastVal = st.lastVal ∧
    (sortAction tp nx i n b st fids rw).1.sortThisValue = st.sortThisValue ∧
    (sortAction tp nx i n b st fids rw).1.firstIndexAtThisValue =
      st.firstIndexAtThisValue ∧
    (sortAction tp nx i n b st fids rw).1.lastPageVisited =
      st.lastPageVisited := by
  by_cases h : st.pagesAtThisValue.head?.getD 0 = tp <;>
    simp [sortAction, h]

/-- Every branch of one entry step leaves `m_oMapFGDBFIDToOGRFID` exactly as
`operator[]` (`mapIndexOp`) produced it: the re-sort and the run bookkeeping
never touch the map. -/
theorem leafEntryStep_f2o (next : Int) (vals : List (List Nat)) (n : Nat)
    (thisPage : Int) (i : Nat) (ls : LeafStep) :
    ((leafEntryStep next vals n thisPage i ls).elim (fun a => a.st.f2o)
        (fun b => b.st.f2o)) =
      (mapIndexOp ls.st.f2o (ls.fids.getD i 0)).2 := by
  simp only [leafEntryStep, Sum.elim]
  repeat' split
  all_goals first
    | rfl
    | (rw [(sortAction_f2o _ _ _ _ _ _ _ _).1]; try rfl)

/-- What one entry step does to the map, as an extension fact. -/
theorem leafEntryStep_f2oExtends (next : Int) (vals : List (List Nat))
    (n : Nat) (thisPage : Int) (i : Nat) (ls : LeafStep) :
    f2oExtends ls.st.f2o
      ((leafEntryStep next vals n thisPage i ls).elim (fun a => a.st.f2o)
        (fun b => b.st.f2o)) := by
  rw [leafEntryStep_f2o]
  exact f2oExtends_mapIndexOp _ _

theorem leafLoop_f2oExtends (next : Int) (vals : List (List Nat)) (n : Nat)
    (thisPage : Int) (fuel : Nat) :
    ∀ (i : Nat) (ls : LeafStep),
      f2oExtends ls.st.f2o
        (leafLoop next vals n thisPage fuel i ls).2.st.f2o := by
  induction fuel with
  | zero => intro i ls; exact f2oExtends_refl _
  | succ fuel ih =>
      intro i ls
      simp only [leafLoop]
      by_cases hni : n ≤ i
      · rw [if_pos hni]; exact f2oExtends_refl _
      · rw [if_neg hni]
        have h1 := leafEntryStep_f2oExtends next vals n thisPage i ls
        cases hstep : leafEntryStep next vals n thisPage i ls with
        | inr bad =>
            rw [hstep] at h1
            exact h1
        | inl good =>
            rw [hstep] at h1
            exact f2oExtends_trans h1 (ih (i + 1) good)

theorem processLeafPage_f2oExtends (sizeVal : Nat) (p : Int) (s : AtxState) :
    f2oExtends s.f2o (processLeafPage sizeVal p s).2.f2o := by
  unfold processLeafPage
  split
  · exact f2oExtends_refl _
  · split
    · rename_i next fids vals
      simp only []
      split
      · exact f2oExtends_refl _
      · split
        · exact leafLoop_f2oExtends _ _ _ _ _ _ ⟨_, _, s⟩
        · split <;> exact leafLoop_f2oExtends _ _ _ _ _ _ ⟨_, _, s⟩
    · exact f2oExtends_refl _

theorem foldlChildren_f2oExtends (sizeVal : Nat) (d : Nat)
    (hw : ∀ (p : Int) (s : AtxState),
      f2oExtends s.f2o (walkIdx sizeVal d p s).2.f2o) :
    ∀ (children : List Int) (acc : Bool × AtxState),
      f2oExtends acc.2.f2o
        (children.foldl (fun acc c =>
          if acc.1 = false then acc
          else if c < 1 then (false, acc.2)
          else walkIdx sizeVal d c acc.2) acc).2.f2o := by
  intro children
  induction children with
  | nil => intro acc; exact f2oExtends_refl _
  | cons c cs ih =>
      intro acc
      simp only [List.foldl]
      refine f2oExtends_trans ?_ (ih _)
      split
      · exact f2oExtends_refl _
      · split
        · exact f2oExtends_refl _
        · exact hw _ _


theorem walkIdx_f2oExtends (sizeVal : Nat) (d : Nat) :
    ∀ (p : Int) (s : AtxState),
      f2oExtends s.f2o (walkIdx sizeVal d p s).2.f2o := by
  induction d using Nat.strong_induction_on with
  | _ d ih =>
      cases d with
      | zero => intro p s; exact f2oExtends_refl _
      | succ d1 =>
          cases d1 with
          | zero => intro p s; exact processLeafPage_f2oExtends _ _ _
          | succ d2 =>
              intro p s
              simp only [walkIdx]
              split
              · rename_i children hpg
                split
                · exact f2oExtends_refl _
                · exact foldlChildren_f2oExtends sizeVal (d2 + 1)
                    (ih (d2 + 1) (by omega)) children (true, s)
              · exact f2oExtends_refl _
theorem leafEntryStep_invalidate (next : Int) (vals : List (List Nat))
    (n : Nat) (thisPage : Int) (i : Nat) (ls : LeafStep) :
    (leafEntryStep next vals n thisPage i ls).elim
      (fun g => g.st.invalidateIndex = ls.st.invalidateIndex)
      (fun b => b.st.invalidateIndex = true) := by
  simp only [leafEntryStep, Sum.elim]
  repeat' split
  all_goals first
    | rfl
    | (rw [(sortAction_f2o _ _ _ _ _ _ _ _).2.2.1]; try rfl)

theorem leafLoop_invalidate (next : Int) (vals : List (List Nat)) (n : Nat)
    (thisPage : Int) (fuel : Nat) :
    ∀ (i : Nat) (ls : LeafStep),
      (leafLoop next vals n thisPage fuel i ls).2.st.invalidateIndex = true →
        ls.st.invalidateIndex = true ∨
        (leafLoop next vals n thisPage fuel i ls).1 = false := by
  induction fuel with
  | zero => intro i ls h; exact Or.inl h
  | succ fuel ih =>
      intro i ls
      simp only [leafLoop]
      by_cases hni : n ≤ i
      · rw [if_pos hni]; exact fun h => Or.inl h
      · rw [if_neg hni]
        have hstep := leafEntryStep_invalidate next vals n thisPage i ls
        cases he : leafEntryStep next vals n thisPage i ls with
        | inr bad => exact fun _ => Or.inr rfl
        | inl good =>
            rw [he] at hstep
            intro h
            rcases ih (i + 1) good h with h1 | h1
            · exact Or.inl (hstep ▸ h1)
            · exact Or.inr h1

theorem processLeafPage_invalidate (sizeVal : Nat) (p : Int) (s : AtxState) :
    (processLeafPage sizeVal p s).2.invalidateIndex = true →
      s.invalidateIndex = true ∨ (processLeafPage sizeVal p s).1 = false := by
  unfold processLeafPage
  split
  · exact fun h => Or.inl h
  · split
    · rename_i pg nx fl vl
      simp only []
      split
      · exact fun h => Or.inl h
      · split
        · rename_i hr
          intro h
          rcases leafLoop_invalidate _ _ _ _ _ _ ⟨_, _, s⟩ h with h1 | h1
          · exact Or.inl h1
          · exact Or.inr rfl
        · rename_i hr
          intro h
          have h2 : (leafLoop pg fl nx.length p nx.length 0
              ⟨nx, false, s⟩).2.st.invalidateIndex = true := by
            split at h <;> exact h
          rcases leafLoop_invalidate _ _ _ _ _ _ ⟨nx, false, s⟩ h2 with h1 | h1
          · exact Or.inl h1
          · exact absurd h1 hr
    · exact fun h => Or.inl h

theorem foldlChildren_latch (sizeVal : Nat) (d : Nat) :
    ∀ (children : List Int) (s : AtxState),
      (children.foldl (fun acc c =>
        if acc.1 = false then acc
        else if c < 1 then (false, acc.2)
        else walkIdx sizeVal d c acc.2) ((false, s) : Bool × AtxState)) =
      (false, s) := by
  intro children
  induction children with
  | nil => intro s; rfl
  | cons c cs ih => intro s; simp only [List.foldl]; exact ih s

theorem foldlChildren_invalidate (sizeVal : Nat) (d : Nat)
    (hw : ∀ (p : Int) (s : AtxState),
      (walkIdx sizeVal d p s).2.invalidateIndex = true →
        s.invalidateIndex = true ∨ (walkIdx sizeVal d p s).1 = false) :
    ∀ (children : List Int) (acc : Bool × AtxState),
      (children.foldl (fun acc c =>
          if acc.1 = false then acc
          else if c < 1 then (false, acc.2)
          else walkIdx sizeVal d c acc.2) acc).2.invalidateIndex = true →
        acc.2.invalidateIndex = true ∨
        (children.foldl (fun acc c =>
          if acc.1 = false then acc
          else if c < 1 then (false, acc.2)
          else walkIdx sizeVal d c acc.2) acc).1 = false := by
  intro children
  induction children with
  | nil => intro acc h; exact Or.inl h
  | cons c cs ih =>
      intro acc
      simp only [List.foldl]
      by_cases ha : acc.1 = false
      · rw [if_pos ha]
        intro h
        rcases ih acc h with h1 | h1
        · exact Or.inl h1
        · exact Or.inr h1
      · rw [if_neg ha]
        by_cases hc : c < 1
        · rw [if_pos hc]
          have hlatch := foldlChildren_latch sizeVal d cs acc.2
          rw [hlatch]
          intro h
          exact Or.inl h
        · rw [if_neg hc]
          intro h
          rcases ih (walkIdx sizeVal d c acc.2) h with h1 | h1
          · rcases hw c acc.2 h1 with h2 | h2
            · exact Or.inl h2
            · have : walkIdx sizeVal d c acc.2 =
                  (false, (walkIdx sizeVal d c acc.2).2) := by
                cases hx : walkIdx sizeVal d c acc.2 with
                | mk a b => rw [hx] at h2; simp at h2; rw [h2]
              rw [this, foldlChildren_latch sizeVal d cs]
              exact Or.inr rfl
          · exact Or.inr h1

theorem walkIdx_invalidate (sizeVal : Nat) (d : Nat) :
    ∀ (p : Int) (s : AtxState),
      (walkIdx sizeVal d p s).2.invalidateIndex = true →
        s.invalidateIndex = true ∨ (walkIdx sizeVal d p s).1 = false := by
  induction d using Nat.strong_induction_on with
  | _ d ih =>
      cases d with
      | zero => intro p s h; exact Or.inl h
      | succ d1 =>
          cases d1 with
          | zero => intro p s; exact processLeafPage_invalidate _ _ _
          | succ d2 =>
              intro p s
              simp only [walkIdx]
              split
              · rename_i children hpg
                split
                · exact fun h => Or.inl h
                · exact foldlChildren_invalidate sizeVal (d2 + 1)
                    (ih (d2 + 1) (by omega)) children (true, s)
              · exact fun h => Or.inl h

/-- `C6` (amended): `EditATXOrSPX` deletes the index file exactly when the
walk raised the run-limit invalidation signal; a read/seek/write failure
only makes it report failure, leaving the (possibly partially rewritten)
index file in place; and a successful repair never invalidates. -/
theorem editATX_discard_spec (f : IdxFile) (m : List (Int × Int)) :
    (EditATXOrSPX f m).fileAfter.isNone = (EditATXOrSPX f m).invalidated ∧
    ((EditATXOrSPX f m).ret = true →
      (EditATXOrSPX f m).invalidated = false) := by
  refine ⟨editATX_fileAfter_isNone_eq_invalidated f m, ?_⟩
  unfold EditATXOrSPX
  split
  · intro h; cases h
  · intro h
    simp only [] at h
    by_contra hinv
    simp only [Bool.not_eq_false] at hinv
    rcases walkIdx_invalidate f.sizeIndexedValue f.depth 1 _ hinv with h1 | h1
    · cases h1
    · rw [h] at h1; cases h1

/-- `C6` (counterexample): on a read failure (child page 5 cannot be read)
`EditATXOrSPX` reports failure but does *not* remove the index file — only
the run-limit invalidation signal triggers `VSIUnlink`
(FGdbLayer.cpp:306-311), contradicting the claim that any read/seek/write
failure removes the file. -/
theorem editATX_read_failure_keeps_file :
    (EditATXOrSPX c6File []).ret = false ∧
    (EditATXOrSPX c6File []).invalidated = false ∧
    (EditATXOrSPX c6File []).fileAfter.isSome = true := by
  exact ⟨rfl, rfl, rfl⟩

/-- `C6` witness: a successful repair, where the theorem's implication fires. -/
theorem editATX_discard_spec_witness :
    (EditATXOrSPX c5File [(3, 5)]).fileAfter.isNone =
      (EditATXOrSPX c5File [(3, 5)]).invalidated ∧
    (EditATXOrSPX c5File [(3, 5)]).invalidated = false := by
  have h := editATX_discard_spec c5File [(3, 5)]
  exact ⟨h.1, h.2 (by decide)⟩

theorem sortAction_run (tp nx : Int) (i n : Nat) (b : Bool) (st : AtxState)
    (fids : List Int) (rw : Bool) :
    (sortAction tp nx i n b st fids rw).1.pagesAtThisValue =
      st.pagesAtThisValue :=
  (sortAction_f2o tp nx i n b st fids rw).2.1

theorem sortAction_inv (tp nx : Int) (i n : Nat) (b : Bool) (st : AtxState)
    (fids : List Int) (rw : Bool) :
    (sortAction tp nx i n b st fids rw).1.invalidateIndex =
      st.invalidateIndex :=
  (sortAction_f2o tp nx i n b st fids rw).2.2.1

/-- The run-limit check (FGdbLayer.cpp:505-516): when the first entry of a
leaf page continues the current run (same indexed value as the last one
seen) and the run already spans more than 100000 *pages*, the entry step
raises `bInvalidateIndex` and returns the early failure. -/
theorem leafEntryStep_runLimit (next : Int) (vals : List (List Nat)) (n : Nat)
    (thisPage : Int) (ls : LeafStep)
    (hv : ls.st.validVal = true) (hlv : ls.st.lastVal = vals.getD 0 [])
    (hlen : 100000 < ls.st.pagesAtThisValue.length) :
    (leafEntryStep next vals n thisPage 0 ls).elim (fun _ => False)
      (fun b => b.st.invalidateIndex = true) := by
  have hb : (!ls.st.validVal || decide (ls.st.lastVal ≠ vals.getD 0 []))
      = false := by
    rw [hv, hlv]; simp
  by_cases hM : (mapIndexOp ls.st.f2o (ls.fids.getD 0 0)).1 ≠ 0 <;>
  by_cases hD : ((0 : Nat) = n - 1 ∧ next = 0) <;>
  by_cases hS : ls.st.sortThisValue = true <;>
  · simp only [leafEntryStep, hb]
    simp only [eq_true hv]
    try simp only [eq_true hM]
    try simp only [eq_false hM]
    try simp only [eq_true hD]
    try simp only [eq_false hD]
    try simp [sortAction_run, hlen, Sum.elim]
    try simp only [eq_true hS]
    try simp only [eq_false hS]
    try simp [sortAction_run, hlen, Sum.elim]

/-- `C7` (amended), page-level part: a leaf page whose first entry continues
a run that already spans more than 100000 pages makes `processLeafPage`
fail with `bInvalidateIndex` raised. -/
theorem processLeafPage_runLimit (sizeVal : Nat) (p : Int) (s : AtxState)
    (next : Int) (fids : List Int) (vals : List (List Nat))
    (hlp : ¬ p = s.lastPageVisited)
    (hpg : s.pages p = some (.leaf next fids vals))
    (hbound : ¬ (4096 - 12) / (4 + sizeVal) < fids.length)
    (hne : 1 ≤ fids.length)
    (hv : s.validVal = true) (hlv : s.lastVal = vals.getD 0 [])
    (hlen : 100000 < s.pagesAtThisValue.length) :
    (processLeafPage sizeVal p s).1 = false ∧
    (processLeafPage sizeVal p s).2.invalidateIndex = true := by
  have hstep := leafEntryStep_runLimit next vals fids.length p
    ⟨fids, false, s⟩ hv hlv hlen
  obtain ⟨m, hm⟩ : ∃ m, fids.length = m + 1 := ⟨fids.length - 1, by omega⟩
  cases he : leafEntryStep next vals fids.length p 0 ⟨fids, false, s⟩ with
  | inl good => rw [he] at hstep; cases hstep
  | inr bad =>
      rw [he] at hstep
      have hloop : leafLoop next vals fids.length p fids.length 0
          ⟨fids, false, s⟩ = (false, bad) := by
        rw [hm] at he ⊢
        simp only [leafLoop]
        rw [if_neg (show ¬ (m + 1 ≤ 0) by omega), he]
      unfold processLeafPage
      rw [if_neg hlp, hpg]
      simp only []
      rw [if_neg hbound, hloop]
      exact ⟨rfl, hstep⟩

/-- `C7` (amended): the invalidation signal counts *pages*, not entries: when
a leaf page's first entry continues a run already spanning more than 100000
pages, the repair fails with `bInvalidateIndex` raised, and the outer
editor deletes the index file exactly when that signal is raised (no crash:
the model is a total function). -/
theorem runLimit_invalidation_spec :
    (∀ (sizeVal : Nat) (p : Int) (s : AtxState) (next : Int)
      (fids : List Int) (vals : List (List Nat)),
      ¬ p = s.lastPageVisited →
      s.pages p = some (.leaf next fids vals) →
      ¬ (4096 - 12) / (4 + sizeVal) < fids.length →
      1 ≤ fids.length →
      s.validVal = true → s.lastVal = vals.getD 0 [] →
      100000 < s.pagesAtThisValue.length →
      (processLeafPage sizeVal p s).1 = false ∧
      (processLeafPage sizeVal p s).2.invalidateIndex = true) ∧
    (∀ (g : IdxFile) (m : List (Int × Int)),
      (EditATXOrSPX g m).fileAfter.isNone = (EditATXOrSPX g m).invalidated) :=
  ⟨fun sv p s nx fl vl h1 h2 h3 h4 h5 h6 h7 =>
    processLeafPage_runLimit sv p s nx fl vl h1 h2 h3 h4 h5 h6 h7,
   editATX_fileAfter_isNone_eq_invalidated⟩

/-- `C7` witness. -/
theorem runLimit_invalidation_spec_witness :
    ((processLeafPage 1 3 c7WitnessState).1 = false ∧
     (processLeafPage 1 3 c7WitnessState).2.invalidateIndex = true) ∧
    (EditATXOrSPX c6File []).fileAfter.isNone =
      (EditATXOrSPX c6File []).invalidated := by
  constructor
  · exact runLimit_invalidation_spec.1 1 3 c7WitnessState 0 [10] [[1]]
      (by decide) rfl (by decide) (by decide) rfl rfl
      (by show 100000 < (List.replicate 100001 (2 : Int)).length
          rw [List.length_replicate]
          omega)
  · exact runLimit_invalidation_spec.2 c6File []

theorem c7_processLeafPage_two :
    processLeafPage 1 2 c7Init = (false, c7Init) := by
  unfold processLeafPage
  rw [if_neg (show ¬ (2 : Int) = c7Init.lastPageVisited by decide)]
  rw [show c7Init.pages 2 = some (.leaf 3 (List.replicate 50001 10)
      (List.replicate 50001 [1])) from rfl]
  simp only []
  rw [if_pos (by rw [List.length_replicate]; decide)]

/-- `C7` (counterexample): a run of 100001 *entries* on just 2 pages is not
what the run limit measures: the first page's claimed feature count 50001
fails the per-page bounds check `(4096-12)/(4+1) = 816`
(FGdbLayer.cpp:357-360), so the repair merely reports failure — the index
is *not* invalidated and *not* deleted, contradicting the claimed
deletion. -/
theorem editATX_proj (f : IdxFile) (m : List (Int × Int))
    (h : ¬ f.sizeIndexedValue = 0) :
    (EditATXOrSPX f m).invalidated =
      (walkIdx f.sizeIndexedValue f.depth 1
        (AtxState.mk m f.pages 0 [] false (-1) [] false
          false)).2.invalidateIndex ∧
    (EditATXOrSPX f m).ret =
      (walkIdx f.sizeIndexedValue f.depth 1
        (AtxState.mk m f.pages 0 [] false (-1) [] false false)).1 := by
  unfold EditATXOrSPX
  rw [if_neg h]
  exact ⟨rfl, rfl⟩

theorem c7_walk : walkIdx 1 2 1 c7Init = (false, c7Init) := by
  simp only [walkIdx]
  rw [show c7Init.pages 1 = some (.interior [2, 3]) from rfl]
  simp only []
  rw [if_neg (show ¬ (4096 - 8) / 4 < ([2, 3] : List Int).length by decide)]
  rw [List.foldl_cons, List.foldl_cons, List.foldl_nil]
  simp only []
  rw [if_neg (show ¬ (true = false) by decide),
      if_neg (show ¬ (2 : Int) < 1 by decide), c7_processLeafPage_two]
  simp only []
  rw [if_pos trivial]

theorem runLimit_scenario_not_deleted :
    (EditATXOrSPX c7File [(10, 7)]).invalidated = false ∧
    (EditATXOrSPX c7File [(10, 7)]).ret = false ∧
    (EditATXOrSPX c7File [(10, 7)]).fileAfter.isSome = true := by
  have hw := c7_walk
  have hproj := editATX_proj c7File [(10, 7)] (by decide)
  have hstate : (AtxState.mk [(10, 7)] c7File.pages 0 [] false (-1) [] false
      false) = c7Init := rfl
  rw [hstate] at hproj
  have hinv : (EditATXOrSPX c7File [(10, 7)]).invalidated = false := by
    rw [hproj.1]
    rw [show c7File.sizeIndexedValue = 1 from rfl,
      show c7File.depth = 2 from rfl, hw]
    rfl
  refine ⟨hinv, ?_, ?_⟩
  · rw [hproj.2]
    rw [show c7File.sizeIndexedValue = 1 from rfl,
      show c7File.depth = 2 from rfl, hw]
  · have h3 := editATX_fileAfter_isNone_eq_invalidated c7File [(10, 7)]
    rw [hinv] at h3
    cases ho : (EditATXOrSPX c7File [(10, 7)]).fileAfter with
    | none => rw [ho] at h3; cases h3
    | some g => rfl

/-- `C2` (counterexample): with remap `{5 → 1000001}` the trailing
compaction (FGdbLayer.cpp:652-663) drops *only* the relocated row 1000001 —
it stops at row 1000000, which is merely empty, not relocated — so the
output header's `maxIdentifier` is 1000000, not the claimed 5. -/
theorem c2_header_not_five :
    (EditGDBTablX c2In [(5, 1000001)] [(1000001, 5)] false).map
      (fun o => o.headerMaxFID) = some 1000000 ∧
    some 5 ≠ (EditGDBTablX c2In [(5, 1000001)] [(1000001, 5)] false).map
      (fun o => o.headerMaxFID) := by
  constructor
  · rfl
  · intro h
    rw [show (EditGDBTablX c2In [(5, 1000001)] [(1000001, 5)] false).map
      (fun o => o.headerMaxFID) = some 1000000 from rfl] at h
    cases h

/-- `C5` (amended): `EditGDBTablX` only reads the remap maps — they come out
exactly as they went in; `EditATXOrSPX` never touches
`m_oMapOGRFIDToFGDBFID` (it does not reference it), but it *extends*
`m_oMapFGDBFIDToOGRFID` through `operator[]`: every pre-existing entry
survives unchanged, and every new entry carries the value-initialized
mapped value 0. -/
theorem rewriters_map_frame :
    (∀ (f : TablXIn) (o2f f2o : List (Nat × Nat)) (ds : Bool) (out : TablXOut),
      EditGDBTablX f o2f f2o ds = some out →
      out.o2f = o2f ∧ out.f2o = f2o) ∧
    (∀ (g : IdxFile) (m : List (Int × Int)),
      (∀ kv, kv ∈ m → kv ∈ (EditATXOrSPX g m).f2o) ∧
      (∀ kv, kv ∈ (EditATXOrSPX g m).f2o → kv ∈ m ∨ kv.2 = 0)) := by
  constructor
  · intro f o2f f2o ds out heq
    match o2f, f2o with
    | [], _ => simp [EditGDBTablX] at heq
    | _ :: _, [] => simp [EditGDBTablX] at heq
    | a :: o2f1, b :: f2o1 =>
        simp only [EditGDBTablX, Option.some.injEq] at heq
        subst heq
        exact ⟨rfl, rfl⟩
  · intro g m
    unfold EditATXOrSPX
    split
    · exact f2oExtends_refl m
    · exact walkIdx_f2oExtends g.sizeIndexedValue g.depth 1
        ⟨m, g.pages, 0, [], false, -1, [], false, false⟩

/-- `C5` witness: a tiny table and the one-leaf index of the
counterexample. -/
theorem rewriters_map_frame_witness :
    (∃ out, EditGDBTablX c2In [(5, 1000001)] [(1000001, 5)] false = some out ∧
      out.o2f = [(5, 1000001)] ∧ out.f2o = [(1000001, 5)]) ∧
    ((3, 5) ∈ (EditATXOrSPX c5File [(3, 5)]).f2o ∧
     ((7, 0) ∈ (EditATXOrSPX c5File [(3, 5)]).f2o ∧
       ((7, 0) ∈ ([(3, 5)] : List (Int × Int)) ∨ (0 : Int) = 0))) := by
  constructor
  · cases heval : EditGDBTablX c2In [(5, 1000001)] [(1000001, 5)] false with
    | none =>
        have h0 : (EditGDBTablX c2In [(5, 1000001)] [(1000001, 5)] false).map
            (fun o => o.headerMaxFID) = some 1000000 := rfl
        rw [heval] at h0
        cases h0
    | some out =>
        have h := rewriters_map_frame.1 c2In [(5, 1000001)] [(1000001, 5)]
          false out heval
        exact ⟨out, rfl, h.1, h.2⟩
  · have hv : (EditATXOrSPX c5File [(3, 5)]).f2o = [(3, 5), (7, 0)] := by decide
    have hmem : (3, 5) ∈ (EditATXOrSPX c5File [(3, 5)]).f2o :=
      (rewriters_map_frame.2 c5File [(3, 5)]).1 (3, 5) (List.mem_singleton.mpr rfl)
    refine ⟨hmem, ?_, Or.inr rfl⟩
    rw [hv]
    decide

theorem sKeys_tail {a : Nat × Nat} {t : List (Nat × Nat)} (h : sKeys (a :: t)) :
    sKeys t :=
  (List.pairwise_cons.mp h).2

theorem sKeys_head {a : Nat × Nat} {t : List (Nat × Nat)} (h : sKeys (a :: t)) :
    ∀ kv ∈ t, a.1 < kv.1 :=
  (List.pairwise_cons.mp h).1

theorem advanceKeys_eq_filter (m : List (Nat × Nat)) (i : Nat) (h : sKeys m) :
    advanceKeys m i = m.filter (fun kv => i ≤ kv.1) := by
  induction m with
  | nil => rfl
  | cons a t ih =>
      simp only [advanceKeys] at *
      rw [List.dropWhile_cons, List.filter_cons]
      by_cases ha : a.1 < i
      · rw [if_pos (by simpa using ha), if_neg (by simpa using Nat.not_le.mpr ha)]
        exact ih (sKeys_tail h)
      · rw [if_neg (by simpa using ha), if_pos (by simpa using Nat.not_lt.mp ha)]
        congr 1
        refine (List.filter_eq_self.mpr (fun kv hkv => ?_)).symm
        simp only [decide_eq_true_eq]
        exact Nat.le_of_lt (Nat.lt_of_le_of_lt (Nat.not_lt.mp ha) (sKeys_head h kv hkv))

theorem mem_advanceKeys {m : List (Nat × Nat)} {i : Nat} (h : sKeys m)
    {kv : Nat × Nat} : kv ∈ advanceKeys m i ↔ kv ∈ m ∧ i ≤ kv.1 := by
  rw [advanceKeys_eq_filter m i h, List.mem_filter]
  simp

theorem sKeys_advanceKeys {m : List (Nat × Nat)} (i : Nat) (h : sKeys m) :
    sKeys (advanceKeys m i) :=
  h.sublist (List.dropWhile_suffix _).sublist

theorem advanceKeys_zero (m : List (Nat × Nat)) : advanceKeys m 0 = m := by
  cases m with
  | nil => rfl
  | cons a t => simp [advanceKeys, List.dropWhile_cons]

theorem advanceKeys_advanceKeys {m : List (Nat × Nat)} {i j : Nat} (h : sKeys m)
    (hij : i ≤ j) : advanceKeys (advanceKeys m i) j = advanceKeys m j := by
  rw [advanceKeys_eq_filter m i h,
    advanceKeys_eq_filter _ j (by rw [← advanceKeys_eq_filter m i h]; exact sKeys_advanceKeys i h),
    advanceKeys_eq_filter m j h, List.filter_filter]
  refine List.filter_congr (fun kv _ => ?_)
  by_cases hk : j ≤ kv.1
  · rw [decide_eq_true hk, decide_eq_true (Nat.le_trans hij hk)]
    rfl
  · rw [decide_eq_false hk]
    rfl

theorem lookup_eq_some_of_mem {m : List (Nat × Nat)} (h : sKeys m) {k v : Nat}
    (hm : (k, v) ∈ m) : m.lookup k = some v := by
  induction m with
  | nil => cases hm
  | cons a t ih =>
      rcases List.mem_cons.mp hm with hhead | htail
      · have hk : k = a.1 := by rw [← hhead]
        have hv : v = a.2 := by rw [← hhead]
        simp [List.lookup, hk, hv]
      · have hne : ¬ (k = a.1) := by
          intro he
          exact absurd (sKeys_head h _ htail) (by simp [he])
        rw [List.lookup, beq_eq_false_iff_ne.mpr hne]
        exact ih (sKeys_tail h) htail

theorem mem_of_lookup_eq_some {m : List (Nat × Nat)} {k v : Nat}
    (h : m.lookup k = some v) : (k, v) ∈ m := by
  induction m with
  | nil => cases h
  | cons a t ih =>
      by_cases hk : k = a.1
      · have hv : a.2 = v := by simpa [List.lookup, hk] using h
        refine List.mem_cons.mpr (Or.inl ?_)
        rw [hk, ← hv]
      · rw [List.lookup, beq_eq_false_iff_ne.mpr hk] at h
        exact List.mem_cons_of_mem _ (ih h)

theorem lookup_eq_none_of_forall {m : List (Nat × Nat)} {k : Nat}
    (h : ∀ kv ∈ m, ¬ (kv.1 = k)) : m.lookup k = none := by
  induction m with
  | nil => rfl
  | cons a t ih =>
      rw [List.lookup, beq_eq_false_iff_ne.mpr (fun he => h a (by simp) (by rw [he]))]
      exact ih (fun kv hkv => h kv (List.mem_cons_of_mem _ hkv))

theorem advanceKeys_cons_of_lookup_some {m : List (Nat × Nat)} (h : sKeys m)
    {j v : Nat} (hl : m.lookup j = some v) :
    advanceKeys m j = (j, v) :: advanceKeys m (j + 1) := by
  have hmem : (j, v) ∈ m := mem_of_lookup_eq_some hl
  clear hl
  rw [advanceKeys_eq_filter m j h, advanceKeys_eq_filter m (j + 1) h]
  induction m with
  | nil => cases hmem
  | cons a t ih =>
      rcases List.mem_cons.mp hmem with hhead | htail
      · rw [List.filter_cons, List.filter_cons, ← hhead,
          if_pos (by simp), if_neg (by simp)]
        congr 1
        refine List.filter_congr (fun kv hkv => ?_)
        have hj : j < kv.1 := by
          have hgt := sKeys_head h kv hkv
          rw [← hhead] at hgt
          exact hgt
        rw [decide_eq_true (Nat.le_of_lt hj), decide_eq_true (by omega : j + 1 ≤ kv.1)]
      · have ha : a.1 < j := by
          have hgt := sKeys_head h _ htail
          simpa using hgt
        rw [List.filter_cons, List.filter_cons,
          if_neg (by simpa using Nat.not_le.mpr ha),
          if_neg (by simpa using Nat.not_le.mpr (Nat.lt_succ_of_lt ha))]
        exact ih (sKeys_tail h) htail

theorem advanceKeys_succ_of_lookup_none {m : List (Nat × Nat)} (h : sKeys m)
    {j : Nat} (hl : m.lookup j = none) :
    advanceKeys m j = advanceKeys m (j + 1) := by
  rw [advanceKeys_eq_filter m j h, advanceKeys_eq_filter m (j + 1) h]
  refine List.filter_congr (fun kv hkv => ?_)
  have hne : ¬ (kv.1 = j) := by
    intro he
    have : m.lookup j = some kv.2 := lookup_eq_some_of_mem h (by rw [← he]; exact hkv)
    rw [hl] at this
    cases this
  by_cases hj : j ≤ kv.1
  · rw [decide_eq_true hj, decide_eq_true (by omega : j + 1 ≤ kv.1)]
  · rw [decide_eq_false hj, decide_eq_false (by omega : ¬ (j + 1 ≤ kv.1))]

theorem nextKey_some_mem {m : List (Nat × Nat)} {k : Nat}
    (h : nextKey m = some k) : ∃ v, (k, v) ∈ m := by
  cases m with
  | nil => cases h
  | cons a t =>
      simp only [nextKey, Option.some.injEq] at h
      exact ⟨a.2, by rw [← h]; exact List.mem_cons_self _ _⟩

theorem nextKey_min {m : List (Nat × Nat)} (h : sKeys m) {k : Nat}
    (hk : nextKey m = some k) : ∀ kv ∈ m, k ≤ kv.1 := by
  cases m with
  | nil => cases hk
  | cons a t =>
      simp only [nextKey, Option.some.injEq] at hk
      intro kv hkv
      rcases List.mem_cons.mp hkv with hhead | htail
      · rw [hhead, hk]
      · rw [← hk]
        exact Nat.le_of_lt (sKeys_head h _ htail)

theorem nextKey_ne_of_lookup_none {m : List (Nat × Nat)} (h : sKeys m) {j : Nat}
    (hl : m.lookup j = none) : nextKey (advanceKeys m j) ≠ some j := by
  intro hk
  rcases nextKey_some_mem hk with ⟨v, hmem⟩
  have := (mem_advanceKeys h).mp hmem
  have : m.lookup j = some v := lookup_eq_some_of_mem h this.1
  rw [hl] at this
  cases this

/-! ### Counting and flatten toolkit -/

theorem countSetBefore_add_range (bm : Nat → Bool) (a b : Nat) (hab : a ≤ b) :
    countSetBefore bm a + countSetRange bm a b = countSetBefore bm b := by
  simp only [countSetBefore, countSetRange]
  rw [← List.length_append, ← List.filter_append]
  congr 2
  rw [List.range_eq_range' a, List.range_eq_range' b]
  have h := List.range'_append 0 a (b - a) 1
  simp only [Nat.mul_one, Nat.zero_add, Nat.one_mul] at h
  rw [h]
  congr 1
  omega

theorem length_flatten_const {α : Type} (L : List (List α)) (n : Nat)
    (h : ∀ x ∈ L, x.length = n) : L.flatten.length = n * L.length := by
  induction L with
  | nil => simp
  | cons x t ih =>
      rw [List.flatten_cons, List.length_append, h x (by simp),
        ih (fun y hy => h y (List.mem_cons_of_mem _ hy)), List.length_cons]
      ring

theorem getD_flatten {α : Type} (L : List (List α)) (n : Nat)
    (h : ∀ x ∈ L, x.length = n) (k r : Nat) (hk : k < L.length) (hr : r < n)
    (d : α) : L.flatten.getD (n * k + r) d = (L.getD k []).getD r d := by
  induction L generalizing k with
  | nil => cases hk
  | cons x t ih =>
      cases k with
      | zero =>
          rw [List.flatten_cons, Nat.mul_zero, Nat.zero_add]
          rw [List.getD_append _ _ _ _ (by rw [h x (by simp)]; exact hr)]
          rfl
      | succ k =>
          have hxlen : x.length = n := h x (by simp)
          have hle : n ≤ n * (k + 1) + r := by
            have h2 : n ≤ n * (k + 1) := Nat.le_mul_of_pos_right n (Nat.succ_pos k)
            omega
          rw [List.flatten_cons, List.getD_append_right _ _ _ _ (by rw [hxlen]; exact hle)]
          rw [hxlen]
          have harith : n * (k + 1) + r - n = n * k + r := by
            have hmul : n * (k + 1) = n * k + n := by ring
            omega
          rw [harith, ih (fun y hy => h y (List.mem_cons_of_mem _ hy)) k
            (Nat.lt_of_succ_lt_succ (by simpa using hk))]
          rfl

theorem getD_range (n k : Nat) (hk : k < n) : (List.range n).getD k 0 = k := by
  rw [List.getD_eq_getElem?_getD, List.getElem?_range hk]
  rfl

theorem getD_map_range {α : Type} (f : Nat → α) (n k : Nat) (hk : k < n) (d : α) :
    ((List.range n).map f).getD k d = f k := by
  rw [List.getD_eq_getElem?_getD, List.getElem?_map,
    List.getElem?_range hk]
  rfl

theorem filter_range_getD (p : Nat → Bool) (T b : Nat) (hb : b < T)
    (hp : p b = true) :
    (((List.range T).filter p).getD (((List.range b).filter p).length) 0 = b) ∧
    ((List.range b).filter p).length < ((List.range T).filter p).length := by
  have hsplit : List.range T = List.range b ++ List.range' b (T - b) := by
    rw [List.range_eq_range' b, List.range_eq_range' T]
    have h := List.range'_append 0 b (T - b) 1
    simp only [Nat.mul_one, Nat.zero_add, Nat.one_mul] at h
    rw [h]
    congr 1
    omega
  have hcons : List.range' b (T - b) = b :: List.range' (b + 1) (T - b - 1) := by
    cases hTb : T - b with
    | zero => omega
    | succ m => simp [List.range'_succ]
  rw [hsplit, hcons, List.filter_append, List.filter_cons, if_pos hp]
  constructor
  · rw [List.getD_append_right _ _ _ _ (Nat.le_refl _), Nat.sub_self]
    rfl
  · rw [List.length_append, List.length_cons]
    omega

theorem keptList_succ (C : XCtx) (n : Nat) :
    keptList C (n + 1) =
      keptList C n ++ (if blockKeepB C n then [blockRec C n] else []) := by
  simp only [keptList]
  rw [List.range_succ, List.filter_append, List.map_append]
  congr 1
  by_cases h : blockKeepB C n
  · rw [List.filter_cons, if_pos h, if_pos h]
    simp
  · rw [List.filter_cons, if_neg h, if_neg h]
    simp

theorem keptList_ext (C : XCtx) (m M : Nat) (hmM : m ≤ M)
    (h : ∀ b, m ≤ b → b < M → blockKeepB C b = false) :
    keptList C M = keptList C m ∧
      ((List.range M).filter (blockKeepB C)).length =
        ((List.range m).filter (blockKeepB C)).length := by
  induction M with
  | zero =>
      have : m = 0 := Nat.le_zero.mp hmM
      rw [this]
      exact ⟨rfl, rfl⟩
  | succ M ih =>
      by_cases hm : m = M + 1
      · rw [hm]
        exact ⟨rfl, rfl⟩
      · have hmM' : m ≤ M := by omega
        have hkeep : blockKeepB C M = false := h M hmM' (Nat.lt_succ_self M)
        rcases ih hmM' (fun b hb1 hb2 => h b hb1 (Nat.lt_succ_of_lt hb2)) with ⟨h1, h2⟩
        constructor
        · rw [keptList_succ, if_neg (by rw [hkeep]; exact Bool.false_ne_true), h1,
            List.append_nil]
        · rw [List.range_succ, List.filter_append, List.length_append,
            List.filter_cons, if_neg (by rw [hkeep]; exact Bool.false_ne_true),
            List.filter_nil, List.length_nil, Nat.add_zero]
          exact h2

/-- `maxKey` of a sorted nonempty map is its largest key. -/
theorem maxKey_is_max {m : List (Nat × Nat)} (h : sKeys m) :
    ∀ kv ∈ m, kv.1 ≤ maxKey m := by
  induction m with
  | nil => intro kv hkv; cases hkv
  | cons a t ih =>
      intro kv hkv
      have hfold : maxKey (a :: t) = if t = [] then a.1 else maxKey t := by
        simp only [maxKey, List.foldl_cons]
        cases t with
        | nil => rfl
        | cons b u =>
            rw [if_neg (by simp)]
            simp only [maxKey, List.foldl_cons]
      rcases List.mem_cons.mp hkv with hhead | htail
      · rw [hfold]
        by_cases ht : t = []
        · rw [if_pos ht, hhead]
        · rw [if_neg ht]
          cases t with
          | nil => exact absurd rfl ht
          | cons b u =>
              have h1 : kv.1 < b.1 := by rw [hhead]; exact sKeys_head h b (by simp)
              have h2 : b.1 ≤ maxKey (b :: u) :=
                ih (sKeys_tail h) b (by simp)
              omega
      · rw [hfold, if_neg (by intro he; rw [he] at htail; cases htail)]
        exact ih (sKeys_tail h) kv htail

theorem maxKey_mem {m : List (Nat × Nat)} (hne : m ≠ []) :
    ∃ v, (maxKey m, v) ∈ m := by
  induction m with
  | nil => exact absurd rfl hne
  | cons a t ih =>
      cases t with
      | nil => exact ⟨a.2, by simp [maxKey]⟩
      | cons b u =>
          rcases ih (by simp) with ⟨v, hv⟩
          refine ⟨v, List.mem_cons_of_mem _ ?_⟩
          have : maxKey (a :: b :: u) = maxKey (b :: u) := by
            simp only [maxKey, List.foldl_cons]
          rw [this]
          exact hv

/-- Bounds the trailing compaction preserves: the output maximum never drops
below `nMaxOGRFID`, stays at least the input maximum, and never grows. -/
theorem compactLoop_bounds (f2o : List (Nat × Nat)) (maxOGR : Nat) :
    ∀ nIn nOut, maxOGR ≤ nOut → nIn ≤ nOut →
      maxOGR ≤ (compactLoop f2o maxOGR nIn nOut).2 ∧
      (compactLoop f2o maxOGR nIn nOut).1 ≤ (compactLoop f2o maxOGR nIn nOut).2 ∧
      (compactLoop f2o maxOGR nIn nOut).2 ≤ nOut := by
  intro nIn
  induction nIn with
  | zero =>
      intro nOut h1 h2
      exact ⟨h1, Nat.zero_le _, Nat.le_refl _⟩
  | succ n ih =>
      intro nOut h1 h2
      by_cases hc : maxOGR < n + 1 ∧ (f2o.lookup (n + 1)).isSome
      · rw [compactLoop, if_pos hc]
        have h3 : maxOGR ≤ nOut - 1 := by omega
        have h4 : n ≤ nOut - 1 := by omega
        rcases ih (nOut - 1) h3 h4 with ⟨a, b, c⟩
        exact ⟨a, b, by omega⟩
      · rw [compactLoop, if_neg hc]
        exact ⟨h1, h2, Nat.le_refl _⟩

/-- Every row beyond `nOutMaxFID` is specified empty. -/
theorem specR_zero_beyond {C : XCtx} (H : XHyps C) {j : Nat}
    (hj : C.nOutMaxFID < j) : specR C j = zeroRecord C.f.recordSize := by
  simp only [specR, specOutRecord]
  have hnone : C.o2f.lookup j = none := by
    refine lookup_eq_none_of_forall (fun kv hkv he => ?_)
    have := H.hkLe kv hkv
    omega
  rw [hnone]
  have hio := H.hIO
  rw [if_pos (Or.inr (by omega))]

/-- What one `GetFeatureOffset`-and-copy does to the loop state
(FGdbLayer.cpp:797-852): every field except the page buffer, the last
written offset and the block-count cache is untouched; the cache stays
correct; the buffer is written exactly when the fetched record is
non-empty. -/
theorem fetchCopy_spec (C : XCtx) (srcFID : Nat) (s : XState)
    (h : s.cacheVal = countSetBefore C.f.blockMap s.cacheIdx) :
    ((fetchCopy C srcFID s).remO2F = s.remO2F ∧
     (fetchCopy C srcFID s).remF2O = s.remF2O ∧
     (fetchCopy C srcFID s).ofs = s.ofs ∧
     (fetchCopy C srcFID s).outPages = s.outPages ∧
     (fetchCopy C srcFID s).outMap = s.outMap ∧
     (fetchCopy C srcFID s).nonEmpty = s.nonEmpty) ∧
    (fetchCopy C srcFID s).cacheVal =
      countSetBefore C.f.blockMap (fetchCopy C srcFID s).cacheIdx ∧
    (readSrcRecord C.f srcFID = zeroRecord C.f.recordSize →
      (fetchCopy C srcFID s).page = s.page ∧
      (fetchCopy C srcFID s).lastW = s.lastW) ∧
    (readSrcRecord C.f srcFID ≠ zeroRecord C.f.recordSize →
      (fetchCopy C srcFID s).page =
        pageWrite C.f.recordSize s.page s.lastW s.ofs (readSrcRecord C.f srcFID) ∧
      (fetchCopy C srcFID s).lastW = s.ofs + 1) := by
  by_cases hw : C.f.bitmapWords ≠ 0
  · by_cases hbm : C.f.blockMap ((srcFID - 1) / 1024) = true
    · have hread : readSrcRecord C.f srcFID =
          C.f.phys (countSetBefore C.f.blockMap ((srcFID - 1) / 1024) * 1024 +
            (srcFID - 1) % 1024) := by
        simp only [readSrcRecord]
        rw [if_pos hw, if_pos hbm]
      have hcnt : (if s.cacheIdx ≤ (srcFID - 1) / 1024 then
            s.cacheVal + countSetRange C.f.blockMap s.cacheIdx ((srcFID - 1) / 1024)
          else countSetBefore C.f.blockMap ((srcFID - 1) / 1024)) =
          countSetBefore C.f.blockMap ((srcFID - 1) / 1024) := by
        by_cases hle : s.cacheIdx ≤ (srcFID - 1) / 1024
        · rw [if_pos hle, h, countSetBefore_add_range _ _ _ hle]
        · rw [if_neg hle]
      have hfc : fetchCopy C srcFID s =
          (if readSrcRecord C.f srcFID ≠ zeroRecord C.f.recordSize then
            { s with
              cacheIdx := (srcFID - 1) / 1024
              cacheVal := countSetBefore C.f.blockMap ((srcFID - 1) / 1024)
              page := pageWrite C.f.recordSize s.page s.lastW s.ofs
                (readSrcRecord C.f srcFID)
              lastW := s.ofs + 1 }
          else
            { s with
              cacheIdx := (srcFID - 1) / 1024
              cacheVal := countSetBefore C.f.blockMap ((srcFID - 1) / 1024) }) := by
        simp only [fetchCopy, if_pos hw, if_pos hbm, hcnt, hread]
      rw [hfc]
      by_cases hz : readSrcRecord C.f srcFID = zeroRecord C.f.recordSize
      · rw [if_neg (by simpa using hz)]
        refine ⟨⟨rfl, rfl, rfl, rfl, rfl, rfl⟩, rfl, fun _ => ⟨rfl, rfl⟩,
          fun hne => absurd hz hne⟩
      · rw [if_pos hz]
        refine ⟨⟨rfl, rfl, rfl, rfl, rfl, rfl⟩, rfl, fun he => absurd he hz,
          fun _ => ⟨rfl, rfl⟩⟩
    · have hread : readSrcRecord C.f srcFID = zeroRecord C.f.recordSize := by
        simp only [readSrcRecord]
        rw [if_pos hw, if_neg (by simpa using hbm)]
      have hfc : fetchCopy C srcFID s = s := by
        simp only [fetchCopy, if_pos hw]
        rw [if_neg (by simpa using hbm)]
      rw [hfc]
      exact ⟨⟨rfl, rfl, rfl, rfl, rfl, rfl⟩, h, fun _ => ⟨rfl, rfl⟩,
        fun hne => absurd hread hne⟩
  · have hread : readSrcRecord C.f srcFID = C.f.phys (srcFID - 1) := by
      simp only [readSrcRecord]
      rw [if_neg hw]
    have hfc : fetchCopy C srcFID s =
        (if readSrcRecord C.f srcFID ≠ zeroRecord C.f.recordSize then
          { s with
            page := pageWrite C.f.recordSize s.page s.lastW s.ofs
              (readSrcRecord C.f srcFID)
            lastW := s.ofs + 1 }
        else s) := by
      simp only [fetchCopy, if_neg hw, hread]
    rw [hfc]
    by_cases hz : readSrcRecord C.f srcFID = zeroRecord C.f.recordSize
    · rw [if_neg (by simpa using hz)]
      exact ⟨⟨rfl, rfl, rfl, rfl, rfl, rfl⟩, h, fun _ => ⟨rfl, rfl⟩,
        fun hne => absurd hz hne⟩
    · rw [if_pos hz]
      exact ⟨⟨rfl, rfl, rfl, rfl, rfl, rfl⟩, h, fun he => absurd he hz,
        fun _ => ⟨rfl, rfl⟩⟩

/-- Invariant step for one produced row `j`: the iterators have advanced to
`j`, bookkeeping fields are untouched, and the buffer either stays (row
specified empty) or received exactly the specified record of `j`. -/
theorem step_write_inv (C : XCtx) (j cb : Nat) (s t : XState)
    (I : XInv C j cb s) (hofs_lt : s.ofs ≤ 1023)
    (h1 : t.remO2F = advanceKeys C.o2f j)
    (h2 : t.remF2O = advanceKeys C.f2o j)
    (h3 : t.ofs = s.ofs) (h4 : t.outPages = s.outPages)
    (h5 : t.outMap = s.outMap) (h6 : t.nonEmpty = s.nonEmpty)
    (h7 : t.cacheVal = countSetBefore C.f.blockMap t.cacheIdx)
    (h8 : (t.page = s.page ∧ t.lastW = s.lastW ∧
            specR C j = zeroRecord C.f.recordSize) ∨
          (t.page = pageWrite C.f.recordSize s.page s.lastW s.ofs (specR C j) ∧
            t.lastW = s.ofs + 1 ∧ specR C j ≠ zeroRecord C.f.recordSize)) :
    XInv C (j + 1) cb { t with ofs := t.ofs + 1 } := by
  have hrow : j = 1024 * cb + 1 + s.ofs := by
    have ha := I.hofs
    have hb := I.hi
    omega
  refine ⟨by omega, ?_, ?_, ?_, ?_, ?_, ?_, ?_, ?_, ?_, ?_, ?_, ?_⟩
  · show j + 1 - 1 = 1024 * cb + (t.ofs + 1)
    rw [h3]
    omega
  · show t.ofs + 1 ≤ 1024
    rw [h3]
    omega
  · show t.lastW ≤ t.ofs + 1
    rw [h3]
    rcases h8 with ⟨_, hl, _⟩ | ⟨_, hl, _⟩
    · rw [hl]
      have := I.hlast
      omega
    · rw [hl]
  · show ∀ p, p < t.lastW → t.page p = specR C (1024 * cb + 1 + p)
    intro p hp
    rcases h8 with ⟨hpg, hl, _⟩ | ⟨hpg, hl, hne⟩
    · rw [hpg]
      exact I.hpage p (by rw [← hl]; exact hp)
    · rw [hpg, pageWrite]
      rw [hl] at hp
      by_cases hpo : p = s.ofs
      · rw [if_pos hpo, hpo]
        have he : 1024 * cb + 1 + s.ofs = j := by omega
        rw [he]
      · rw [if_neg hpo]
        by_cases hplw : s.lastW ≤ p
        · rw [if_pos ⟨hplw, by omega⟩]
          exact (I.hzero p hplw (by omega)).symm
        · rw [if_neg (fun hc => hplw hc.1)]
          exact I.hpage p (by omega)
  · show ∀ p, t.lastW ≤ p → p < t.ofs + 1 →
      specR C (1024 * cb + 1 + p) = zeroRecord C.f.recordSize
    intro p hp1 hp2
    rw [h3] at hp2
    rcases h8 with ⟨_, hl, hz⟩ | ⟨_, hl, _⟩
    · rw [hl] at hp1
      by_cases hpo : p = s.ofs
      · rw [hpo, ← hrow]
        exact hz
      · exact I.hzero p hp1 (by omega)
    · rw [hl] at hp1
      omega
  · show 0 < t.lastW →
      specR C (1024 * cb + t.lastW) ≠ zeroRecord C.f.recordSize
    intro hp
    rcases h8 with ⟨_, hl, _⟩ | ⟨_, hl, hne⟩
    · rw [hl] at hp ⊢
      exact I.hlastNE hp
    · rw [hl]
      have he : 1024 * cb + (s.ofs + 1) = j := by omega
      rw [he]
      exact hne
  · exact ⟨j, by omega, h1⟩
  · exact ⟨j, by omega, h2⟩
  · show t.outPages = keptList C cb
    rw [h4]
    exact I.hpages
  · show ∀ b, t.outMap b = (decide (b < cb) && blockKeepB C b)
    rw [h5]
    exact I.hmap
  · show t.nonEmpty = ((List.range cb).filter (blockKeepB C)).length
    rw [h6]
    exact I.hne
  · exact h7

/-- One `rowStep` (plus the `for`-update of `nOffsetInPage`) carries the
invariant from row `j` to row `j + 1`. -/
theorem rowStep_inv (C : XCtx) (H : XHyps C) (j cb : Nat) (s : XState)
    (I : XInv C j cb s) (hofs_lt : s.ofs ≤ 1023) :
    XInv C (j + 1) cb
      { rowStep C j s with ofs := (rowStep C j s).ofs + 1 } := by
  obtain ⟨kO, hkO, hrO⟩ := I.hO2F
  obtain ⟨kF, hkF, hrF⟩ := I.hF2O
  have hadvO : advanceKeys s.remO2F j = advanceKeys C.o2f j := by
    rw [hrO]
    exact advanceKeys_advanceKeys H.hsO hkO
  have hadvF : advanceKeys s.remF2O j = advanceKeys C.f2o j := by
    rw [hrF]
    exact advanceKeys_advanceKeys H.hsF hkF
  cases hlO : C.o2f.lookup j with
  | some v =>
      have hcons := advanceKeys_cons_of_lookup_some H.hsO hlO
      have hstep : rowStep C j s = fetchCopy C v
          { s with remO2F := advanceKeys C.o2f j
                   remF2O := advanceKeys C.f2o j } := by
        simp only [rowStep, hadvO, hadvF]
        rw [if_pos (by rw [hcons]; rfl)]
        rw [hcons]
        rfl
      have hspec : specR C j = readSrcRecord C.f v := by
        simp only [specR, specOutRecord, hlO]
      obtain ⟨⟨hf1, hf2, hf3, hf4, hf5, hf6⟩, hc, hzc, hwc⟩ :=
        fetchCopy_spec C v
          { s with remO2F := advanceKeys C.o2f j
                   remF2O := advanceKeys C.f2o j } I.hcache
      rw [hstep]
      by_cases hz : readSrcRecord C.f v = zeroRecord C.f.recordSize
      · obtain ⟨hp, hl⟩ := hzc hz
        exact step_write_inv C j cb s _ I hofs_lt hf1 hf2 hf3 hf4 hf5 hf6 hc
          (Or.inl ⟨hp, hl, hspec.trans hz⟩)
      · obtain ⟨hp, hl⟩ := hwc hz
        refine step_write_inv C j cb s _ I hofs_lt hf1 hf2 hf3 hf4 hf5 hf6 hc
          (Or.inr ⟨?_, hl, ?_⟩)
        · rw [hspec]
          exact hp
        · rw [hspec]
          exact hz
  | none =>
      have hnk : nextKey (advanceKeys C.o2f j) ≠ some j :=
        nextKey_ne_of_lookup_none H.hsO hlO
      cases hlF : C.f2o.lookup j with
      | some w =>
          have hconsF := advanceKeys_cons_of_lookup_some H.hsF hlF
          have hstep : rowStep C j s =
              { s with remO2F := advanceKeys C.o2f j
                       remF2O := advanceKeys C.f2o j } := by
            simp only [rowStep, hadvO, hadvF]
            rw [if_neg hnk, if_pos (Or.inl (by rw [hconsF]; rfl))]
          have hspec : specR C j = zeroRecord C.f.recordSize := by
            simp only [specR, specOutRecord, hlO]
            rw [if_pos (Or.inl (by rw [hlF]; rfl))]
          rw [hstep]
          exact step_write_inv C j cb s _ I hofs_lt rfl rfl rfl rfl rfl rfl
            I.hcache (Or.inl ⟨rfl, rfl, hspec⟩)
      | none =>
          have hnkF : nextKey (advanceKeys C.f2o j) ≠ some j :=
            nextKey_ne_of_lookup_none H.hsF hlF
          by_cases hin : C.nInMaxFID < j
          · have hstep : rowStep C j s =
                { s with remO2F := advanceKeys C.o2f j
                         remF2O := advanceKeys C.f2o j } := by
              simp only [rowStep, hadvO, hadvF]
              rw [if_neg hnk, if_pos (Or.inr hin)]
            have hspec : specR C j = zeroRecord C.f.recordSize := by
              simp only [specR, specOutRecord, hlO]
              rw [if_pos (Or.inr hin)]
            rw [hstep]
            exact step_write_inv C j cb s _ I hofs_lt rfl rfl rfl rfl rfl rfl
              I.hcache (Or.inl ⟨rfl, rfl, hspec⟩)
          · have hstep : rowStep C j s = fetchCopy C j
                { s with remO2F := advanceKeys C.o2f j
                         remF2O := advanceKeys C.f2o j } := by
              simp only [rowStep, hadvO, hadvF]
              rw [if_neg hnk, if_neg (fun hor => hor.elim hnkF hin)]
            have hspec : specR C j = readSrcRecord C.f j := by
              simp only [specR, specOutRecord, hlO]
              rw [if_neg (fun hor => hor.elim (fun hs => by rw [hlF] at hs; cases hs) hin)]
            obtain ⟨⟨hf1, hf2, hf3, hf4, hf5, hf6⟩, hc, hzc, hwc⟩ :=
              fetchCopy_spec C j
                { s with remO2F := advanceKeys C.o2f j
                         remF2O := advanceKeys C.f2o j } I.hcache
            rw [hstep]
            by_cases hz : readSrcRecord C.f j = zeroRecord C.f.recordSize
            · obtain ⟨hp, hl⟩ := hzc hz
              exact step_write_inv C j cb s _ I hofs_lt hf1 hf2 hf3 hf4 hf5 hf6
                hc (Or.inl ⟨hp, hl, hspec.trans hz⟩)
            · obtain ⟨hp, hl⟩ := hwc hz
              refine step_write_inv C j cb s _ I hofs_lt hf1 hf2 hf3 hf4 hf5 hf6
                hc (Or.inr ⟨?_, hl, ?_⟩)
              · rw [hspec]
                exact hp
              · rw [hspec]
                exact hz

/-- The page buffer of a completed block holds exactly the block's specified
records (positions past `nLastWrittenOffset` are zero-filled on flush). -/
theorem flushRecords_eq_blockRec (C : XCtx) (i cb : Nat) (s : XState)
    (I : XInv C i cb s) (hofs : s.ofs = 1024) :
    flushRecords C.f.recordSize s.page s.lastW = blockRec C cb := by
  simp only [flushRecords, blockRec]
  refine List.map_congr_left (fun p hp => ?_)
  have hp1024 : p < 1024 := List.mem_range.mp hp
  by_cases hpl : p < s.lastW
  · rw [if_pos hpl]
    exact I.hpage p hpl
  · rw [if_neg hpl]
    exact (I.hzero p (by omega) (by omega)).symm

/-- The flush decision agrees with the block-materialisation predicate. -/
theorem flushCond_iff_keep (C : XCtx) (i cb : Nat) (s : XState)
    (I : XInv C i cb s) (hofs : s.ofs = 1024) :
    (0 < s.lastW ∨ C.disableSparse = true) ↔ blockKeepB C cb = true := by
  constructor
  · intro h
    rcases h with hl | hd
    · have hne := I.hlastNE hl
      simp only [blockKeepB, Bool.or_eq_true]
      refine Or.inr (List.any_eq_true.mpr ⟨s.lastW - 1, List.mem_range.mpr ?_, ?_⟩)
      · have := I.hlast
        omega
      · rw [decide_eq_true_eq]
        have he : 1024 * cb + 1 + (s.lastW - 1) = 1024 * cb + s.lastW := by omega
        rw [he]
        exact hne
    · simp only [blockKeepB, hd, Bool.true_or]
  · intro h
    by_cases hl : 0 < s.lastW
    · exact Or.inl hl
    · right
      simp only [blockKeepB, Bool.or_eq_true] at h
      rcases h with hd | hany
      · exact hd
      · exfalso
        rcases List.any_eq_true.mp hany with ⟨p, hp, hne⟩
        rw [decide_eq_true_eq] at hne
        exact hne (I.hzero p (by omega) (by rw [hofs]; exact List.mem_range.mp hp))

/-- Re-package the invariant at a block boundary once the buffer counters are
reset. -/
theorem xinv_boundary_core (C : XCtx) (i cb : Nat) (t : XState)
    (hi : 1 ≤ i) (hieq : i - 1 = 1024 * (cb + 1))
    (hofs0 : t.ofs = 0) (hlw0 : t.lastW = 0)
    (hO : ∃ k, k ≤ i ∧ t.remO2F = advanceKeys C.o2f k)
    (hF : ∃ k, k ≤ i ∧ t.remF2O = advanceKeys C.f2o k)
    (hpg : t.outPages = keptList C (cb + 1))
    (hm : ∀ b, t.outMap b = (decide (b < cb + 1) && blockKeepB C b))
    (hn : t.nonEmpty = ((List.range (cb + 1)).filter (blockKeepB C)).length)
    (hc : t.cacheVal = countSetBefore C.f.blockMap t.cacheIdx) :
    XInv C i (cb + 1) t := by
  refine ⟨hi, by omega, by omega, by omega, ?_, ?_, ?_, hO, hF, hpg, hm, hn, hc⟩
  · intro p hp
    rw [hlw0] at hp
    exact absurd hp (by omega)
  · intro p h1 h2
    rw [hofs0] at h2
    exact absurd h2 (by omega)
  · intro hp
    rw [hlw0] at hp
    exact absurd hp (by omega)

/-- Flushing (or discarding) the completed page buffer at a block boundary
re-establishes the invariant with one more emitted block. -/
theorem flush_inv (C : XCtx) (i cb : Nat) (s : XState)
    (I : XInv C i cb s) (hofs : s.ofs = 1024) :
    XInv C i (cb + 1)
      { (if 0 < s.lastW ∨ C.disableSparse = true
          then doFlush C s ((i - 2) / 1024) else s) with
        ofs := 0
        lastW := 0 } := by
  have hieq : i - 1 = 1024 * cb + 1024 := by
    have := I.hofs
    omega
  have hi2 : 1025 ≤ i := by
    have := I.hi
    omega
  have hbit : (i - 2) / 1024 = cb := by omega
  by_cases hfl : 0 < s.lastW ∨ C.disableSparse = true
  · have hkeep : blockKeepB C cb = true := (flushCond_iff_keep C i cb s I hofs).mp hfl
    rw [if_pos hfl]
    refine xinv_boundary_core C i cb _ I.hi (by omega) rfl rfl ?_ ?_ ?_ ?_ ?_ ?_
    · obtain ⟨k, hk, hr⟩ := I.hO2F
      exact ⟨k, hk, hr⟩
    · obtain ⟨k, hk, hr⟩ := I.hF2O
      exact ⟨k, hk, hr⟩
    · show s.outPages ++ [flushRecords C.f.recordSize s.page s.lastW] =
        keptList C (cb + 1)
      rw [keptList_succ, if_pos hkeep, I.hpages,
        flushRecords_eq_blockRec C i cb s I hofs]
    · intro b
      show setBit s.outMap ((i - 2) / 1024) b =
        (decide (b < cb + 1) && blockKeepB C b)
      rw [hbit, setBit]
      by_cases hbc : b = cb
      · rw [if_pos hbc, hbc, hkeep, decide_eq_true (by omega : cb < cb + 1)]
        rfl
      · rw [if_neg hbc, I.hmap b]
        by_cases hlt : b < cb
        · rw [decide_eq_true hlt, decide_eq_true (by omega : b < cb + 1)]
        · rw [decide_eq_false hlt, decide_eq_false (by omega : ¬ (b < cb + 1))]
    · show s.nonEmpty + 1 = ((List.range (cb + 1)).filter (blockKeepB C)).length
      rw [List.range_succ, List.filter_append, List.length_append,
        List.filter_cons, if_pos hkeep, I.hne]
      rfl
    · exact I.hcache
  · have hkeep : blockKeepB C cb = false := by
      rcases Bool.eq_false_or_eq_true (blockKeepB C cb) with h | h
      · exact absurd ((flushCond_iff_keep C i cb s I hofs).mpr h) hfl
      · exact h
    rw [if_neg hfl]
    refine xinv_boundary_core C i cb _ I.hi (by omega) rfl rfl ?_ ?_ ?_ ?_ ?_ ?_
    · obtain ⟨k, hk, hr⟩ := I.hO2F
      exact ⟨k, hk, hr⟩
    · obtain ⟨k, hk, hr⟩ := I.hF2O
      exact ⟨k, hk, hr⟩
    · show s.outPages = keptList C (cb + 1)
      rw [keptList_succ, if_neg (by rw [hkeep]; exact Bool.false_ne_true), I.hpages,
        List.append_nil]
    · intro b
      show s.outMap b = (decide (b < cb + 1) && blockKeepB C b)
      rw [I.hmap b]
      by_cases hbc : b = cb
      · rw [hbc, hkeep]
        simp
      · by_cases hlt : b < cb
        · rw [decide_eq_true hlt, decide_eq_true (by omega : b < cb + 1)]
        · rw [decide_eq_false hlt, decide_eq_false (by omega : ¬ (b < cb + 1))]
    · show s.nonEmpty = ((List.range (cb + 1)).filter (blockKeepB C)).length
      rw [List.range_succ, List.filter_append, List.length_append,
        List.filter_cons, if_neg (by rw [hkeep]; exact Bool.false_ne_true), I.hne,
        List.filter_nil, List.length_nil, Nat.add_zero]
    · exact I.hcache

theorem keyFar_dest {m : List (Nat × Nat)} {i : Nat} (h : keyFar m i = true) :
    ∃ k, nextKey m = some k ∧ i + 1024 < k := by
  cases hnk : nextKey m with
  | none =>
      simp only [keyFar, hnk] at h
      exact Bool.noConfusion h
  | some k =>
      simp only [keyFar, hnk, decide_eq_true_eq] at h
      exact ⟨k, rfl, h⟩

theorem keyFarIfAny_dest {m : List (Nat × Nat)} {i : Nat}
    (h : keyFarIfAny m i = true) :
    nextKey m = none ∨ ∃ k, nextKey m = some k ∧ i + 1024 < k := by
  cases hnk : nextKey m with
  | none => exact Or.inl rfl
  | some k =>
      simp only [keyFarIfAny, hnk, decide_eq_true_eq] at h
      exact Or.inr ⟨k, rfl, h⟩

/-- No key of a sorted map lies in the window `[i, k0)` left of the iterator's
current key (or anywhere at or past `i` when the iterator is at the end). -/
theorem lookup_none_window {m : List (Nat × Nat)} (hs : sKeys m) {i r : Nat}
    (hir : i ≤ r)
    (hcase : nextKey (advanceKeys m i) = none ∨
      ∃ k0, nextKey (advanceKeys m i) = some k0 ∧ r < k0) :
    m.lookup r = none := by
  cases hl : m.lookup r with
  | none => rfl
  | some v =>
      exfalso
      have hmem : (r, v) ∈ advanceKeys m i :=
        (mem_advanceKeys hs).mpr ⟨mem_of_lookup_eq_some hl, hir⟩
      rcases hcase with hn | ⟨k0, hk0, hrk⟩
      · cases hadv : advanceKeys m i with
        | nil => rw [hadv] at hmem; cases hmem
        | cons a t => rw [hadv] at hn; simp [nextKey] at hn
      · have := nextKey_min (sKeys_advanceKeys i hs) hk0 _ hmem
        omega

/-- A specified-empty row window: rows in `[i, iHi]` with no remap key and
either beyond the input or in an absent input block are all specified
empty. -/
theorem specR_zero_window (C : XCtx) (H : XHyps C) {r : Nat}
    (hlO : C.o2f.lookup r = none)
    (hcase : C.nInMaxFID < r ∨
      (C.f2o.lookup r = none ∧ C.f.bitmapWords ≠ 0 ∧
        C.f.blockMap ((r - 1) / 1024) = false)) :
    specR C r = zeroRecord C.f.recordSize := by
  simp only [specR, specOutRecord, hlO]
  rcases hcase with hin | ⟨hlF, hbw, hbm⟩
  · rw [if_pos (Or.inr hin)]
  · by_cases hin2 : C.nInMaxFID < r
    · rw [if_pos (Or.inr hin2)]
    · rw [if_neg (fun hor => hor.elim (fun hsm => by rw [hlF] at hsm; cases hsm) hin2)]
      simp only [readSrcRecord]
      rw [if_pos hbw, if_neg (by simp [hbm])]

theorem lookup_none_below_nextKey {m : List (Nat × Nat)} (hs : sKeys m)
    {k r k0 : Nat} (hk : k ≤ r)
    (hnk : nextKey (advanceKeys m k) = some k0) (hrk : r < k0) :
    m.lookup r = none := by
  cases hl : m.lookup r with
  | none => rfl
  | some v =>
      exfalso
      have hmem : (r, v) ∈ advanceKeys m k :=
        (mem_advanceKeys hs).mpr ⟨mem_of_lookup_eq_some hl, hk⟩
      have := nextKey_min (sKeys_advanceKeys k hs) hnk _ hmem
      omega

theorem lookup_none_at_end {m : List (Nat × Nat)} (hs : sKeys m)
    {k r : Nat} (hk : k ≤ r) (hnk : nextKey (advanceKeys m k) = none) :
    m.lookup r = none := by
  cases hl : m.lookup r with
  | none => rfl
  | some v =>
      exfalso
      have hmem : (r, v) ∈ advanceKeys m k :=
        (mem_advanceKeys hs).mpr ⟨mem_of_lookup_eq_some hl, hk⟩
      cases hadv : advanceKeys m k with
      | nil => rw [hadv] at hmem; cases hmem
      | cons a t => rw [hadv] at hnk; simp [nextKey] at hnk

/-- The skip-to-created-FIDs jump (FGdbLayer.cpp:742-748): re-target the loop
at the first row of the block of the next user-assigned OGR FID; every block
in between is specified empty and stays unmaterialised. -/
theorem jump_retarget (C : XCtx) (H : XHyps C) (i cb' : Nat) (s : XState)
    (I2 : XInv C i cb' s) (hofs0 : s.ofs = 0) (hlw0 : s.lastW = 0)
    (hds : C.disableSparse = false) (hin : C.nInMaxFID < i)
    (hkf : keyFar s.remO2F i = true) :
    XInv C (jumpTarget s.remO2F) ((jumpTarget s.remO2F - 1) / 1024) s ∧
    i + 1024 ≤ jumpTarget s.remO2F ∧ jumpTarget s.remO2F ≤ C.nOutMaxFID := by
  obtain ⟨k0, hnk, hfar⟩ := keyFar_dest hkf
  have hieq : i - 1 = 1024 * cb' := by
    have h1 := I2.hofs
    omega
  have hi1 := I2.hi
  obtain ⟨k, hk, hrO⟩ := I2.hO2F
  obtain ⟨kF, hkF, hrF⟩ := I2.hF2O
  have hnk' : nextKey (advanceKeys C.o2f k) = some k0 := by rw [← hrO]; exact hnk
  have hk0le : k0 ≤ C.nOutMaxFID := by
    obtain ⟨v0, hv0⟩ := nextKey_some_mem hnk
    rw [hrO] at hv0
    exact H.hkLe _ ((mem_advanceKeys H.hsO).mp hv0).1
  have hjt : jumpTarget s.remO2F = ((k0 - 1) / 1024) * 1024 + 1 := by
    simp only [jumpTarget, hnk]
  have hcb2 : (jumpTarget s.remO2F - 1) / 1024 = (k0 - 1) / 1024 := by
    rw [hjt]
    omega
  have hjle : jumpTarget s.remO2F ≤ k0 := by
    rw [hjt]
    omega
  have hjge : i + 1024 ≤ jumpTarget s.remO2F := by
    rw [hjt]
    omega
  have hcble : cb' + 1 ≤ (k0 - 1) / 1024 := by omega
  have hlookO : ∀ r, i ≤ r → r < jumpTarget s.remO2F → C.o2f.lookup r = none := by
    intro r hr1 hr2
    exact lookup_none_below_nextKey H.hsO (Nat.le_trans hk hr1) hnk' (by omega)
  have hzero : ∀ r, i ≤ r → r < jumpTarget s.remO2F →
      specR C r = zeroRecord C.f.recordSize := by
    intro r hr1 hr2
    exact specR_zero_window C H (hlookO r hr1 hr2) (Or.inl (by omega))
  have hkeeps : ∀ b, cb' ≤ b → b < (k0 - 1) / 1024 → blockKeepB C b = false := by
    intro b hb1 hb2
    simp only [blockKeepB, hds, Bool.false_or]
    refine List.any_eq_false.mpr (fun p hp => ?_)
    have hp1024 : p < 1024 := List.mem_range.mp hp
    simp only [decide_eq_true_eq, Decidable.not_not]
    refine hzero (1024 * b + 1 + p) (by omega) (by omega)
  obtain ⟨hext1, hext2⟩ :=
    keptList_ext C cb' ((k0 - 1) / 1024) (by omega) hkeeps
  refine ⟨⟨by omega, ?_, ?_, ?_, ?_, ?_, ?_, ⟨k, by omega, hrO⟩,
    ⟨kF, by omega, hrF⟩, ?_, ?_, ?_, I2.hcache⟩, hjge, Nat.le_trans hjle hk0le⟩
  · rw [hofs0, hcb2, hjt]
    omega
  · rw [hofs0]
    omega
  · have := I2.hlast
    omega
  · intro p hp
    rw [hlw0] at hp
    exact absurd hp (by omega)
  · intro p h1 h2
    rw [hofs0] at h2
    exact absurd h2 (by omega)
  · intro hp
    rw [hlw0] at hp
    exact absurd hp (by omega)
  · rw [I2.hpages, hcb2]
    exact hext1.symm
  · intro b
    rw [I2.hmap b, hcb2]
    by_cases hb1 : b < cb'
    · rw [decide_eq_true hb1, decide_eq_true (by omega : b < (k0 - 1) / 1024)]
    · by_cases hb2 : b < (k0 - 1) / 1024
      · rw [decide_eq_false hb1, decide_eq_true hb2,
          hkeeps b (by omega) hb2]
        rfl
      · rw [decide_eq_false hb1, decide_eq_false hb2]
  · rw [I2.hne, hcb2]
    exact hext2.symm

/-- The empty-input-block skip (FGdbLayer.cpp:750-768): when the whole input
block is absent and neither iterator points into it, the loop jumps over the
block; every skipped row is specified empty. -/
theorem skip_inv (C : XCtx) (H : XHyps C) (i cb' : Nat) (s t : XState)
    (I2 : XInv C i cb' s) (hofs0 : s.ofs = 0) (hlw0 : s.lastW = 0)
    (hds : C.disableSparse = false) (hbw : C.f.bitmapWords ≠ 0)
    (hile : i ≤ C.nInMaxFID) (hbm : C.f.blockMap ((i - 1) / 1024) = false)
    (hfO : keyFarIfAny (advanceKeys s.remO2F i) i = true)
    (hfF : keyFarIfAny (advanceKeys s.remF2O i) i = true)
    (ht1 : t.remO2F = advanceKeys s.remO2F i)
    (ht2 : t.remF2O = advanceKeys s.remF2O i)
    (ht3 : t.ofs = 1024) (ht4 : t.lastW = 0)
    (ht5 : t.page = s.page) (ht6 : t.outPages = s.outPages)
    (ht7 : t.outMap = s.outMap) (ht8 : t.nonEmpty = s.nonEmpty)
    (ht9 : t.cacheIdx = s.cacheIdx) (ht10 : t.cacheVal = s.cacheVal) :
    XInv C (i + 1024) cb' t := by
  have hieq : i - 1 = 1024 * cb' := by
    have h1 := I2.hofs
    omega
  have hi1 := I2.hi
  obtain ⟨k, hk, hrO⟩ := I2.hO2F
  obtain ⟨kF, hkF, hrF⟩ := I2.hF2O
  have hadvO : advanceKeys s.remO2F i = advanceKeys C.o2f i := by
    rw [hrO]
    exact advanceKeys_advanceKeys H.hsO hk
  have hadvF : advanceKeys s.remF2O i = advanceKeys C.f2o i := by
    rw [hrF]
    exact advanceKeys_advanceKeys H.hsF hkF
  have hfO2 : keyFarIfAny (advanceKeys C.o2f i) i = true := by
    rw [← hadvO]
    exact hfO
  have hfF2 : keyFarIfAny (advanceKeys C.f2o i) i = true := by
    rw [← hadvF]
    exact hfF
  have hlookO : ∀ r, i ≤ r → r < i + 1024 → C.o2f.lookup r = none := by
    intro r hr1 hr2
    rcases keyFarIfAny_dest hfO2 with hn | ⟨k0, hk0, hfar⟩
    · exact lookup_none_at_end H.hsO hr1 hn
    · exact lookup_none_below_nextKey H.hsO hr1 hk0 (by omega)
  have hlookF : ∀ r, i ≤ r → r < i + 1024 → C.f2o.lookup r = none := by
    intro r hr1 hr2
    rcases keyFarIfAny_dest hfF2 with hn | ⟨k0, hk0, hfar⟩
    · exact lookup_none_at_end H.hsF hr1 hn
    · exact lookup_none_below_nextKey H.hsF hr1 hk0 (by omega)
  have hzero : ∀ r, i ≤ r → r < i + 1024 →
      specR C r = zeroRecord C.f.recordSize := by
    intro r hr1 hr2
    refine specR_zero_window C H (hlookO r hr1 hr2)
      (Or.inr ⟨hlookF r hr1 hr2, hbw, ?_⟩)
    have hblk : (r - 1) / 1024 = (i - 1) / 1024 := by omega
    rw [hblk]
    exact hbm
  refine ⟨by omega, ?_, ?_, ?_, ?_, ?_, ?_, ⟨i, by omega, by rw [ht1, hadvO]⟩,
    ⟨i, by omega, by rw [ht2, hadvF]⟩, ?_, ?_, ?_, ?_⟩
  · rw [ht3]
    omega
  · rw [ht3]
  · rw [ht3, ht4]
    omega
  · intro p hp
    rw [ht4] at hp
    exact absurd hp (by omega)
  · intro p h1 h2
    rw [ht3] at h2
    exact hzero (1024 * cb' + 1 + p) (by omega) (by omega)
  · intro hp
    rw [ht4] at hp
    exact absurd hp (by omega)
  · rw [ht6]
    exact I2.hpages
  · intro b
    rw [ht7]
    exact I2.hmap b
  · rw [ht8]
    exact I2.hne
  · rw [ht10, ht9]
    exact I2.hcache

/-- The block-boundary handling, with the flushed/reset state written out and
every test expressed through the incoming state. -/
theorem boundaryStep_eq (C : XCtx) (i : Nat) (s : XState) (hofs : s.ofs = 1024) :
    boundaryStep C i s =
      (let s2 : XState := { (if 0 < s.lastW ∨ C.disableSparse = true
          then doFlush C s ((i - 2) / 1024) else s) with ofs := 0, lastW := 0 };
       if C.disableSparse = false ∧ C.nInMaxFID < i ∧ keyFar s.remO2F i = true then
        BStep.fall (jumpTarget s.remO2F) s2
      else if C.disableSparse = false ∧ C.f.bitmapWords ≠ 0 ∧
          i ≤ C.nInMaxFID ∧ C.f.blockMap ((i - 1) / 1024) = false then
        (let s3 : XState := { s2 with
            remO2F := advanceKeys s.remO2F i
            remF2O := advanceKeys s.remF2O i };
         if keyFarIfAny (advanceKeys s.remO2F i) i = true ∧
            keyFarIfAny (advanceKeys s.remF2O i) i = true then
          if 2147483647 - 1024 < i then BStep.halt s3
          else BStep.skip (i + 1023) { s3 with ofs := s3.ofs + 1023 }
        else BStep.fall i s3)
      else BStep.fall i s2) := by
  simp only [boundaryStep]
  rw [if_neg (fun h => h hofs)]
  by_cases hfl : 0 < s.lastW ∨ C.disableSparse = true
  · rw [if_pos hfl]
    rfl
  · rw [if_neg hfl]

theorem flushReset_fields (C : XCtx) (i : Nat) (s : XState) :
    (({ (if 0 < s.lastW ∨ C.disableSparse = true
        then doFlush C s ((i - 2) / 1024) else s) with
        ofs := 0, lastW := 0 } : XState).remO2F = s.remO2F) ∧
    (({ (if 0 < s.lastW ∨ C.disableSparse = true
        then doFlush C s ((i - 2) / 1024) else s) with
        ofs := 0, lastW := 0 } : XState).remF2O = s.remF2O) := by
  by_cases hfl : 0 < s.lastW ∨ C.disableSparse = true
  · rw [if_pos hfl]
    exact ⟨rfl, rfl⟩
  · rw [if_neg hfl]
    exact ⟨rfl, rfl⟩

/-- The main rewrite loop (FGdbLayer.cpp:717-853) runs to completion: with
enough fuel it reaches a row past `nOutMaxFID` with the invariant intact, and
the final row/offset combination is constrained enough to identify the last
(partially filled) block. -/
theorem xLoop_run (C : XCtx) (H : XHyps C) :
    ∀ fuel i cb s, XInv C i cb s →
      (i = 1 ∨ 1 ≤ s.ofs) →
      (i ≤ C.nOutMaxFID + 1 ∨ (s.ofs = 1024 ∧ i ≤ C.nOutMaxFID + 1024)) →
      C.nOutMaxFID + 2 ≤ fuel + i →
      ∃ iE cbE, C.nOutMaxFID < iE ∧ XInv C iE cbE (xLoop C fuel i s) ∧
        (iE = 1 ∨ 1 ≤ (xLoop C fuel i s).ofs) ∧
        (iE ≤ C.nOutMaxFID + 1 ∨
          ((xLoop C fuel i s).ofs = 1024 ∧ iE ≤ C.nOutMaxFID + 1024)) := by
  intro fuel
  induction fuel with
  | zero =>
      intro i cb s I hP1 hP2 hfuel
      exact ⟨i, cb, by omega, I, hP1, hP2⟩
  | succ fuel ih =>
      intro i cb s I hP1 hP2 hfuel
      by_cases hend : C.nOutMaxFID < i
      · have hx : xLoop C (fuel + 1) i s = s := by
          rw [xLoop, if_pos hend]
        rw [hx]
        exact ⟨i, cb, hend, I, hP1, hP2⟩
      · by_cases hofs1024 : s.ofs = 1024
        · -- block boundary: flush, then possibly jump or skip
          have I2 := flush_inv C i cb s I hofs1024
          have hL := flushReset_fields C i s
          by_cases hc1 : C.disableSparse = false ∧ C.nInMaxFID < i ∧
              keyFar s.remO2F i = true
          · -- jump to the block of the next created FID
            have hx : xLoop C (fuel + 1) i s =
                xLoop C fuel (jumpTarget s.remO2F + 1)
                  { rowStep C (jumpTarget s.remO2F)
                      { (if 0 < s.lastW ∨ C.disableSparse = true
                          then doFlush C s ((i - 2) / 1024) else s) with
                        ofs := 0, lastW := 0 } with
                    ofs := (rowStep C (jumpTarget s.remO2F)
                      { (if 0 < s.lastW ∨ C.disableSparse = true
                          then doFlush C s ((i - 2) / 1024) else s) with
                        ofs := 0, lastW := 0 }).ofs + 1 } := by
              rw [xLoop, if_neg hend, boundaryStep_eq C i s hofs1024]
              simp only []
              rw [if_pos hc1]
            rw [hx]
            obtain ⟨I3, hge, hle⟩ := jump_retarget C H i (cb + 1) _ I2 rfl rfl
              hc1.1 hc1.2.1 (by rw [hL.1]; exact hc1.2.2)
            rw [hL.1] at I3 hge hle
            have I4 := rowStep_inv C H (jumpTarget s.remO2F) _ _ I3
              (by show (0 : Nat) ≤ 1023; omega)
            refine ih (jumpTarget s.remO2F + 1) _ _ I4 (Or.inr ?_)
              (Or.inl (by omega)) (by omega)
            show 1 ≤ (rowStep C (jumpTarget s.remO2F) _).ofs + 1
            omega
          · by_cases hc2 : C.disableSparse = false ∧ C.f.bitmapWords ≠ 0 ∧
                i ≤ C.nInMaxFID ∧ C.f.blockMap ((i - 1) / 1024) = false
            · by_cases hc3 : keyFarIfAny (advanceKeys s.remO2F i) i = true ∧
                  keyFarIfAny (advanceKeys s.remF2O i) i = true
              · -- the whole input block is skipped
                have hnotbig : ¬ (2147483647 - 1024 < i) := by
                  have h1 := hc2.2.2.1
                  have h2 := H.hIO
                  have h3 := H.hB
                  omega
                have hx : xLoop C (fuel + 1) i s =
                    xLoop C fuel (i + 1023 + 1)
                      { { (if 0 < s.lastW ∨ C.disableSparse = true
                            then doFlush C s ((i - 2) / 1024) else s) with
                          ofs := 1024, lastW := 0
                          remO2F := advanceKeys s.remO2F i
                          remF2O := advanceKeys s.remF2O i } with
                        ofs := 1024 } := by
                  rw [xLoop, if_neg hend, boundaryStep_eq C i s hofs1024]
                  simp only []
                  rw [if_neg hc1, if_pos hc2, if_pos hc3, if_neg hnotbig]
                rw [hx]
                have hieq : i + 1023 + 1 = i + 1024 := by omega
                rw [hieq]
                refine ih (i + 1024) (cb + 1) _
                  (skip_inv C H i (cb + 1) _ _ I2 rfl rfl hc2.1 hc2.2.1
                    hc2.2.2.1 hc2.2.2.2
                    (by rw [hL.1]; exact hc3.1) (by rw [hL.2]; exact hc3.2)
                    (by rw [hL.1]) (by rw [hL.2])
                    rfl rfl rfl rfl rfl rfl rfl rfl)
                  (Or.inr (by show (1 : Nat) ≤ 1024; omega))
                  (Or.inr ⟨rfl, by have h1 := hc2.2.2.1; have h2 := H.hIO; omega⟩)
                  (by omega)
              · -- iterator points into the block: fall through at row i
                have hx : xLoop C (fuel + 1) i s =
                    xLoop C fuel (i + 1)
                      { rowStep C i
                          { (if 0 < s.lastW ∨ C.disableSparse = true
                              then doFlush C s ((i - 2) / 1024) else s) with
                            ofs := 0, lastW := 0
                            remO2F := advanceKeys s.remO2F i
                            remF2O := advanceKeys s.remF2O i } with
                        ofs := (rowStep C i
                          { (if 0 < s.lastW ∨ C.disableSparse = true
                              then doFlush C s ((i - 2) / 1024) else s) with
                            ofs := 0, lastW := 0
                            remO2F := advanceKeys s.remO2F i
                            remF2O := advanceKeys s.remF2O i }).ofs + 1 } := by
                  rw [xLoop, if_neg hend, boundaryStep_eq C i s hofs1024]
                  simp only []
                  rw [if_neg hc1, if_pos hc2, if_neg hc3]
                rw [hx]
                obtain ⟨k, hk, hrO⟩ := I2.hO2F
                obtain ⟨kF, hkF, hrF⟩ := I2.hF2O
                have I6 : XInv C i (cb + 1)
                    { (if 0 < s.lastW ∨ C.disableSparse = true
                        then doFlush C s ((i - 2) / 1024) else s) with
                      ofs := 0, lastW := 0
                      remO2F := advanceKeys s.remO2F i
                      remF2O := advanceKeys s.remF2O i } :=
                  ⟨I2.hi, I2.hofs, I2.hofs_le, I2.hlast, I2.hpage, I2.hzero,
                    I2.hlastNE,
                    ⟨i, Nat.le_refl i, by
                      show advanceKeys s.remO2F i = advanceKeys C.o2f i
                      rw [← hL.1, hrO]
                      exact advanceKeys_advanceKeys H.hsO hk⟩,
                    ⟨i, Nat.le_refl i, by
                      show advanceKeys s.remF2O i = advanceKeys C.f2o i
                      rw [← hL.2, hrF]
                      exact advanceKeys_advanceKeys H.hsF hkF⟩,
                    I2.hpages, I2.hmap, I2.hne, I2.hcache⟩
                have I7 := rowStep_inv C H i _ _ I6 (by show (0 : Nat) ≤ 1023; omega)
                refine ih (i + 1) _ _ I7 (Or.inr ?_) (Or.inl (by omega)) (by omega)
                show 1 ≤ (rowStep C i _).ofs + 1
                omega
            · -- plain fall-through after the flush
              have hx : xLoop C (fuel + 1) i s =
                  xLoop C fuel (i + 1)
                    { rowStep C i
                        { (if 0 < s.lastW ∨ C.disableSparse = true
                            then doFlush C s ((i - 2) / 1024) else s) with
                          ofs := 0, lastW := 0 } with
                      ofs := (rowStep C i
                        { (if 0 < s.lastW ∨ C.disableSparse = true
                            then doFlush C s ((i - 2) / 1024) else s) with
                          ofs := 0, lastW := 0 }).ofs + 1 } := by
                rw [xLoop, if_neg hend, boundaryStep_eq C i s hofs1024]
                simp only []
                rw [if_neg hc1, if_neg hc2]
              rw [hx]
              have I8 := rowStep_inv C H i _ _ I2 (by show (0 : Nat) ≤ 1023; omega)
              refine ih (i + 1) _ _ I8 (Or.inr ?_) (Or.inl (by omega)) (by omega)
              show 1 ≤ (rowStep C i _).ofs + 1
              omega
        · -- mid-block: plain row step
          have hbs : boundaryStep C i s = BStep.fall i s := by
            simp only [boundaryStep]
            rw [if_pos hofs1024]
          have hx : xLoop C (fuel + 1) i s =
              xLoop C fuel (i + 1)
                { rowStep C i s with ofs := (rowStep C i s).ofs + 1 } := by
            rw [xLoop, if_neg hend, hbs]
          rw [hx]
          have I' := rowStep_inv C H i cb s I (by have := I.hofs_le; omega)
          refine ih (i + 1) cb _ I' (Or.inr ?_) (Or.inl (by omega)) (by omega)
          show 1 ≤ (rowStep C i s).ofs + 1
          omega

/-- The flush after the loop (FGdbLayer.cpp:855-868): the last, possibly
partial, block is emitted iff it has content (or sparse pages are disabled),
completing the per-block description of the written file. -/
theorem final_flush (C : XCtx) (H : XHyps C) (iE cbE : Nat) (s : XState)
    (I : XInv C iE cbE s) (hgt : C.nOutMaxFID < iE)
    (hle : iE ≤ C.nOutMaxFID + 1024) (hof : 1 ≤ s.ofs)
    (hdisj : iE = C.nOutMaxFID + 1 ∨ s.ofs = 1024) :
    ((if 0 < s.lastW ∨ C.disableSparse = true
        then doFlush C s ((C.nOutMaxFID - 1) / 1024) else s).outPages =
      keptList C (cbE + 1)) ∧
    (∀ b, (if 0 < s.lastW ∨ C.disableSparse = true
        then doFlush C s ((C.nOutMaxFID - 1) / 1024) else s).outMap b =
      (decide (b < cbE + 1) && blockKeepB C b)) ∧
    ((if 0 < s.lastW ∨ C.disableSparse = true
        then doFlush C s ((C.nOutMaxFID - 1) / 1024) else s).nonEmpty =
      ((List.range (cbE + 1)).filter (blockKeepB C)).length) ∧
    cbE + 1 = (C.nOutMaxFID + 1023) / 1024 := by
  have hofs := I.hofs
  have hofs_le := I.hofs_le
  have hlast := I.hlast
  have hbit : (C.nOutMaxFID - 1) / 1024 = cbE := by
    rcases hdisj with h | h <;> omega
  have hT : cbE + 1 = (C.nOutMaxFID + 1023) / 1024 := by
    rcases hdisj with h | h <;> omega
  have hbeyond : ∀ p, s.ofs ≤ p → p < 1024 →
      specR C (1024 * cbE + 1 + p) = zeroRecord C.f.recordSize := by
    intro p hp1 hp2
    exact specR_zero_beyond H (by omega)
  have hzero : ∀ p, s.lastW ≤ p → p < 1024 →
      specR C (1024 * cbE + 1 + p) = zeroRecord C.f.recordSize := by
    intro p hp1 hp2
    by_cases hpo : p < s.ofs
    · exact I.hzero p hp1 hpo
    · exact hbeyond p (by omega) hp2
  have hflush : flushRecords C.f.recordSize s.page s.lastW = blockRec C cbE := by
    simp only [flushRecords, blockRec]
    refine List.map_congr_left (fun p hp => ?_)
    have hp1024 : p < 1024 := List.mem_range.mp hp
    by_cases hpl : p < s.lastW
    · rw [if_pos hpl]
      exact I.hpage p hpl
    · rw [if_neg hpl]
      exact (hzero p (by omega) hp1024).symm
  have hkeepiff : (0 < s.lastW ∨ C.disableSparse = true) ↔
      blockKeepB C cbE = true := by
    constructor
    · intro h
      rcases h with hl | hd
      · have hne := I.hlastNE hl
        simp only [blockKeepB, Bool.or_eq_true]
        refine Or.inr (List.any_eq_true.mpr ⟨s.lastW - 1, List.mem_range.mpr ?_, ?_⟩)
        · omega
        · rw [decide_eq_true_eq]
          have he : 1024 * cbE + 1 + (s.lastW - 1) = 1024 * cbE + s.lastW := by
            omega
          rw [he]
          exact hne
      · simp only [blockKeepB, hd, Bool.true_or]
    · intro h
      by_cases hl : 0 < s.lastW
      · exact Or.inl hl
      · right
        simp only [blockKeepB, Bool.or_eq_true] at h
        rcases h with hd | hany
        · exact hd
        · exfalso
          rcases List.any_eq_true.mp hany with ⟨p, hp, hne⟩
          rw [decide_eq_true_eq] at hne
          exact hne (hzero p (by omega) (List.mem_range.mp hp))
  by_cases hfl : 0 < s.lastW ∨ C.disableSparse = true
  · have hkeep : blockKeepB C cbE = true := hkeepiff.mp hfl
    rw [if_pos hfl]
    refine ⟨?_, ?_, ?_, hT⟩
    · show s.outPages ++ [flushRecords C.f.recordSize s.page s.lastW] =
        keptList C (cbE + 1)
      rw [keptList_succ, if_pos hkeep, I.hpages, hflush]
    · intro b
      show setBit s.outMap ((C.nOutMaxFID - 1) / 1024) b =
        (decide (b < cbE + 1) && blockKeepB C b)
      rw [hbit, setBit]
      by_cases hbc : b = cbE
      · rw [if_pos hbc, hbc, hkeep, decide_eq_true (by omega : cbE < cbE + 1)]
        rfl
      · rw [if_neg hbc, I.hmap b]
        by_cases hlt : b < cbE
        · rw [decide_eq_true hlt, decide_eq_true (by omega : b < cbE + 1)]
        · rw [decide_eq_false hlt, decide_eq_false (by omega : ¬ (b < cbE + 1))]
    · show s.nonEmpty + 1 = ((List.range (cbE + 1)).filter (blockKeepB C)).length
      rw [List.range_succ, List.filter_append, List.length_append,
        List.filter_cons, if_pos hkeep, I.hne]
      rfl
  · have hkeep : blockKeepB C cbE = false := by
      rcases Bool.eq_false_or_eq_true (blockKeepB C cbE) with h | h
      · exact absurd (hkeepiff.mpr h) hfl
      · exact h
    rw [if_neg hfl]
    refine ⟨?_, ?_, ?_, hT⟩
    · show s.outPages = keptList C (cbE + 1)
      rw [keptList_succ, if_neg (by rw [hkeep]; exact Bool.false_ne_true), I.hpages,
        List.append_nil]
    · intro b
      show s.outMap b = (decide (b < cbE + 1) && blockKeepB C b)
      rw [I.hmap b]
      by_cases hbc : b = cbE
      · rw [hbc, hkeep]
        simp
      · by_cases hlt : b < cbE
        · rw [decide_eq_true hlt, decide_eq_true (by omega : b < cbE + 1)]
        · rw [decide_eq_false hlt, decide_eq_false (by omega : ¬ (b < cbE + 1))]
    · show s.nonEmpty = ((List.range (cbE + 1)).filter (blockKeepB C)).length
      rw [List.range_succ, List.filter_append, List.length_append,
        List.filter_cons, if_neg (by rw [hkeep]; exact Bool.false_ne_true), I.hne,
        List.filter_nil, List.length_nil, Nat.add_zero]

theorem getD_map_list {α β : Type} (l : List α) (g : α → β) (k : Nat) (d : β)
    (d0 : α) (hk : k < l.length) : (l.map g).getD k d = g (l.getD k d0) := by
  rw [List.getD_eq_getElem?_getD, List.getElem?_map, List.getD_eq_getElem?_getD,
    List.getElem?_eq_getElem hk]
  rfl

/-- Reading one record out of the materialised pages: the record at packed
position `cnt * 1024 + r` — where `cnt` counts materialised blocks before
`b` — is block `b`'s specified record `r`. -/
theorem keptList_read (C : XCtx) (T b r : Nat) (hb : b < T) (hr : r < 1024)
    (hkeep : blockKeepB C b = true) (d : List Nat) :
    (keptList C T).flatten.getD
      ((((List.range b).filter (blockKeepB C)).length) * 1024 + r) d =
      specR C (1024 * b + 1 + r) := by
  obtain ⟨hgetD, hlt⟩ := filter_range_getD (blockKeepB C) T b hb hkeep
  have hlen : ∀ x ∈ keptList C T, x.length = 1024 := by
    intro x hx
    simp only [keptList, List.mem_map] at hx
    obtain ⟨b', _, hb'⟩ := hx
    rw [← hb']
    simp [blockRec]
  have hklen : (keptList C T).length =
      ((List.range T).filter (blockKeepB C)).length := by
    simp [keptList]
  rw [Nat.mul_comm]
  rw [getD_flatten (keptList C T) 1024 hlen _ r (by rw [hklen]; exact hlt) hr d]
  have hmap : (keptList C T).getD
      (((List.range b).filter (blockKeepB C)).length) [] = blockRec C b := by
    simp only [keptList]
    rw [getD_map_list _ (blockRec C) _ [] 0 hlt, hgetD]
  rw [hmap]
  simp only [blockRec]
  exact getD_map_range _ 1024 r hr d

/-- Reading any row back from a written file whose pages, block map and page
count follow the per-block description yields exactly the specified
record. -/
theorem readOut_core (C : XCtx) (out : TablXOut) (T : Nat) (H : XHyps C)
    (hT : T = (C.nOutMaxFID + 1023) / 1024)
    (hrs : out.recordSize = C.f.recordSize)
    (hhm : out.headerMaxFID = C.nOutMaxFID)
    (hpr : out.physRecs = (keptList C T).flatten)
    (hbm : ∀ b, out.blockMapOut b = (decide (b < T) && blockKeepB C b))
    (hnep : out.nonEmptyPages = ((List.range T).filter (blockKeepB C)).length)
    (hbw : out.bitmapWordsOut = if out.nonEmptyPages < T then
        (((T + 7) / 8 + 127) / 128) * 128 / 4 else 0)
    (j : Nat) (hj : 1 ≤ j) :
    readOutRecord out j = specR C j := by
  have hT1 : 1 ≤ T := by
    have := H.h1
    omega
  simp only [readOutRecord]
  by_cases hjgt : C.nOutMaxFID < j
  · rw [if_pos (Or.inr (by rw [hhm]; exact hjgt)), hrs,
      specR_zero_beyond H hjgt]
  · rw [if_neg (fun h => h.elim (by omega) (fun hh => by rw [hhm] at hh; omega))]
    have hbT : (j - 1) / 1024 < T := by omega
    have hfid : 1024 * ((j - 1) / 1024) + 1 + (j - 1) % 1024 = j := by omega
    by_cases hne : out.nonEmptyPages < T
    · have hbwnz : out.bitmapWordsOut ≠ 0 := by
        rw [hbw, if_pos hne]
        omega
      rw [if_pos hbwnz]
      by_cases hk : blockKeepB C ((j - 1) / 1024) = true
      · have hbmt : out.blockMapOut ((j - 1) / 1024) = true := by
          rw [hbm, decide_eq_true hbT, hk]
          rfl
        rw [if_pos hbmt]
        have hcsb : countSetBefore out.blockMapOut ((j - 1) / 1024) =
            ((List.range ((j - 1) / 1024)).filter (blockKeepB C)).length := by
          simp only [countSetBefore]
          congr 1
          refine List.filter_congr (fun x hx => ?_)
          have hxb : x < (j - 1) / 1024 := List.mem_range.mp hx
          rw [hbm x, decide_eq_true (by omega : x < T), Bool.true_and]
        rw [hpr, hrs, hcsb, keptList_read C T _ _ hbT (by omega) hk, hfid]
      · have hkf : blockKeepB C ((j - 1) / 1024) = false := by
          rcases Bool.eq_false_or_eq_true (blockKeepB C ((j - 1) / 1024)) with h | h
          · exact absurd h hk
          · exact h
        have hbmf : out.blockMapOut ((j - 1) / 1024) = false := by
          rw [hbm, decide_eq_true hbT, hkf]
          rfl
        rw [if_neg (by rw [hbmf]; exact Bool.false_ne_true), hrs]
        simp only [blockKeepB, Bool.or_eq_false_iff] at hkf
        have hzero := List.any_eq_false.mp hkf.2 ((j - 1) % 1024)
          (List.mem_range.mpr (by omega))
        rw [decide_eq_true_eq] at hzero
        rw [hfid] at hzero
        simp only [Decidable.not_not] at hzero
        exact hzero.symm
    · have hbz : out.bitmapWordsOut = 0 := by
        rw [hbw, if_neg hne]
      rw [if_neg (fun h => h hbz)]
      have hflen : ((List.range T).filter (blockKeepB C)).length = T := by
        have hle := List.length_filter_le (blockKeepB C) (List.range T)
        rw [List.length_range] at hle
        rw [hnep] at hne
        omega
      have hall : ∀ x, x < T → blockKeepB C x = true := by
        have := List.filter_length_eq_length.mp
          (by rw [hflen, List.length_range])
        intro x hx
        exact this x (List.mem_range.mpr hx)
      have hcnt : ((List.range ((j - 1) / 1024)).filter (blockKeepB C)).length =
          (j - 1) / 1024 := by
        rw [List.filter_eq_self.mpr
          (fun x hx => hall x (by have := List.mem_range.mp hx; omega)),
          List.length_range]
      have hidx : j - 1 =
          ((List.range ((j - 1) / 1024)).filter (blockKeepB C)).length * 1024 +
            (j - 1) % 1024 := by
        rw [hcnt]
        omega
      rw [hpr, hrs, hidx, keptList_read C T _ _ hbT (by omega) (hall _ hbT), hfid]

theorem editX_eq (f : TablXIn) (a b : Nat × Nat)
    (o2ft f2ot : List (Nat × Nat)) (ds : Bool) :
    EditGDBTablX f (a :: o2ft) (b :: f2ot) ds =
      some (editXBody f (a :: o2ft) (b :: f2ot) ds) := rfl

theorem xHyps_of (f : TablXIn) (o2f f2o : List (Nat × Nat)) (ds : Bool)
    (hsO : sKeys o2f) (hsF : sKeys f2o) (hne : o2f ≠ [])
    (h1O : ∀ kv ∈ o2f, 1 ≤ kv.1)
    (hBf : f.maxFID ≤ 2147482623) (hBo : ∀ kv ∈ o2f, kv.1 ≤ 2147482623) :
    XHyps (ctxOf f o2f f2o ds) := by
  have hbounds := compactLoop_bounds f2o (maxKey o2f) f.maxFID
    (max f.maxFID (maxKey o2f)) (Nat.le_max_right _ _) (Nat.le_max_left _ _)
  obtain ⟨hOGRle, hInOut, hOutle⟩ := hbounds
  obtain ⟨vmax, hvmax⟩ := maxKey_mem hne
  have hmax1 : 1 ≤ maxKey o2f := h1O _ hvmax
  have hmaxB : maxKey o2f ≤ 2147482623 := hBo _ hvmax
  refine ⟨hsO, hsF, ?_, hInOut, ?_, ?_⟩
  · intro kv hkv
    exact Nat.le_trans (maxKey_is_max hsO kv hkv) hOGRle
  · exact Nat.le_trans hmax1 hOGRle
  · refine Nat.le_trans hOutle ?_
    exact Nat.max_le.mpr ⟨hBf, hmaxB⟩

theorem xinv_start (f : TablXIn) (o2f f2o : List (Nat × Nat)) (ds : Bool) :
    XInv (ctxOf f o2f f2o ds) 1 0 (xStart f o2f f2o) := by
  refine ⟨Nat.le_refl 1, rfl, by show (0 : Nat) ≤ 1024; omega, Nat.le_refl 0,
    ?_, ?_, ?_,
    ⟨0, Nat.zero_le 1, (advanceKeys_zero o2f).symm⟩,
    ⟨0, Nat.zero_le 1, (advanceKeys_zero f2o).symm⟩, rfl, ?_, rfl, rfl⟩
  · intro p hp
    exact absurd (show p < 0 from hp) (by omega)
  · intro p h1 h2
    exact absurd (show p < 0 from h2) (by omega)
  · intro hp
    exact absurd (show (0 : Nat) < 0 from hp) (by omega)
  · intro b
    show false = (decide (b < 0) && blockKeepB (ctxOf f o2f f2o ds) b)
    rw [decide_eq_false (by omega : ¬ (b < 0)), Bool.false_and]

/-- Characterisation of `EditGDBTablX`'s output (FGdbLayer.cpp:617-916): the
header carries the compacted maximum FID; reading any row of the written
file returns exactly the specified record — the remap-redirected record for
created OGR FIDs, the empty record for relocated FGDB FIDs and rows beyond
the compacted input, and the row's own record otherwise; the emitted block
map marks exactly the materialised blocks; the bitmap section is a multiple
of 128 bytes. -/
theorem editX_char (f : TablXIn) (o2f f2o : List (Nat × Nat)) (ds : Bool)
    (out : TablXOut)
    (hsO : sKeys o2f) (hsF : sKeys f2o)
    (h1O : ∀ kv ∈ o2f, 1 ≤ kv.1)
    (hBf : f.maxFID ≤ 2147482623) (hBo : ∀ kv ∈ o2f, kv.1 ≤ 2147482623)
    (heval : EditGDBTablX f o2f f2o ds = some out) :
    out.recordSize = f.recordSize ∧
    out.headerMaxFID = nOutMaxOf f o2f f2o ∧
    out.totalBlocks = (nOutMaxOf f o2f f2o + 1023) / 1024 ∧
    (∀ j, 1 ≤ j → readOutRecord out j =
      specOutRecord f o2f f2o (nInMaxOf f o2f f2o) j) ∧
    (∀ b, out.blockMapOut b =
      (decide (b < (nOutMaxOf f o2f f2o + 1023) / 1024) &&
        blockKeepB (ctxOf f o2f f2o ds) b)) ∧
    out.bitmapSizeBytes % 128 = 0 := by
  match o2f, f2o with
  | [], _ => simp [EditGDBTablX] at heval
  | _ :: _, [] => simp [EditGDBTablX] at heval
  | a :: o2ft, b :: f2ot =>
    rw [editX_eq] at heval
    have hout : out = editXBody f (a :: o2ft) (b :: f2ot) ds :=
      (Option.some.injEq _ _ ▸ heval).symm
    subst hout
    have H : XHyps (ctxOf f (a :: o2ft) (b :: f2ot) ds) :=
      xHyps_of f _ _ ds hsO hsF (by simp) h1O hBf hBo
    have hcn : (ctxOf f (a :: o2ft) (b :: f2ot) ds).nOutMaxFID =
        nOutMaxOf f (a :: o2ft) (b :: f2ot) := rfl
    have h1 := H.h1
    obtain ⟨iE, cbE, hgt, IE, hP1, hP2⟩ :=
      xLoop_run (ctxOf f (a :: o2ft) (b :: f2ot) ds) H
        (nOutMaxOf f (a :: o2ft) (b :: f2ot) + 1) 1 0
        (xStart f (a :: o2ft) (b :: f2ot))
        (xinv_start f (a :: o2ft) (b :: f2ot) ds)
        (Or.inl rfl) (Or.inl (by omega)) (by omega)
    have IE' : XInv (ctxOf f (a :: o2ft) (b :: f2ot) ds) iE cbE
        (xEnd f (a :: o2ft) (b :: f2ot) ds) := IE
    have hof : 1 ≤ (xEnd f (a :: o2ft) (b :: f2ot) ds).ofs := by
      rcases hP1 with h | h
      · omega
      · exact h
    have hle : iE ≤ (ctxOf f (a :: o2ft) (b :: f2ot) ds).nOutMaxFID + 1024 := by
      rcases hP2 with h | h
      · omega
      · exact h.2
    have hdisj : iE = (ctxOf f (a :: o2ft) (b :: f2ot) ds).nOutMaxFID + 1 ∨
        (xEnd f (a :: o2ft) (b :: f2ot) ds).ofs = 1024 := by
      rcases hP2 with h | h
      · exact Or.inl (by omega)
      · exact Or.inr h.1
    obtain ⟨hPg, hMp, hNe, hTT⟩ :=
      final_flush (ctxOf f (a :: o2ft) (b :: f2ot) ds) H iE cbE
        (xEnd f (a :: o2ft) (b :: f2ot) ds) IE' hgt hle hof hdisj
    have hPg' : (xFin f (a :: o2ft) (b :: f2ot) ds).outPages =
        keptList (ctxOf f (a :: o2ft) (b :: f2ot) ds) (cbE + 1) := hPg
    have hMp' : ∀ b', (xFin f (a :: o2ft) (b :: f2ot) ds).outMap b' =
        (decide (b' < cbE + 1) &&
          blockKeepB (ctxOf f (a :: o2ft) (b :: f2ot) ds) b') := hMp
    have hNe' : (xFin f (a :: o2ft) (b :: f2ot) ds).nonEmpty =
        ((List.range (cbE + 1)).filter
          (blockKeepB (ctxOf f (a :: o2ft) (b :: f2ot) ds))).length := hNe
    have hTT2 : cbE + 1 = (nOutMaxOf f (a :: o2ft) (b :: f2ot) + 1023) / 1024 :=
      hTT
    have hread := readOut_core (ctxOf f (a :: o2ft) (b :: f2ot) ds)
      (editXBody f (a :: o2ft) (b :: f2ot) ds) (cbE + 1) H hTT rfl rfl
      (congrArg List.flatten hPg') hMp' hNe' (by rw [hTT2]; rfl)
    refine ⟨rfl, rfl, rfl, fun j hj => hread j hj, fun b' => ?_, ?_⟩
    · rw [← hTT2]
      exact hMp' b'
    · show (if (xFin f (a :: o2ft) (b :: f2ot) ds).nonEmpty <
          (nOutMaxOf f (a :: o2ft) (b :: f2ot) + 1023) / 1024
        then ((((nOutMaxOf f (a :: o2ft) (b :: f2ot) + 1023) / 1024 + 7) / 8 +
          127) / 128) * 128
        else 0) % 128 = 0
      by_cases hc : (xFin f (a :: o2ft) (b :: f2ot) ds).nonEmpty <
          (nOutMaxOf f (a :: o2ft) (b :: f2ot) + 1023) / 1024
      · rw [if_pos hc, Nat.mul_mod_left]
      · rw [if_neg hc]

/-- `C1`: remap completeness of the row-offset-table rewrite: for every
`(external, internal)` remap pair, reading output row `external` returns the
input record of row `internal`, and — when `internal` is not itself a key of
the external-to-internal map — output row `internal` holds the all-zero
absent record.  Hypotheses: the `std::map` key order of both maps, FIDs at
least 1 and within 32-bit range, and the engine invariant that
`m_oMapFGDBFIDToOGRFID` inverts `m_oMapOGRFIDToFGDBFID`. -/
theorem remap_completeness (f : TablXIn) (o2f f2o : List (Nat × Nat))
    (ds : Bool) (out : TablXOut)
    (hsO : sKeys o2f) (hsF : sKeys f2o)
    (h1O : ∀ kv ∈ o2f, 1 ≤ kv.1) (h1F : ∀ kv ∈ f2o, 1 ≤ kv.1)
    (hinv : ∀ kv ∈ o2f, (kv.2, kv.1) ∈ f2o)
    (hBf : f.maxFID ≤ 2147482623) (hBo : ∀ kv ∈ o2f, kv.1 ≤ 2147482623)
    (heval : EditGDBTablX f o2f f2o ds = some out) :
    ∀ ext int, (ext, int) ∈ o2f →
      readOutRecord out ext = readSrcRecord f int ∧
      (o2f.lookup int = none →
        readOutRecord out int = zeroRecord f.recordSize) := by
  obtain ⟨hrs, hhm, htb, hread, hbm, hbs⟩ :=
    editX_char f o2f f2o ds out hsO hsF h1O hBf hBo heval
  intro ext int hmem
  constructor
  · rw [hread ext (h1O _ hmem)]
    simp only [specOutRecord, lookup_eq_some_of_mem hsO hmem]
  · intro hnone
    have hintf : (int, ext) ∈ f2o := hinv _ hmem
    rw [hread int (h1F _ hintf)]
    simp only [specOutRecord, hnone]
    rw [if_pos (Or.inl (by rw [lookup_eq_some_of_mem hsF hintf]; rfl))]

/-- `C1` witness: with remap `{2 → 4}`, output row 2 reads back input row 4's
record and output row 4 is absent. -/
theorem remap_completeness_witness :
    ∃ out, EditGDBTablX c1In [(2, 4)] [(4, 2)] false = some out ∧
      readOutRecord out 2 = readSrcRecord c1In 4 ∧
      readOutRecord out 4 = zeroRecord 1 := by
  cases heval : EditGDBTablX c1In [(2, 4)] [(4, 2)] false with
  | none =>
      rw [editX_eq] at heval
      cases heval
  | some out =>
      have h := remap_completeness c1In [(2, 4)] [(4, 2)] false out
        (List.pairwise_singleton _ _) (List.pairwise_singleton _ _)
        (by decide) (by decide) (by decide)
        (by decide) (by decide) heval 2 4 (by decide)
      exact ⟨out, rfl, h.1, h.2 (by decide)⟩

theorem compactLoop_identity (k M : Nat) (hk1 : 1 ≤ k) (hkle : k ≤ M) :
    compactLoop [(k, k)] k M M = (M, M) := by
  cases M with
  | zero => omega
  | succ n =>
      have hcond : ¬ (k < n + 1 ∧ (List.lookup (n + 1) [(k, k)]).isSome) := by
        intro hc
        obtain ⟨h1, h2⟩ := hc
        by_cases he : n + 1 = k
        · omega
        · rw [List.lookup, beq_eq_false_iff_ne.mpr he] at h2
          simp [List.lookup] at h2
      rw [compactLoop, if_neg hcond]

/-- `C9` (amended): with truly empty remap maps `EditGDBTablX` dereferences
`begin()` of an empty `std::map` (FGdbLayer.cpp:709-712) — modelled as no
output — so the round trip is stated for the no-op remap state `{k → k}`:
the rewritten table is record-identical to the input (and keeps the header
maximum FID). -/
theorem identity_remap_round_trip (f : TablXIn) (k : Nat) (ds : Bool)
    (out : TablXOut) (hk1 : 1 ≤ k) (hkle : k ≤ f.maxFID)
    (hBf : f.maxFID ≤ 2147482623)
    (heval : EditGDBTablX f [(k, k)] [(k, k)] ds = some out) :
    out.headerMaxFID = f.maxFID ∧
    ∀ j, 1 ≤ j → j ≤ f.maxFID → readOutRecord out j = readSrcRecord f j := by
  obtain ⟨hrs, hhm, htb, hread, hbm, hbs⟩ :=
    editX_char f [(k, k)] [(k, k)] ds out (List.pairwise_singleton _ _)
      (List.pairwise_singleton _ _) (by simpa using hk1) hBf
      (by simpa using Nat.le_trans hkle hBf) heval
  have hmaxk : maxKey [(k, k)] = k := rfl
  have hIn : nInMaxOf f [(k, k)] [(k, k)] = f.maxFID := by
    simp only [nInMaxOf, hmaxk, Nat.max_eq_left hkle,
      compactLoop_identity k f.maxFID hk1 hkle]
  have hOut : nOutMaxOf f [(k, k)] [(k, k)] = f.maxFID := by
    simp only [nOutMaxOf, hmaxk, Nat.max_eq_left hkle,
      compactLoop_identity k f.maxFID hk1 hkle]
  refine ⟨by rw [hhm, hOut], fun j hj1 hj2 => ?_⟩
  rw [hread j hj1, hIn]
  simp only [specOutRecord]
  by_cases hjk : j = k
  · rw [show List.lookup j [(k, k)] = some k from by
      rw [hjk, List.lookup]
      simp]
    rw [hjk]
  · have hlk : List.lookup j [(k, k)] = none := by
      rw [List.lookup, beq_eq_false_iff_ne.mpr hjk]
      rfl
    simp only [hlk]
    rw [if_neg (fun hor => hor.elim
      (fun hs => by simp at hs)
      (fun hlt => by omega))]

/-- `C9` (counterexample): with both remap maps empty — the spec's "no
pending remaps" state — `EditGDBTablX` produces no output at all (the
`begin()` dereference of an empty map, FGdbLayer.cpp:709-712, is undefined
behaviour), so no byte-identical output file exists. -/
theorem empty_maps_no_output :
    EditGDBTablX c9In [] [] false = none := rfl

/-- `C9` witness: the no-op remap `{2 → 2}` reproduces the input records. -/
theorem identity_remap_round_trip_witness :
    ∃ out, EditGDBTablX c9In [(2, 2)] [(2, 2)] false = some out ∧
      out.headerMaxFID = 3 ∧
      readOutRecord out 1 = readSrcRecord c9In 1 ∧
      readOutRecord out 3 = readSrcRecord c9In 3 := by
  cases heval : EditGDBTablX c9In [(2, 2)] [(2, 2)] false with
  | none =>
      rw [editX_eq] at heval
      cases heval
  | some out =>
      have h := identity_remap_round_trip c9In 2 false out (by decide)
        (by decide) (by decide) heval
      exact ⟨out, rfl, h.1, h.2 1 (by decide) (by decide),
        h.2 3 (by decide) (by decide)⟩

/-- `C4`: sparse bitmap consistency of the written row-offset table: unless
`FILEGDB_DISABLE_SPARSE_PAGES` is set, block `b`'s bit is set iff some row in
`[1024b+1, 1024b+1024]` reads back non-zero; with it set, every block's bit
is set; and the bitmap section size is a multiple of 128 bytes. -/
theorem sparse_bitmap_spec (f : TablXIn) (o2f f2o : List (Nat × Nat))
    (ds : Bool) (out : TablXOut)
    (hsO : sKeys o2f) (hsF : sKeys f2o)
    (h1O : ∀ kv ∈ o2f, 1 ≤ kv.1)
    (hBf : f.maxFID ≤ 2147482623) (hBo : ∀ kv ∈ o2f, kv.1 ≤ 2147482623)
    (heval : EditGDBTablX f o2f f2o ds = some out) :
    out.totalBlocks = (nOutMaxOf f o2f f2o + 1023) / 1024 ∧
    (ds = false → ∀ b, b < out.totalBlocks →
      (out.blockMapOut b = true ↔
        ∃ r, 1024 * b + 1 ≤ r ∧ r ≤ 1024 * b + 1024 ∧
          readOutRecord out r ≠ zeroRecord out.recordSize)) ∧
    (ds = true → ∀ b, b < out.totalBlocks → out.blockMapOut b = true) ∧
    out.bitmapSizeBytes % 128 = 0 := by
  obtain ⟨hrs, hhm, htb, hread, hbm, hbs⟩ :=
    editX_char f o2f f2o ds out hsO hsF h1O hBf hBo heval
  refine ⟨htb, ?_, ?_, hbs⟩
  · intro hds b hb
    subst hds
    rw [htb] at hb
    rw [hbm b, decide_eq_true hb, Bool.true_and]
    have hdsf : (ctxOf f o2f f2o false).disableSparse = false := rfl
    constructor
    · intro hkeep
      simp only [blockKeepB, hdsf, Bool.false_or] at hkeep
      obtain ⟨p, hp, hne⟩ := List.any_eq_true.mp hkeep
      have hp1024 := List.mem_range.mp hp
      rw [decide_eq_true_eq] at hne
      refine ⟨1024 * b + 1 + p, by omega, by omega, ?_⟩
      rw [hread _ (by omega), hrs]
      exact hne
    · intro hex
      obtain ⟨r, hr1, hr2, hne⟩ := hex
      simp only [blockKeepB, hdsf, Bool.false_or]
      refine List.any_eq_true.mpr
        ⟨r - (1024 * b + 1), List.mem_range.mpr (by omega), ?_⟩
      rw [decide_eq_true_eq]
      have he : 1024 * b + 1 + (r - (1024 * b + 1)) = r := by omega
      rw [he]
      intro hz
      refine hne ?_
      rw [hread r (by omega), hrs]
      exact hz
  · intro hds b hb
    subst hds
    rw [htb] at hb
    rw [hbm b, decide_eq_true hb, Bool.true_and]
    simp only [blockKeepB]
    rw [show (ctxOf f o2f f2o true).disableSparse = true from rfl, Bool.true_or]

/-- `C4` witness: with sparse pages disabled every block's bit is set and the
bitmap length is 128-byte aligned. -/
theorem sparse_bitmap_spec_witness :
    ∃ out, EditGDBTablX c4In [(2, 2)] [(2, 2)] true = some out ∧
      out.blockMapOut 0 = true ∧ out.bitmapSizeBytes % 128 = 0 := by
  cases heval : EditGDBTablX c4In [(2, 2)] [(2, 2)] true with
  | none =>
      rw [editX_eq] at heval
      cases heval
  | some out =>
      have h := sparse_bitmap_spec c4In [(2, 2)] [(2, 2)] true out
        (List.pairwise_singleton _ _) (List.pairwise_singleton _ _)
        (by decide) (by decide) (by decide) heval
      refine ⟨out, rfl, ?_, h.2.2.2⟩
      refine h.2.2.1 rfl 0 ?_
      rw [h.1]
      decide

set_option maxRecDepth 4000 in
/-- `C2` (amended): in the spec's scenario — remap `{5 → 1000001}`, input
`maxIdentifier` 1000001, record size 4, the only stored record at input row
1000001 — the trailing compaction pops only row 1000001 (it is a key of
`m_oMapFGDBFIDToOGRFID`) and then stops at row 1000000, which is merely
empty: the output header's `maxIdentifier` is 1000000, not 5, while output
row 5 does hold the bytes previously stored at input row 1000001. -/
theorem c2_compaction_rewrite :
    (EditGDBTablX c2In [(5, 1000001)] [(1000001, 5)] false).map
      (fun o => (o.headerMaxFID, readOutRecord o 5)) =
      some (1000000, readSrcRecord c2In 1000001) ∧
    readSrcRecord c2In 1000001 = [1, 2, 3, 4] := by
  constructor
  · rw [editX_eq]
    have h := editX_char c2In [(5, 1000001)] [(1000001, 5)] false
      (editXBody c2In [(5, 1000001)] [(1000001, 5)] false)
      (List.pairwise_singleton _ _) (List.pairwise_singleton _ _)
      (by decide) (by decide) (by decide)
      (editX_eq c2In (5, 1000001) (1000001, 5) [] [] false)
    have h1 : (editXBody c2In [(5, 1000001)] [(1000001, 5)] false).headerMaxFID =
        1000000 := by
      rw [h.2.1]
      rfl
    have h2 : readOutRecord
        (editXBody c2In [(5, 1000001)] [(1000001, 5)] false) 5 =
        readSrcRecord c2In 1000001 := by
      rw [h.2.2.2.1 5 (by decide)]
      rfl
    show some ((editXBody c2In [(5, 1000001)] [(1000001, 5)] false).headerMaxFID,
      readOutRecord (editXBody c2In [(5, 1000001)] [(1000001, 5)] false) 5) =
      some (1000000, readSrcRecord c2In 1000001)
    rw [h1, h2]
  · decide

theorem runStart_le (vals : List (List Nat)) : ∀ j, runStart vals j ≤ j := by
  intro j
  induction j with
  | zero => exact Nat.le_refl 0
  | succ j ih =>
      rw [runStart]
      by_cases h : vals.getD (j + 1) [] = vals.getD j []
      · rw [if_pos h]
        omega
      · rw [if_neg h]

theorem runStart_idem (vals : List (List Nat)) (j : Nat) :
    runStart vals (runStart vals j) = runStart vals j := by
  induction j with
  | zero => rfl
  | succ j ih =>
      rw [runStart]
      by_cases h : vals.getD (j + 1) [] = vals.getD j []
      · rw [if_pos h]
        exact ih
      · rw [if_neg h, runStart, if_neg h]

theorem runStart_val_eq (vals : List (List Nat)) :
    ∀ j m, runStart vals j ≤ m → m ≤ j → vals.getD m [] = vals.getD j [] := by
  intro j
  induction j with
  | zero =>
      intro m h1 h2
      have : m = 0 := by omega
      rw [this]
  | succ j ih =>
      intro m h1 h2
      by_cases h : vals.getD (j + 1) [] = vals.getD j []
      · rw [runStart, if_pos h] at h1
        by_cases hm : m = j + 1
        · rw [hm]
        · rw [h]
          exact ih m h1 (by omega)
      · rw [runStart, if_neg h] at h1
        have : m = j + 1 := by omega
        rw [this]

theorem lookup_insertSorted_self (m : List (Int × Int)) (j v : Int)
    (h : m.lookup j = none) : (insertSorted m j v).lookup j = some v := by
  induction m with
  | nil => simp [insertSorted, List.lookup]
  | cons a t ih =>
      obtain ⟨a1, a2⟩ := a
      have hja : ¬ (j = a1) := by
        intro he
        rw [List.lookup, beq_iff_eq.mpr he] at h
        simp at h
      have ht : t.lookup j = none := by
        rw [List.lookup, beq_eq_false_iff_ne.mpr hja] at h
        exact h
      rw [insertSorted]
      by_cases h1 : j < a1
      · rw [if_pos h1, List.lookup, beq_iff_eq.mpr rfl]
      · rw [if_neg h1, if_neg hja, List.lookup, beq_eq_false_iff_ne.mpr hja]
        exact ih ht

theorem lookup_insertSorted_other (m : List (Int × Int)) (j v k : Int)
    (hk : ¬ (k = j)) : (insertSorted m j v).lookup k = m.lookup k := by
  induction m with
  | nil => simp [insertSorted, List.lookup, beq_eq_false_iff_ne.mpr hk]
  | cons a t ih =>
      obtain ⟨a1, a2⟩ := a
      rw [insertSorted]
      by_cases h1 : j < a1
      · rw [if_pos h1, List.lookup, beq_eq_false_iff_ne.mpr hk]
      · rw [if_neg h1]
        by_cases h2 : j = a1
        · rw [if_pos h2]
        · rw [if_neg h2]
          by_cases h3 : k = a1
          · rw [List.lookup, beq_iff_eq.mpr h3, List.lookup, beq_iff_eq.mpr h3]
          · rw [List.lookup, beq_eq_false_iff_ne.mpr h3, List.lookup,
              beq_eq_false_iff_ne.mpr h3]
            exact ih

theorem mapIndexOp_fst (m : List (Int × Int)) (x : Int) :
    (mapIndexOp m x).1 = (m.lookup x).getD 0 := by
  cases h : m.lookup x <;> simp [mapIndexOp, h]

theorem mapIndexOp_lookup_preserved (m : List (Int × Int)) (x : Int) :
    ∀ k, ((mapIndexOp m x).2.lookup k).getD 0 = (m.lookup k).getD 0 := by
  intro k
  cases h : m.lookup x with
  | some v => simp [mapIndexOp, h]
  | none =>
      simp only [mapIndexOp, h]
      by_cases hk : k = x
      · rw [hk, lookup_insertSorted_self m x 0 h, h]
        rfl
      · rw [lookup_insertSorted_other m x 0 k hk]

theorem insertAsc_eq_orderedInsert (x : Int) (l : List Int) :
    insertAsc x l = List.orderedInsert (· ≤ ·) x l := by
  induction l with
  | nil => rfl
  | cons y ys ih => simp [insertAsc, List.orderedInsert, ih]

theorem sortInts_eq_insertionSort (l : List Int) :
    sortInts l = List.insertionSort (· ≤ ·) l := by
  induction l with
  | nil => rfl
  | cons x xs ih => rw [sortInts, List.insertionSort, ih, insertAsc_eq_orderedInsert]

theorem sortInts_perm (l : List Int) : List.Perm (sortInts l) l := by
  rw [sortInts_eq_insertionSort]
  exact List.perm_insertionSort _ l

theorem sortInts_length (l : List Int) : (sortInts l).length = l.length :=
  (sortInts_perm l).length_eq

theorem sortInts_sorted_lt (l : List Int) (hn : l.Nodup) :
    List.Sorted (· < ·) (sortInts l) := by
  have hs : List.Sorted (· ≤ ·) (sortInts l) := by
    rw [sortInts_eq_insertionSort]
    exact List.sorted_insertionSort _ l
  exact hs.lt_of_le (((sortInts_perm l).nodup_iff).mpr hn)

theorem sorted_lt_getD {l : List Int} (h : List.Sorted (· < ·) l) :
    ∀ j, j + 1 < l.length → l.getD j 0 < l.getD (j + 1) 0 := by
  induction l with
  | nil => intro j hj; simp at hj
  | cons a t ih =>
      intro j hj
      cases t with
      | nil => simp at hj
      | cons b u =>
          cases j with
          | zero =>
              have : a < b := (List.sorted_cons.mp h).1 b (by simp)
              exact this
          | succ j =>
              have ht : List.Sorted (· < ·) (b :: u) := (List.sorted_cons.mp h).2
              exact ih ht j (by simpa using hj)

theorem getD_set_self (l : List Int) (i : Nat) (x : Int) (h : i < l.length)
    (d : Int) : (l.set i x).getD i d = x := by
  rw [List.getD_eq_getElem?_getD, List.getElem?_set_self (by omega)]
  rfl

theorem getD_set_other (l : List Int) (i j : Nat) (x : Int) (h : ¬ (i = j))
    (d : Int) : (l.set i x).getD j d = l.getD j d := by
  rw [List.getD_eq_getElem?_getD, List.getElem?_set_ne h,
    ← List.getD_eq_getElem?_getD]

theorem getD_take_lt (l : List Int) (a j : Nat) (h : j < a) (d : Int) :
    (l.take a).getD j d = l.getD j d := by
  rw [List.getD_eq_getElem?_getD, List.getElem?_take, if_pos h,
    ← List.getD_eq_getElem?_getD]

theorem getD_drop_add (l : List Int) (a j : Nat) (d : Int) :
    (l.drop a).getD j d = l.getD (a + j) d := by
  rw [List.getD_eq_getElem?_getD, List.getElem?_drop,
    ← List.getD_eq_getElem?_getD]

/-- Lookup into a mid-segment replacement `take a ++ mid ++ drop (a + c)`. -/
theorem getD_replace (l mid : List Int) (a c : Nat) (hmid : mid.length = c)
    (hac : a + c ≤ l.length) (d : Int) :
    (∀ j, j < a →
      (l.take a ++ mid ++ l.drop (a + c)).getD j d = l.getD j d) ∧
    (∀ j, j < c →
      (l.take a ++ mid ++ l.drop (a + c)).getD (a + j) d = mid.getD j d) ∧
    (∀ j, a + c ≤ j →
      (l.take a ++ mid ++ l.drop (a + c)).getD j d = l.getD j d) ∧
    (l.take a ++ mid ++ l.drop (a + c)).length = l.length := by
  have hta : (l.take a).length = a := List.length_take_of_le (by omega)
  refine ⟨?_, ?_, ?_, ?_⟩
  · intro j hj
    rw [List.append_assoc, List.getD_append _ _ _ _ (by omega), getD_take_lt l a j hj]
  · intro j hj
    rw [List.append_assoc, List.getD_append_right _ _ _ _ (by omega), hta]
    have he : a + j - a = j := by omega
    rw [he, List.getD_append _ _ _ _ (by omega)]
  · intro j hj
    rw [List.append_assoc, List.getD_append_right _ _ _ _ (by omega), hta,
      List.getD_append_right _ _ _ _ (by omega), hmid, getD_drop_add]
    congr 1
    omega
  · rw [List.length_append, List.length_append, hta, hmid, List.length_drop]
    omega

theorem runStart_of_between (vals : List (List Nat)) :
    ∀ j m, runStart vals j ≤ m → m ≤ j → runStart vals m = runStart vals j := by
  intro j
  induction j with
  | zero =>
      intro m h1 h2
      have : m = 0 := by omega
      rw [this]
  | succ j ih =>
      intro m h1 h2
      by_cases h : vals.getD (j + 1) [] = vals.getD j []
      · rw [runStart, if_pos h] at h1 ⊢
        by_cases hm : m = j + 1
        · rw [hm, runStart, if_pos h]
        · exact ih m h1 (by omega)
      · rw [runStart, if_neg h] at h1 ⊢
        have : m = j + 1 := by omega
        rw [this, runStart, if_neg h]

theorem runStart_succ_same (vals : List (List Nat)) (i : Nat)
    (h : vals.getD (i + 1) [] = vals.getD i []) :
    runStart vals (i + 1) = runStart vals i := by
  rw [runStart, if_pos h]

theorem runStart_succ_diff (vals : List (List Nat)) (i : Nat)
    (h : ¬ (vals.getD (i + 1) [] = vals.getD i [])) :
    runStart vals (i + 1) = i + 1 := by
  rw [runStart, if_neg h]

theorem seg_eq_of_getD (l1 l2 : List Int) (hlen : l1.length = l2.length)
    (h : ∀ j, j < l1.length → l1.getD j 0 = l2.getD j 0) : l1 = l2 := by
  refine List.ext_getElem hlen (fun j h1 h2 => ?_)
  have := h j h1
  rw [List.getD_eq_getElem?_getD, List.getElem?_eq_getElem h1,
    List.getD_eq_getElem?_getD, List.getElem?_eq_getElem h2] at this
  exact this

/-- Sorting the (remapped) trailing-run segment `[fi, fi + cnt)` in place:
positions outside it are untouched, and every sub-range of the segment comes
out strictly ascending. -/
theorem closure_sorted (f2o0 : List (Int × Int)) (fids0 g : List Int)
    (n fi cnt : Nat)
    (hlen0 : fids0.length = n) (hglen : g.length = n)
    (hseg : ∀ j, fi ≤ j → j < fi + cnt →
      g.getD j 0 = remapVal f2o0 (fids0.getD j 0))
    (hac : fi + cnt ≤ n)
    (Hnodup : (fids0.map (remapVal f2o0)).Nodup) :
    (g.take fi ++ sortInts ((g.drop fi).take cnt) ++
      g.drop (fi + cnt)).length = n ∧
    (∀ j, j < fi → (g.take fi ++ sortInts ((g.drop fi).take cnt) ++
      g.drop (fi + cnt)).getD j 0 = g.getD j 0) ∧
    (∀ j, fi + cnt ≤ j → (g.take fi ++ sortInts ((g.drop fi).take cnt) ++
      g.drop (fi + cnt)).getD j 0 = g.getD j 0) ∧
    (∀ b, b ≤ fi + cnt → SegSorted (g.take fi ++
      sortInts ((g.drop fi).take cnt) ++ g.drop (fi + cnt)) fi b) := by
  have hseglen : ((g.drop fi).take cnt).length = cnt := by
    rw [List.length_take, List.length_drop]
    omega
  have hsortlen : (sortInts ((g.drop fi).take cnt)).length = cnt := by
    rw [sortInts_length, hseglen]
  have hsegeq : (g.drop fi).take cnt =
      ((fids0.map (remapVal f2o0)).drop fi).take cnt := by
    refine seg_eq_of_getD _ _ ?_ ?_
    · rw [hseglen, List.length_take, List.length_drop, List.length_map]
      omega
    · intro j hj
      rw [hseglen] at hj
      rw [getD_take_lt _ _ _ hj, getD_drop_add, hseg (fi + j) (by omega) (by omega),
        getD_take_lt _ _ _ hj, getD_drop_add,
        getD_map_list fids0 (remapVal f2o0) (fi + j) 0 0 (by omega)]
  have hnd : ((g.drop fi).take cnt).Nodup := by
    rw [hsegeq]
    exact Hnodup.sublist
      ((((fids0.map (remapVal f2o0)).drop fi).take_sublist cnt).trans
        ((fids0.map (remapVal f2o0)).drop_sublist fi))
  have hsorted := sortInts_sorted_lt _ hnd
  obtain ⟨hr1, hr2, hr3, hr4⟩ :=
    getD_replace g (sortInts ((g.drop fi).take cnt)) fi cnt hsortlen
      (by omega) 0
  refine ⟨by rw [hr4, hglen], hr1, hr3, ?_⟩
  intro b hb j hj1 hj2
  have hj : j - fi < cnt := by omega
  have hj1' : j + 1 - fi < cnt := by omega
  have he1 : fi + (j - fi) = j := by omega
  have he2 : fi + (j + 1 - fi) = j + 1 := by omega
  have e1 := hr2 (j - fi) hj
  rw [he1] at e1
  have e2 := hr2 (j + 1 - fi) hj1'
  rw [he2] at e2
  rw [e1, e2]
  have he3 : j + 1 - fi = (j - fi) + 1 := by omega
  rw [he3]
  exact sorted_lt_getD hsorted (j - fi) (by rw [hsortlen]; omega)

/-- An untouched segment that coincides with the input is ascending wherever
the input's runs are. -/
theorem untouched_sorted (fids0 curf : List Int) (vals : List (List Nat))
    (n fi e b : Nat)
    (Hruns : ∀ a b, a < b → b ≤ n → runStart vals (b - 1) = a →
      SegSorted fids0 a b)
    (heq : ∀ j, fi ≤ j → j < e → curf.getD j 0 = fids0.getD j 0)
    (hb1 : fi < b) (hb2 : b ≤ e) (hb3 : b ≤ n)
    (hrs : runStart vals (b - 1) = fi) :
    SegSorted curf fi b := by
  intro j hj1 hj2
  rw [heq j hj1 (by omega), heq (j + 1) (by omega) (by omega)]
  exact Hruns fi b (by omega) hb3 hrs j hj1 hj2

theorem lstep0_eq (vals : List (List Nat)) (n : Nat) (p : Int)
    (fids : List Int) (rw0 : Bool) (sf2o : List (Int × Int))
    (spg : Int → Option IdxPage) (lpv : Int) (lv : List Nat)
    (sfi : Int) (spv : List Int) :
    leafEntryStep 0 vals n p 0
      ⟨fids, rw0, ⟨sf2o, spg, lpv, lv, false, sfi, spv, false, false⟩⟩ =
    Sum.inl ⟨(if (mapIndexOp sf2o (fids.getD 0 0)).1 ≠ 0 then
        fids.set 0 (mapIndexOp sf2o (fids.getD 0 0)).1 else fids),
      rw0 || decide ((mapIndexOp sf2o (fids.getD 0 0)).1 ≠ 0),
      ⟨(mapIndexOp sf2o (fids.getD 0 0)).2, spg, lpv, vals.getD 0 [], true,
        Int.ofNat 0, [p],
        (if (mapIndexOp sf2o (fids.getD 0 0)).1 ≠ 0 then true else false),
        false⟩⟩ := by
  unfold leafEntryStep
  simp only [Bool.not_false, Bool.true_or, if_true, Bool.false_eq_true,
    false_and, and_false, if_false]

theorem lstepBM_eq (vals : List (List Nat)) (n : Nat) (p : Int) (i : Nat)
    (hi : ¬ i = 0) (hlastn : ¬ i = n - 1)
    (hv : vals.getD (i - 1) [] = vals.getD i [])
    (fids : List Int) (rw0 : Bool) (sf2o : List (Int × Int))
    (spg : Int → Option IdxPage) (lpv : Int) (sfi : Int) (spv : List Int)
    (sflag : Bool) :
    leafEntryStep 0 vals n p i
      ⟨fids, rw0, ⟨sf2o, spg, lpv, vals.getD (i - 1) [], true, sfi, spv,
        sflag, false⟩⟩ =
    Sum.inl ⟨(if (mapIndexOp sf2o (fids.getD i 0)).1 ≠ 0 then
        fids.set i (mapIndexOp sf2o (fids.getD i 0)).1 else fids),
      rw0 || decide ((mapIndexOp sf2o (fids.getD i 0)).1 ≠ 0),
      ⟨(mapIndexOp sf2o (fids.getD i 0)).2, spg, lpv, vals.getD (i - 1) [],
        true, sfi, spv,
        (if (mapIndexOp sf2o (fids.getD i 0)).1 ≠ 0 then true else sflag),
        false⟩⟩ := by
  unfold leafEntryStep
  have hb : (decide (vals.getD (i - 1) [] ≠ vals.getD i [])) = false :=
    decide_eq_false (fun h => h hv)
  simp only [Bool.not_true, Bool.false_or, hb, Bool.false_eq_true, false_or,
    hlastn, and_false, false_and, and_true, eq_self_iff_true, if_false,
    if_neg hi]

theorem lstepAM_fire (vals : List (List Nat)) (n : Nat) (p : Int) (i fi : Nat)
    (hi : ¬ i = 0) (hlastn : ¬ i = n - 1)
    (hv : ¬ vals.getD (i - 1) [] = vals.getD i [])
    (fids : List Int) (rw0 : Bool) (sf2o : List (Int × Int))
    (spg : Int → Option IdxPage) (lpv : Int) :
    leafEntryStep 0 vals n p i
      ⟨fids, rw0, ⟨sf2o, spg, lpv, vals.getD (i - 1) [], true, Int.ofNat fi,
        [p], true, false⟩⟩ =
    Sum.inl ⟨((if (mapIndexOp sf2o (fids.getD i 0)).1 ≠ 0 then
          fids.set i (mapIndexOp sf2o (fids.getD i 0)).1 else fids).take fi ++
        sortInts (((if (mapIndexOp sf2o (fids.getD i 0)).1 ≠ 0 then
          fids.set i (mapIndexOp sf2o (fids.getD i 0)).1 else fids).drop
            fi).take (i - fi)) ++
        (if (mapIndexOp sf2o (fids.getD i 0)).1 ≠ 0 then
          fids.set i (mapIndexOp sf2o (fids.getD i 0)).1 else fids).drop
            (fi + (i - fi))),
      true,
      ⟨(mapIndexOp sf2o (fids.getD i 0)).2, spg, lpv, vals.getD i [], true,
        Int.ofNat i, [p],
        (if (mapIndexOp sf2o (fids.getD i 0)).1 ≠ 0 then true else false),
        false⟩⟩ := by
  unfold leafEntryStep sortAction
  have hb : (decide (vals.getD (i - 1) [] ≠ vals.getD i [])) = true :=
    decide_eq_true hv
  have htn : (Int.ofNat fi).toNat = fi := rfl
  simp only [Bool.not_true, Bool.false_or, hb, hlastn, and_false, false_and,
    and_true, true_and, eq_self_iff_true, if_false, if_true, true_or, or_true,
    if_neg hi, ite_self, Bool.true_eq_false, Bool.false_eq_true, false_or,
    List.headD_cons, htn, Nat.add_zero]

theorem lstepAM_skip (vals : List (List Nat)) (n : Nat) (p : Int) (i : Nat)
    (hi : ¬ i = 0) (hlastn : ¬ i = n - 1)
    (hv : ¬ vals.getD (i - 1) [] = vals.getD i [])
    (fids : List Int) (rw0 : Bool) (sf2o : List (Int × Int))
    (spg : Int → Option IdxPage) (lpv : Int) (sfi : Int) (spv : List Int) :
    leafEntryStep 0 vals n p i
      ⟨fids, rw0, ⟨sf2o, spg, lpv, vals.getD (i - 1) [], true, sfi, spv,
        false, false⟩⟩ =
    Sum.inl ⟨(if (mapIndexOp sf2o (fids.getD i 0)).1 ≠ 0 then
        fids.set i (mapIndexOp sf2o (fids.getD i 0)).1 else fids),
      rw0 || decide ((mapIndexOp sf2o (fids.getD i 0)).1 ≠ 0),
      ⟨(mapIndexOp sf2o (fids.getD i 0)).2, spg, lpv, vals.getD i [], true,
        Int.ofNat i, [p],
        (if (mapIndexOp sf2o (fids.getD i 0)).1 ≠ 0 then true else false),
        false⟩⟩ := by
  unfold leafEntryStep
  have hb : (decide (vals.getD (i - 1) [] ≠ vals.getD i [])) = true :=
    decide_eq_true hv
  simp only [Bool.not_true, Bool.false_or, hb, hlastn, and_false, false_and,
    and_true, true_and, eq_self_iff_true, if_false, if_true,
    Bool.false_eq_true, false_and, if_neg hi]

theorem lstepBF_fireFlag (vals : List (List Nat)) (n : Nat) (p : Int)
    (i fi : Nat) (hi : ¬ i = 0) (hlast : i = n - 1)
    (hv : vals.getD (i - 1) [] = vals.getD i [])
    (fids : List Int) (rw0 : Bool) (sf2o : List (Int × Int))
    (spg : Int → Option IdxPage) (lpv : Int) :
    leafEntryStep 0 vals n p i
      ⟨fids, rw0, ⟨sf2o, spg, lpv, vals.getD (i - 1) [], true, Int.ofNat fi,
        [p], true, false⟩⟩ =
    Sum.inl ⟨((if (mapIndexOp sf2o (fids.getD i 0)).1 ≠ 0 then
          fids.set i (mapIndexOp sf2o (fids.getD i 0)).1 else fids).take fi ++
        sortInts (((if (mapIndexOp sf2o (fids.getD i 0)).1 ≠ 0 then
          fids.set i (mapIndexOp sf2o (fids.getD i 0)).1 else fids).drop
            fi).take (i - fi + 1)) ++
        (if (mapIndexOp sf2o (fids.getD i 0)).1 ≠ 0 then
          fids.set i (mapIndexOp sf2o (fids.getD i 0)).1 else fids).drop
            (fi + (i - fi + 1))),
      true,
      ⟨(mapIndexOp sf2o (fids.getD i 0)).2, spg, lpv, vals.getD (i - 1) [],
        true, Int.ofNat fi, [p], true, false⟩⟩ := by
  unfold leafEntryStep sortAction
  have hb : (decide (vals.getD (i - 1) [] ≠ vals.getD i [])) = false :=
    decide_eq_false (fun h => h hv)
  have hcl : (i = n - 1) = True := by simp [hlast]
  have htn : (Int.ofNat fi).toNat = fi := rfl
  simp only [Bool.not_true, Bool.false_or, hb, hcl, and_true, true_and,
    eq_self_iff_true, if_true, ite_self, Bool.false_eq_true, false_or,
    if_false, if_neg hi, List.headD_cons, htn, Nat.add_zero]

theorem lstepBF_fireMap (vals : List (List Nat)) (n : Nat) (p : Int)
    (i fi : Nat) (hi : ¬ i = 0) (hlast : i = n - 1)
    (hv : vals.getD (i - 1) [] = vals.getD i [])
    (fids : List Int) (rw0 : Bool) (sf2o : List (Int × Int))
    (spg : Int → Option IdxPage) (lpv : Int)
    (hg : ¬ (mapIndexOp sf2o (fids.getD i 0)).1 = 0) :
    leafEntryStep 0 vals n p i
      ⟨fids, rw0, ⟨sf2o, spg, lpv, vals.getD (i - 1) [], true, Int.ofNat fi,
        [p], false, false⟩⟩ =
    Sum.inl ⟨((fids.set i (mapIndexOp sf2o (fids.getD i 0)).1).take fi ++
        sortInts (((fids.set i
          (mapIndexOp sf2o (fids.getD i 0)).1).drop fi).take (i - fi + 1)) ++
        (fids.set i (mapIndexOp sf2o (fids.getD i 0)).1).drop
          (fi + (i - fi + 1))),
      true,
      ⟨(mapIndexOp sf2o (fids.getD i 0)).2, spg, lpv, vals.getD (i - 1) [],
        true, Int.ofNat fi, [p], true, false⟩⟩ := by
  unfold leafEntryStep sortAction
  have hb : (decide (vals.getD (i - 1) [] ≠ vals.getD i [])) = false :=
    decide_eq_false (fun h => h hv)
  have hcl : (i = n - 1) = True := by simp [hlast]
  have hc1 : ((mapIndexOp sf2o (fids.getD i 0)).1 ≠ 0) = True :=
    eq_true hg
  have htn : (Int.ofNat fi).toNat = fi := rfl
  simp only [hc1, Bool.not_true, Bool.false_or, hb, hcl, and_true, true_and,
    eq_self_iff_true, if_true, decide_True, Bool.or_true, ite_self,
    Bool.false_eq_true, false_or, if_false, if_neg hi, List.headD_cons,
    htn, Nat.add_zero]

theorem lstepBF_skip (vals : List (List Nat)) (n : Nat) (p : Int) (i : Nat)
    (hi : ¬ i = 0) (hlast : i = n - 1)
    (hv : vals.getD (i - 1) [] = vals.getD i [])
    (fids : List Int) (rw0 : Bool) (sf2o : List (Int × Int))
    (spg : Int → Option IdxPage) (lpv : Int) (sfi : Int) (spv : List Int)
    (hg : (mapIndexOp sf2o (fids.getD i 0)).1 = 0) :
    leafEntryStep 0 vals n p i
      ⟨fids, rw0, ⟨sf2o, spg, lpv, vals.getD (i - 1) [], true, sfi, spv,
        false, false⟩⟩ =
    Sum.inl ⟨fids, rw0,
      ⟨(mapIndexOp sf2o (fids.getD i 0)).2, spg, lpv, vals.getD (i - 1) [],
        true, sfi, spv, false, false⟩⟩ := by
  unfold leafEntryStep
  have hb : (decide (vals.getD (i - 1) [] ≠ vals.getD i [])) = false :=
    decide_eq_false (fun h => h hv)
  have hc1 : ((mapIndexOp sf2o (fids.getD i 0)).1 ≠ 0) = False :=
    eq_false (fun h => h hg)
  simp only [hc1, Bool.not_true, Bool.false_or, hb, false_and, and_false,
    if_false, decide_False, Bool.or_false, Bool.false_eq_true, false_or,
    if_neg hi]

theorem lstepAF_fireFlag (vals : List (List Nat)) (n : Nat) (p : Int)
    (i fi : Nat) (hi : ¬ i = 0) (hlast : i = n - 1)
    (hv : ¬ vals.getD (i - 1) [] = vals.getD i [])
    (fids : List Int) (rw0 : Bool) (sf2o : List (Int × Int))
    (spg : Int → Option IdxPage) (lpv : Int) :
    leafEntryStep 0 vals n p i
      ⟨fids, rw0, ⟨sf2o, spg, lpv, vals.getD (i - 1) [], true, Int.ofNat fi,
        [p], true, false⟩⟩ =
    Sum.inl ⟨((if (mapIndexOp sf2o (fids.getD i 0)).1 ≠ 0 then
          fids.set i (mapIndexOp sf2o (fids.getD i 0)).1 else fids).take fi ++
        sortInts (((if (mapIndexOp sf2o (fids.getD i 0)).1 ≠ 0 then
          fids.set i (mapIndexOp sf2o (fids.getD i 0)).1 else fids).drop
            fi).take (i - fi)) ++
        (if (mapIndexOp sf2o (fids.getD i 0)).1 ≠ 0 then
          fids.set i (mapIndexOp sf2o (fids.getD i 0)).1 else fids).drop
            (fi + (i - fi))),
      true,
      ⟨(mapIndexOp sf2o (fids.getD i 0)).2, spg, lpv, vals.getD i [], true,
        Int.ofNat i, [p],
        (if (mapIndexOp sf2o (fids.getD i 0)).1 ≠ 0 then true else false),
        false⟩⟩ := by
  unfold leafEntryStep sortAction
  have hb : (decide (vals.getD (i - 1) [] ≠ vals.getD i [])) = true :=
    decide_eq_true hv
  have hcl : (i = n - 1) = True := by simp [hlast]
  have htn : (Int.ofNat fi).toNat = fi := rfl
  simp only [Bool.not_true, Bool.false_or, hb, hcl, and_true, true_and,
    eq_self_iff_true, if_true, true_or, or_true, ite_self,
    Bool.true_eq_false, false_and, if_false, if_neg hi, List.headD_cons,
    htn, Nat.add_zero]

theorem lstepAF_fireMap (vals : List (List Nat)) (n : Nat) (p : Int)
    (i fi : Nat) (hi : ¬ i = 0) (hlast : i = n - 1)
    (hv : ¬ vals.getD (i - 1) [] = vals.getD i [])
    (fids : List Int) (rw0 : Bool) (sf2o : List (Int × Int))
    (spg : Int → Option IdxPage) (lpv : Int)
    (hg : ¬ (mapIndexOp sf2o (fids.getD i 0)).1 = 0) :
    leafEntryStep 0 vals n p i
      ⟨fids, rw0, ⟨sf2o, spg, lpv, vals.getD (i - 1) [], true, Int.ofNat fi,
        [p], false, false⟩⟩ =
    Sum.inl ⟨((fids.set i (mapIndexOp sf2o (fids.getD i 0)).1).take fi ++
        sortInts (((fids.set i
          (mapIndexOp sf2o (fids.getD i 0)).1).drop fi).take (i - fi)) ++
        (fids.set i (mapIndexOp sf2o (fids.getD i 0)).1).drop
          (fi + (i - fi))),
      true,
      ⟨(mapIndexOp sf2o (fids.getD i 0)).2, spg, lpv, vals.getD i [], true,
        Int.ofNat i, [p], true, false⟩⟩ := by
  unfold leafEntryStep sortAction
  have hb : (decide (vals.getD (i - 1) [] ≠ vals.getD i [])) = true :=
    decide_eq_true hv
  have hcl : (i = n - 1) = True := by simp [hlast]
  have hc1 : ((mapIndexOp sf2o (fids.getD i 0)).1 ≠ 0) = True :=
    eq_true hg
  have htn : (Int.ofNat fi).toNat = fi := rfl
  simp only [hc1, Bool.not_true, Bool.false_or, hb, hcl, and_true, true_and,
    eq_self_iff_true, if_true, decide_True, Bool.or_true, true_or, or_true,
    ite_self, Bool.true_eq_false, false_and, if_false, if_neg hi,
    List.headD_cons, htn, Nat.add_zero]

theorem lstepAF_skip (vals : List (List Nat)) (n : Nat) (p : Int) (i : Nat)
    (hi : ¬ i = 0) (hlast : i = n - 1)
    (hv : ¬ vals.getD (i - 1) [] = vals.getD i [])
    (fids : List Int) (rw0 : Bool) (sf2o : List (Int × Int))
    (spg : Int → Option IdxPage) (lpv : Int) (sfi : Int) (spv : List Int)
    (hg : (mapIndexOp sf2o (fids.getD i 0)).1 = 0) :
    leafEntryStep 0 vals n p i
      ⟨fids, rw0, ⟨sf2o, spg, lpv, vals.getD (i - 1) [], true, sfi, spv,
        false, false⟩⟩ =
    Sum.inl ⟨fids, rw0,
      ⟨(mapIndexOp sf2o (fids.getD i 0)).2, spg, lpv, vals.getD i [], true,
        Int.ofNat i, [p], false, false⟩⟩ := by
  unfold leafEntryStep
  have hb : (decide (vals.getD (i - 1) [] ≠ vals.getD i [])) = true :=
    decide_eq_true hv
  have hc1 : ((mapIndexOp sf2o (fids.getD i 0)).1 ≠ 0) = False :=
    eq_false (fun h => h hg)
  simp only [hc1, Bool.not_true, Bool.false_or, hb, false_and, and_false,
    if_false, decide_False, Bool.or_false, if_true, Bool.false_eq_true,
    if_neg hi]

/-- Combined shape facts about the in-place identifier rewrite of entry `i`
(`fids.set i nOGRFID` when the remap hits, the buffer untouched otherwise). -/
theorem remapAt_facts (f2o0 sf2o : List (Int × Int)) (fids fids0 : List Int)
    (n i : Nat) (hlen : fids.length = n) (hin : i < n)
    (hf2o : ∀ k, (sf2o.lookup k).getD 0 = (f2o0.lookup k).getD 0)
    (hfid : fids.getD i 0 = fids0.getD i 0) :
    (if (mapIndexOp sf2o (fids.getD i 0)).1 ≠ 0 then
        fids.set i (mapIndexOp sf2o (fids.getD i 0)).1 else fids).length = n ∧
    (∀ j, ¬ j = i →
      (if (mapIndexOp sf2o (fids.getD i 0)).1 ≠ 0 then
        fids.set i (mapIndexOp sf2o (fids.getD i 0)).1 else fids).getD j 0 =
      fids.getD j 0) ∧
    (if (mapIndexOp sf2o (fids.getD i 0)).1 ≠ 0 then
        fids.set i (mapIndexOp sf2o (fids.getD i 0)).1 else fids).getD i 0 =
      remapVal f2o0 (fids0.getD i 0) ∧
    ((mapIndexOp sf2o (fids.getD i 0)).1 =
      (f2o0.lookup (fids0.getD i 0)).getD 0) := by
  have hfst : (mapIndexOp sf2o (fids.getD i 0)).1 =
      (f2o0.lookup (fids0.getD i 0)).getD 0 := by
    rw [mapIndexOp_fst, hf2o, hfid]
  by_cases hg : (mapIndexOp sf2o (fids.getD i 0)).1 = 0
  · rw [if_neg (fun h => h hg)]
    refine ⟨hlen, fun j _ => rfl, ?_, hfst⟩
    rw [hfid, remapVal, if_neg (fun h => h (by rw [← hfst, hg]))]
  · rw [if_pos hg]
    refine ⟨by rw [List.length_set, hlen], ?_, ?_, hfst⟩
    · intro j hj
      exact getD_set_other fids i j _ (fun h => hj h.symm) 0
    · rw [getD_set_self fids i _ (by omega) 0, remapVal,
        if_pos (by rw [← hfst]; exact hg), ← hfst]

/-- Processing a non-final entry `i ≥ 1` of the single leaf page preserves
the loop invariant. -/
theorem lmid_inv (f2o0 : List (Int × Int)) (fids0 : List Int)
    (vals : List (List Nat)) (p : Int) (pg0 : Int → Option IdxPage)
    (lpv0 : Int) (n i : Nat) (ls : LeafStep)
    (Hruns : ∀ a b, a < b → b ≤ n → runStart vals (b - 1) = a →
      SegSorted fids0 a b)
    (Hnodup : (fids0.map (remapVal f2o0)).Nodup)
    (hlen0 : fids0.length = n)
    (hi : 1 ≤ i) (hin : i + 1 < n)
    (I : LInv f2o0 fids0 vals p pg0 lpv0 n i ls) :
    ∃ ls', leafEntryStep 0 vals n p i ls = Sum.inl ls' ∧
      LInv f2o0 fids0 vals p pg0 lpv0 n (i + 1) ls' := by
  obtain ⟨fids, rw0, st⟩ := ls
  obtain ⟨sf2o, spg, slpv, slv, svv, sfi, spv, sflag, sinv⟩ := st
  have e1 : svv = true := I.hvalid
  have e2 : slv = vals.getD (i - 1) [] := I.hlast
  have e3 : spv = [p] := I.hpv
  have e4 : sfi = Int.ofNat (runStart vals (i - 1)) := I.hfi
  have e5 : sinv = false := I.hinv
  have e6 : spg = pg0 := I.hpg
  have e7 : slpv = lpv0 := I.hlpv
  subst e1 e2 e3 e4 e5 e6 e7
  have hlen : fids.length = n := I.hlen
  have hf2o : ∀ k, (sf2o.lookup k).getD 0 = (f2o0.lookup k).getD 0 := I.hf2o
  have hfid : fids.getD i 0 = fids0.getD i 0 := I.hrest i (le_refl i)
  obtain ⟨R1, R2, R3, R4⟩ := remapAt_facts f2o0 sf2o fids fids0 n i hlen
    (by omega) hf2o hfid
  have hfi_le : runStart vals (i - 1) ≤ i - 1 := runStart_le vals (i - 1)
  have hi1 : i - 1 + 1 = i := by omega
  have hnz : ¬ i = 0 := by omega
  have hnl : ¬ i = n - 1 := by omega
  have hf2o' : ∀ k, (((mapIndexOp sf2o (fids.getD i 0)).2).lookup k).getD 0 =
      (f2o0.lookup k).getD 0 :=
    fun k => (mapIndexOp_lookup_preserved sf2o (fids.getD i 0) k).trans (hf2o k)
  by_cases hv : vals.getD i [] = vals.getD (i - 1) []
  · -- same value: the run continues
    have hrs : runStart vals i = runStart vals (i - 1) := by
      have h := runStart_succ_same vals (i - 1) (by rw [hi1]; exact hv)
      rwa [hi1] at h
    refine ⟨_, lstepBM_eq vals n p i hnz hnl hv.symm fids rw0 sf2o spg slpv
      (Int.ofNat (runStart vals (i - 1))) [p] sflag, ?_⟩
    refine ⟨R1, hf2o', rfl, hv.symm, rfl, ?_, rfl, rfl, rfl, ?_, ?_, ?_, ?_⟩
    · show Int.ofNat (runStart vals (i - 1)) = Int.ofNat (runStart vals i)
      rw [hrs]
    · intro a b hab hble hrsb
      have hble' : b ≤ runStart vals (i - 1) := by
        rw [← hrs]; exact hble
      intro j hj1 hj2
      rw [R2 j (by omega), R2 (j + 1) (by omega)]
      exact I.hclosed a b hab hble' hrsb j hj1 hj2
    · intro j hj1 hj2
      have hj1' : runStart vals (i - 1) ≤ j := by rw [← hrs]; exact hj1
      by_cases hji : j = i
      · subst hji; exact R3
      · rw [R2 j hji]
        exact I.htrail j hj1' (by omega)
    · intro j hj
      rw [R2 j (by omega)]
      exact I.hrest j (by omega)
    · intro hfl0 j hj1 hj2
      have hfl : (if (mapIndexOp sf2o (fids.getD i 0)).1 ≠ 0 then true
          else sflag) = false := hfl0
      by_cases hmr : (mapIndexOp sf2o (fids.getD i 0)).1 = 0
      · have hsf : sflag = false := by
          rw [if_neg (fun h => h hmr)] at hfl
          exact hfl
        have hj1' : runStart vals (i - 1) ≤ j := by rw [← hrs]; exact hj1
        by_cases hji : j = i
        · subst hji; rw [← R4]; exact hmr
        · exact I.hflag hsf j hj1' (by omega)
      · exfalso
        rw [if_pos hmr] at hfl
        exact Bool.noConfusion hfl
  · -- new value: the previous run closes at i
    have hrs : runStart vals i = i := by
      have h := runStart_succ_diff vals (i - 1) (by rw [hi1]; exact hv)
      rwa [hi1] at h
    have hfii : runStart vals (i - 1) ≤ i := by omega
    cases sflag with
    | true =>
        -- pending dirty run: the sort fires on [runStart (i-1), i)
        have hseg : ∀ j, runStart vals (i - 1) ≤ j →
            j < runStart vals (i - 1) + (i - runStart vals (i - 1)) →
            (if (mapIndexOp sf2o (fids.getD i 0)).1 ≠ 0 then
              fids.set i (mapIndexOp sf2o (fids.getD i 0)).1 else
              fids).getD j 0 = remapVal f2o0 (fids0.getD j 0) := by
          intro j h1 h2
          rw [R2 j (by omega)]
          exact I.htrail j h1 (by omega)
        obtain ⟨C1, C2, C3, C4⟩ := closure_sorted f2o0 fids0 _ n
          (runStart vals (i - 1)) (i - runStart vals (i - 1)) hlen0 R1 hseg
          (by omega) Hnodup
        refine ⟨_, lstepAM_fire vals n p i (runStart vals (i - 1)) hnz hnl
          (fun h => hv h.symm) fids rw0 sf2o spg slpv, ?_⟩
        refine ⟨C1, hf2o', rfl, rfl, rfl, ?_, rfl, rfl, rfl, ?_, ?_, ?_, ?_⟩
        · show Int.ofNat i = Int.ofNat (runStart vals i)
          rw [hrs]
        · intro a b hab hble hrsb
          have hble' : b ≤ i := by rw [← hrs]; exact hble
          by_cases hbfi : b ≤ runStart vals (i - 1)
          · intro j hj1 hj2
            rw [C2 j (by omega), C2 (j + 1) (by omega),
              R2 j (by omega), R2 (j + 1) (by omega)]
            exact I.hclosed a b hab hbfi hrsb j hj1 hj2
          · have hrsb' : runStart vals (b - 1) = runStart vals (i - 1) :=
              runStart_of_between vals (i - 1) (b - 1) (by omega) (by omega)
            have ha : a = runStart vals (i - 1) := hrsb.symm.trans hrsb'
            rw [ha]
            exact C4 b (by omega)
        · intro j hj1 hj2
          have hj1' : i ≤ j := by rw [← hrs]; exact hj1
          have hji : j = i := by omega
          subst hji
          rw [C3 j (by omega)]
          exact R3
        · intro j hj
          rw [C3 j (by omega), R2 j (by omega)]
          exact I.hrest j (by omega)
        · intro hfl0 j hj1 hj2
          have hj1' : i ≤ j := by rw [← hrs]; exact hj1
          have hji : j = i := by omega
          subst hji
          have hfl : (if (mapIndexOp sf2o (fids.getD j 0)).1 ≠ 0 then true
              else false) = false := hfl0
          by_cases hmr : (mapIndexOp sf2o (fids.getD j 0)).1 = 0
          · rw [← R4]; exact hmr
          · exfalso
            rw [if_pos hmr] at hfl
            exact Bool.noConfusion hfl
    | false =>
        -- clean run: nothing to sort; it was never remapped
        have hid : ∀ j, runStart vals (i - 1) ≤ j → j < i →
            fids.getD j 0 = fids0.getD j 0 := by
          intro j h1 h2
          rw [I.htrail j h1 h2, remapVal,
            if_neg (fun h => h (I.hflag rfl j h1 h2))]
        refine ⟨_, lstepAM_skip vals n p i hnz hnl
          (fun h => hv h.symm) fids rw0 sf2o spg slpv
          (Int.ofNat (runStart vals (i - 1))) [p], ?_⟩
        refine ⟨R1, hf2o', rfl, rfl, rfl, ?_, rfl, rfl, rfl, ?_, ?_, ?_, ?_⟩
        · show Int.ofNat i = Int.ofNat (runStart vals i)
          rw [hrs]
        · intro a b hab hble hrsb
          have hble' : b ≤ i := by rw [← hrs]; exact hble
          by_cases hbfi : b ≤ runStart vals (i - 1)
          · intro j hj1 hj2
            rw [R2 j (by omega), R2 (j + 1) (by omega)]
            exact I.hclosed a b hab hbfi hrsb j hj1 hj2
          · have hrsb' : runStart vals (b - 1) = runStart vals (i - 1) :=
              runStart_of_between vals (i - 1) (b - 1) (by omega) (by omega)
            have ha : a = runStart vals (i - 1) := hrsb.symm.trans hrsb'
            rw [ha]
            refine untouched_sorted fids0 _ vals n (runStart vals (i - 1)) i b
              Hruns ?_ (by omega) (by omega) (by omega) hrsb'
            intro j h1 h2
            rw [R2 j (by omega)]
            exact hid j h1 h2
        · intro j hj1 hj2
          have hj1' : i ≤ j := by rw [← hrs]; exact hj1
          have hji : j = i := by omega
          subst hji
          exact R3
        · intro j hj
          rw [R2 j (by omega)]
          exact I.hrest j (by omega)
        · intro hfl0 j hj1 hj2
          have hj1' : i ≤ j := by rw [← hrs]; exact hj1
          have hji : j = i := by omega
          subst hji
          have hfl : (if (mapIndexOp sf2o (fids.getD j 0)).1 ≠ 0 then true
              else false) = false := hfl0
          by_cases hmr : (mapIndexOp sf2o (fids.getD j 0)).1 = 0
          · rw [← R4]; exact hmr
          · exfalso
            rw [if_pos hmr] at hfl
            exact Bool.noConfusion hfl

/-- Processing the final entry `i = n - 1 ≥ 1` of the single leaf page
closes every run: from the invariant, the resulting buffer satisfies the
run-sort property on the whole page. -/
theorem lfinal_out (f2o0 : List (Int × Int)) (fids0 : List Int)
    (vals : List (List Nat)) (p : Int) (pg0 : Int → Option IdxPage)
    (lpv0 : Int) (n i : Nat) (ls : LeafStep)
    (Hruns : ∀ a b, a < b → b ≤ n → runStart vals (b - 1) = a →
      SegSorted fids0 a b)
    (Hnodup : (fids0.map (remapVal f2o0)).Nodup)
    (hlen0 : fids0.length = n)
    (hi : 1 ≤ i) (hieq : i = n - 1) (hin : i < n)
    (I : LInv f2o0 fids0 vals p pg0 lpv0 n i ls) :
    ∃ ls', leafEntryStep 0 vals n p i ls = Sum.inl ls' ∧
      LOut vals pg0 n ls' := by
  obtain ⟨fids, rw0, st⟩ := ls
  obtain ⟨sf2o, spg, slpv, slv, svv, sfi, spv, sflag, sinv⟩ := st
  have e1 : svv = true := I.hvalid
  have e2 : slv = vals.getD (i - 1) [] := I.hlast
  have e3 : spv = [p] := I.hpv
  have e4 : sfi = Int.ofNat (runStart vals (i - 1)) := I.hfi
  have e5 : sinv = false := I.hinv
  have e6 : spg = pg0 := I.hpg
  have e7 : slpv = lpv0 := I.hlpv
  subst e1 e2 e3 e4 e5 e6 e7
  have hlen : fids.length = n := I.hlen
  have hf2o : ∀ k, (sf2o.lookup k).getD 0 = (f2o0.lookup k).getD 0 := I.hf2o
  have hfid : fids.getD i 0 = fids0.getD i 0 := I.hrest i (le_refl i)
  obtain ⟨R1, R2, R3, R4⟩ := remapAt_facts f2o0 sf2o fids fids0 n i hlen
    (by omega) hf2o hfid
  have hfi_le : runStart vals (i - 1) ≤ i - 1 := runStart_le vals (i - 1)
  have hi1 : i - 1 + 1 = i := by omega
  have hnz : ¬ i = 0 := by omega
  have hfii : runStart vals (i - 1) ≤ i := by omega
  by_cases hv : vals.getD i [] = vals.getD (i - 1) []
  · -- the final entry continues the trailing run, which now spans [fi, n)
    have hrs : runStart vals i = runStart vals (i - 1) := by
      have h := runStart_succ_same vals (i - 1) (by rw [hi1]; exact hv)
      rwa [hi1] at h
    have hsortedOf : ∀ newf : List Int,
        (∀ j, j < runStart vals (i - 1) → newf.getD j 0 = fids.getD j 0) →
        (∀ b, b ≤ runStart vals (i - 1) + (i - runStart vals (i - 1) + 1) →
          SegSorted newf (runStart vals (i - 1)) b) →
        ∀ a b, a < b → b ≤ n → runStart vals (b - 1) = a →
          SegSorted newf a b := by
      intro newf hlow hseg a b hab hbn hrsb
      by_cases hbfi : b ≤ runStart vals (i - 1)
      · intro j hj1 hj2
        rw [hlow j (by omega), hlow (j + 1) (by omega)]
        exact I.hclosed a b hab hbfi hrsb j hj1 hj2
      · have hrsb' : runStart vals (b - 1) = runStart vals (i - 1) := by
          have h := runStart_of_between vals i (b - 1)
            (by rw [hrs]; omega) (by omega)
          rw [hrs] at h
          exact h
        have ha : a = runStart vals (i - 1) := hrsb.symm.trans hrsb'
        rw [ha]
        exact hseg b (by omega)
    cases sflag with
    | true =>
        have hseg : ∀ j, runStart vals (i - 1) ≤ j →
            j < runStart vals (i - 1) + (i - runStart vals (i - 1) + 1) →
            (if (mapIndexOp sf2o (fids.getD i 0)).1 ≠ 0 then
              fids.set i (mapIndexOp sf2o (fids.getD i 0)).1 else
              fids).getD j 0 = remapVal f2o0 (fids0.getD j 0) := by
          intro j h1 h2
          by_cases hji : j = i
          · subst hji; exact R3
          · rw [R2 j hji]
            exact I.htrail j h1 (by omega)
        obtain ⟨C1, C2, C3, C4⟩ := closure_sorted f2o0 fids0 _ n
          (runStart vals (i - 1)) (i - runStart vals (i - 1) + 1) hlen0 R1
          hseg (by omega) Hnodup
        refine ⟨_, lstepBF_fireFlag vals n p i (runStart vals (i - 1)) hnz
          hieq hv.symm fids rw0 sf2o spg slpv, ?_⟩
        refine ⟨C1, rfl, rfl, ?_⟩
        refine hsortedOf _ (fun j hj => ?_) C4
        rw [C2 j hj, R2 j (by omega)]
    | false =>
        by_cases hmr : (mapIndexOp sf2o (fids.getD i 0)).1 = 0
        · -- never remapped: the trailing run still holds the input order
          have hid : ∀ j, runStart vals (i - 1) ≤ j → j < n →
              fids.getD j 0 = fids0.getD j 0 := by
            intro j h1 h2
            by_cases hji : j = i
            · subst hji; exact hfid
            · rw [I.htrail j h1 (by omega), remapVal,
                if_neg (fun h => h (I.hflag rfl j h1 (by omega)))]
          refine ⟨_, lstepBF_skip vals n p i hnz hieq hv.symm fids rw0 sf2o
            spg slpv (Int.ofNat (runStart vals (i - 1))) [p] hmr, ?_⟩
          refine ⟨hlen, rfl, rfl, ?_⟩
          refine hsortedOf _ (fun j hj => rfl) ?_
          intro b hb
          by_cases hbfi : runStart vals (i - 1) < b
          · exact untouched_sorted fids0 fids vals n (runStart vals (i - 1))
              n b Hruns hid hbfi (by omega) (by omega)
              (by
                have h := runStart_of_between vals i (b - 1)
                  (by rw [hrs]; omega) (by omega)
                rw [hrs] at h
                exact h)
          · intro j hj1 hj2
            omega
        · -- remapped at the last entry: line 380 forces the sort
          have hif : (if (mapIndexOp sf2o (fids.getD i 0)).1 ≠ 0 then
              fids.set i (mapIndexOp sf2o (fids.getD i 0)).1 else fids) =
              fids.set i (mapIndexOp sf2o (fids.getD i 0)).1 := if_pos hmr
          rw [hif] at R1 R2 R3
          have hseg : ∀ j, runStart vals (i - 1) ≤ j →
              j < runStart vals (i - 1) + (i - runStart vals (i - 1) + 1) →
              (fids.set i (mapIndexOp sf2o (fids.getD i 0)).1).getD j 0 =
                remapVal f2o0 (fids0.getD j 0) := by
            intro j h1 h2
            by_cases hji : j = i
            · subst hji; exact R3
            · rw [R2 j hji]
              exact I.htrail j h1 (by omega)
          obtain ⟨C1, C2, C3, C4⟩ := closure_sorted f2o0 fids0 _ n
            (runStart vals (i - 1)) (i - runStart vals (i - 1) + 1) hlen0 R1
            hseg (by omega) Hnodup
          refine ⟨_, lstepBF_fireMap vals n p i (runStart vals (i - 1)) hnz
            hieq hv.symm fids rw0 sf2o spg slpv hmr, ?_⟩
          refine ⟨C1, rfl, rfl, ?_⟩
          refine hsortedOf _ (fun j hj => ?_) C4
          rw [C2 j hj, R2 j (by omega)]
  · -- the final entry opens a new (singleton) run at i = n - 1
    have hrs : runStart vals i = i := by
      have h := runStart_succ_diff vals (i - 1) (by rw [hi1]; exact hv)
      rwa [hi1] at h
    have hsortedOf : ∀ newf : List Int,
        (∀ j, j < runStart vals (i - 1) → newf.getD j 0 = fids.getD j 0) →
        (∀ b, b ≤ runStart vals (i - 1) + (i - runStart vals (i - 1)) →
          SegSorted newf (runStart vals (i - 1)) b) →
        ∀ a b, a < b → b ≤ n → runStart vals (b - 1) = a →
          SegSorted newf a b := by
      intro newf hlow hseg a b hab hbn hrsb
      by_cases hbfi : b ≤ runStart vals (i - 1)
      · intro j hj1 hj2
        rw [hlow j (by omega), hlow (j + 1) (by omega)]
        exact I.hclosed a b hab hbfi hrsb j hj1 hj2
      · by_cases hbi : b ≤ i
        · have hrsb' : runStart vals (b - 1) = runStart vals (i - 1) :=
            runStart_of_between vals (i - 1) (b - 1) (by omega) (by omega)
          have ha : a = runStart vals (i - 1) := hrsb.symm.trans hrsb'
          rw [ha]
          exact hseg b (by omega)
        · -- b = n: the run containing n - 1 is the singleton [i, n)
          have hb : b = n := by omega
          have ha : a = i := by
            rw [← hrsb, hb, show n - 1 = i from hieq.symm, hrs]
          intro j hj1 hj2
          rw [ha] at hj1
          omega
    cases sflag with
    | true =>
        have hseg : ∀ j, runStart vals (i - 1) ≤ j →
            j < runStart vals (i - 1) + (i - runStart vals (i - 1)) →
            (if (mapIndexOp sf2o (fids.getD i 0)).1 ≠ 0 then
              fids.set i (mapIndexOp sf2o (fids.getD i 0)).1 else
              fids).getD j 0 = remapVal f2o0 (fids0.getD j 0) := by
          intro j h1 h2
          rw [R2 j (by omega)]
          exact I.htrail j h1 (by omega)
        obtain ⟨C1, C2, C3, C4⟩ := closure_sorted f2o0 fids0 _ n
          (runStart vals (i - 1)) (i - runStart vals (i - 1)) hlen0 R1
          hseg (by omega) Hnodup
        refine ⟨_, lstepAF_fireFlag vals n p i (runStart vals (i - 1)) hnz
          hieq (fun h => hv h.symm) fids rw0 sf2o spg slpv, ?_⟩
        refine ⟨C1, rfl, rfl, ?_⟩
        refine hsortedOf _ (fun j hj => ?_) C4
        rw [C2 j hj, R2 j (by omega)]
    | false =>
        by_cases hmr : (mapIndexOp sf2o (fids.getD i 0)).1 = 0
        · have hid : ∀ j, runStart vals (i - 1) ≤ j → j < i →
              fids.getD j 0 = fids0.getD j 0 := by
            intro j h1 h2
            rw [I.htrail j h1 h2, remapVal,
              if_neg (fun h => h (I.hflag rfl j h1 h2))]
          refine ⟨_, lstepAF_skip vals n p i hnz hieq (fun h => hv h.symm)
            fids rw0 sf2o spg slpv (Int.ofNat (runStart vals (i - 1))) [p]
            hmr, ?_⟩
          refine ⟨hlen, rfl, rfl, ?_⟩
          refine hsortedOf _ (fun j hj => rfl) ?_
          intro b hb
          by_cases hbfi : runStart vals (i - 1) < b
          · exact untouched_sorted fids0 fids vals n (runStart vals (i - 1))
              i b Hruns hid hbfi (by omega) (by omega)
              (runStart_of_between vals (i - 1) (b - 1) (by omega) (by omega))
          · intro j hj1 hj2
            omega
        · have hif : (if (mapIndexOp sf2o (fids.getD i 0)).1 ≠ 0 then
              fids.set i (mapIndexOp sf2o (fids.getD i 0)).1 else fids) =
              fids.set i (mapIndexOp sf2o (fids.getD i 0)).1 := if_pos hmr
          rw [hif] at R1 R2 R3
          have hseg : ∀ j, runStart vals (i - 1) ≤ j →
              j < runStart vals (i - 1) + (i - runStart vals (i - 1)) →
              (fids.set i (mapIndexOp sf2o (fids.getD i 0)).1).getD j 0 =
                remapVal f2o0 (fids0.getD j 0) := by
            intro j h1 h2
            rw [R2 j (by omega)]
            exact I.htrail j h1 (by omega)
          obtain ⟨C1, C2, C3, C4⟩ := closure_sorted f2o0 fids0 _ n
            (runStart vals (i - 1)) (i - runStart vals (i - 1)) hlen0 R1
            hseg (by omega) Hnodup
          refine ⟨_, lstepAF_fireMap vals n p i (runStart vals (i - 1)) hnz
            hieq (fun h => hv h.symm) fids rw0 sf2o spg slpv hmr, ?_⟩
          refine ⟨C1, rfl, rfl, ?_⟩
          refine hsortedOf _ (fun j hj => ?_) C4
          rw [C2 j hj, R2 j (by omega)]

/-- Entry 0 of the first leaf page: `bIndexedValueIsValid` is still unset,
so the entry opens the first run and establishes the loop invariant. -/
theorem l0_inv (f2o0 : List (Int × Int)) (fids0 : List Int)
    (vals : List (List Nat)) (p : Int) (pg0 : Int → Option IdxPage)
    (lpv0 : Int) (n : Nat) (hlen0 : fids0.length = n) (hn : 1 ≤ n)
    (lv0 : List Nat) (sfi0 : Int) (spv0 : List Int) :
    ∃ ls', leafEntryStep 0 vals n p 0
      ⟨fids0, false, ⟨f2o0, pg0, lpv0, lv0, false, sfi0, spv0, false,
        false⟩⟩ = Sum.inl ls' ∧
      LInv f2o0 fids0 vals p pg0 lpv0 n 1 ls' := by
  obtain ⟨R1, R2, R3, R4⟩ := remapAt_facts f2o0 f2o0 fids0 fids0 n 0 hlen0
    (by omega) (fun k => rfl) rfl
  refine ⟨_, lstep0_eq vals n p fids0 false f2o0 pg0 lpv0 lv0 sfi0 spv0, ?_⟩
  refine ⟨R1, fun k => mapIndexOp_lookup_preserved f2o0 _ k, rfl, rfl, rfl,
    rfl, rfl, rfl, rfl, ?_, ?_, ?_, ?_⟩
  · intro a b hab hble hrsb
    intro j hj1 hj2
    have hz : runStart vals (1 - 1) = 0 := rfl
    omega
  · intro j hj1 hj2
    have hj : j = 0 := by omega
    subst hj
    exact R3
  · intro j hj
    exact R2 j (by omega)
  · intro hfl0 j hj1 hj2
    have hfl : (if (mapIndexOp f2o0 (fids0.getD 0 0)).1 ≠ 0 then true
        else false) = false := hfl0
    have hj : j = 0 := by omega
    subst hj
    by_cases hmr : (mapIndexOp f2o0 (fids0.getD 0 0)).1 = 0
    · rw [← R4]; exact hmr
    · exfalso
      rw [if_pos hmr] at hfl
      exact Bool.noConfusion hfl

theorem leafLoop_done (vals : List (List Nat)) (n : Nat) (p : Int) :
    ∀ fuel i ls, n ≤ i → leafLoop 0 vals n p fuel i ls = (true, ls) := by
  intro fuel i ls h
  cases fuel with
  | zero => rfl
  | succ fuel => rw [leafLoop, if_pos h]

/-- The loop from any entry `i ≥ 1` under the invariant runs to completion
and produces a fully run-sorted buffer. -/
theorem lrun (f2o0 : List (Int × Int)) (fids0 : List Int)
    (vals : List (List Nat)) (p : Int) (pg0 : Int → Option IdxPage)
    (lpv0 : Int) (n : Nat)
    (Hruns : ∀ a b, a < b → b ≤ n → runStart vals (b - 1) = a →
      SegSorted fids0 a b)
    (Hnodup : (fids0.map (remapVal f2o0)).Nodup)
    (hlen0 : fids0.length = n) :
    ∀ fuel i ls, n ≤ fuel + i → 1 ≤ i → i < n →
      LInv f2o0 fids0 vals p pg0 lpv0 n i ls →
      (leafLoop 0 vals n p fuel i ls).1 = true ∧
      LOut vals pg0 n (leafLoop 0 vals n p fuel i ls).2 := by
  intro fuel
  induction fuel with
  | zero => intro i ls h1 h2 h3 I; omega
  | succ fuel ih =>
      intro i ls h1 h2 h3 I
      rw [leafLoop, if_neg (show ¬ n ≤ i by omega)]
      by_cases hlast : i = n - 1
      · obtain ⟨ls', hstep, O⟩ := lfinal_out f2o0 fids0 vals p pg0 lpv0 n i
          ls Hruns Hnodup hlen0 h2 hlast h3 I
        rw [hstep]
        show (leafLoop 0 vals n p fuel (i + 1) ls').1 = true ∧
          LOut vals pg0 n (leafLoop 0 vals n p fuel (i + 1) ls').2
        rw [leafLoop_done vals n p fuel (i + 1) ls' (by omega)]
        exact ⟨rfl, O⟩
      · obtain ⟨ls', hstep, I'⟩ := lmid_inv f2o0 fids0 vals p pg0 lpv0 n i
          ls Hruns Hnodup hlen0 h2 (by omega) I
        rw [hstep]
        exact ih (i + 1) ls' (by omega) (by omega) (by omega) I'

/-- The whole per-entry loop over a single leaf page, from its
`processLeafPage` entry state. -/
theorem lrun0 (f2o0 : List (Int × Int)) (fids0 : List Int)
    (vals : List (List Nat)) (p : Int) (pg0 : Int → Option IdxPage)
    (lpv0 : Int) (n : Nat)
    (Hruns : ∀ a b, a < b → b ≤ n → runStart vals (b - 1) = a →
      SegSorted fids0 a b)
    (Hnodup : (fids0.map (remapVal f2o0)).Nodup)
    (hlen0 : fids0.length = n) (hn : 1 ≤ n)
    (lv0 : List Nat) (sfi0 : Int) (spv0 : List Int) :
    (leafLoop 0 vals n p n 0 ⟨fids0, false,
      ⟨f2o0, pg0, lpv0, lv0, false, sfi0, spv0, false, false⟩⟩).1 = true ∧
    LOut vals pg0 n (leafLoop 0 vals n p n 0 ⟨fids0, false,
      ⟨f2o0, pg0, lpv0, lv0, false, sfi0, spv0, false, false⟩⟩).2 := by
  obtain ⟨m, rfl⟩ : ∃ m, n = m + 1 := ⟨n - 1, by omega⟩
  obtain ⟨ls₁, hstep, I₁⟩ := l0_inv f2o0 fids0 vals p pg0 lpv0 (m + 1) hlen0
    hn lv0 sfi0 spv0
  rw [leafLoop, if_neg (show ¬ m + 1 ≤ 0 by omega), hstep]
  show (leafLoop 0 vals (m + 1) p m 1 ls₁).1 = true ∧
    LOut vals pg0 (m + 1) (leafLoop 0 vals (m + 1) p m 1 ls₁).2
  by_cases hm : m = 0
  · subst hm
    rw [leafLoop_done vals 1 p 0 1 ls₁ (le_refl 1)]
    refine ⟨rfl, I₁.hlen, I₁.hinv, I₁.hpg, ?_⟩
    intro a b hab hbn hrs j hj1 hj2
    omega
  · exact lrun f2o0 fids0 vals p pg0 lpv0 (m + 1) Hruns Hnodup hlen0 m 1 ls₁
      (by omega) (le_refl 1) (by omega) I₁

/-- `processLeafPage` on a well-formed single leaf page (`next = 0`,
feature count within bounds, run-sorted input, duplicate-free remapped
identifiers): it succeeds without invalidation and the page's identifier
array comes out run-sorted. -/
theorem processLeaf_single (sizeVal : Nat) (f2o0 : List (Int × Int))
    (pg0 : Int → Option IdxPage) (fids0 : List Int) (vals : List (List Nat))
    (lv0 : List Nat) (sfi0 : Int) (spv0 : List Int)
    (hp1 : pg0 1 = some (.leaf 0 fids0 vals))
    (hn : 1 ≤ fids0.length)
    (hcap : fids0.length ≤ (4096 - 12) / (4 + sizeVal))
    (Hruns : ∀ a b, a < b → b ≤ fids0.length → runStart vals (b - 1) = a →
      SegSorted fids0 a b)
    (Hnodup : (fids0.map (remapVal f2o0)).Nodup) :
    (processLeafPage sizeVal 1 ⟨f2o0, pg0, 0, lv0, false, sfi0, spv0, false,
      false⟩).1 = true ∧
    (processLeafPage sizeVal 1 ⟨f2o0, pg0, 0, lv0, false, sfi0, spv0, false,
      false⟩).2.invalidateIndex = false ∧
    ∃ fids', fids'.length = fids0.length ∧
      (∀ a b, a < b → b ≤ fids0.length → runStart vals (b - 1) = a →
        SegSorted fids' a b) ∧
      (processLeafPage sizeVal 1 ⟨f2o0, pg0, 0, lv0, false, sfi0, spv0,
        false, false⟩).2.pages 1 = some (.leaf 0 fids' vals) := by
  obtain ⟨hr1, hO⟩ := lrun0 f2o0 fids0 vals 1 pg0 0 fids0.length Hruns
    Hnodup rfl hn lv0 sfi0 spv0
  simp only [processLeafPage, hp1,
    if_neg (show ¬ (1 : Int) = 0 by decide),
    if_neg (show ¬ (4096 - 12) / (4 + sizeVal) < fids0.length by omega)]
  set r := leafLoop 0 vals fids0.length 1 fids0.length 0 ⟨fids0, false,
    ⟨f2o0, pg0, 0, lv0, false, sfi0, spv0, false, false⟩⟩ with hgen
  simp only [hr1, if_neg (show ¬ (true = false) by decide)]
  cases hrw : r.2.rewrite with
  | true =>
      have hpgs : setLeafFids (r.2.st.pages) 1 (r.2.fids) 1 =
          some (.leaf 0 (r.2.fids) vals) := by
        unfold setLeafFids
        rw [if_pos rfl, hO.hpg, hp1]
      exact ⟨trivial, hO.hinv, _, hO.hlen, hO.hsorted, hpgs⟩
  | false =>
      have hpgs : r.2.st.pages 1 = some (.leaf 0 fids0 vals) := by
        rw [hO.hpg, hp1]
      exact ⟨trivial, hO.hinv, fids0, rfl, Hruns, hpgs⟩

/-- Single-leaf-page index repair: for a well-formed depth-1 index whose
only leaf page has `next = 0`, a feature count within the page bound,
run-sorted input identifiers and a duplicate-free remapped identifier list,
`EditATXOrSPX` succeeds, does not invalidate, and the repaired page's
identifiers are strictly ascending within every equal-value run. -/
theorem editATX_single_page_runs_sorted (f : IdxFile)
    (f2o : List (Int × Int)) (fids0 : List Int) (vals : List (List Nat))
    (hd : f.depth = 1)
    (hsv : ¬ f.sizeIndexedValue = 0)
    (hp1 : f.pages 1 = some (.leaf 0 fids0 vals))
    (hn : 1 ≤ fids0.length)
    (hcap : fids0.length ≤ (4096 - 12) / (4 + f.sizeIndexedValue))
    (Hruns : ∀ a b, a < b → b ≤ fids0.length → runStart vals (b - 1) = a →
      SegSorted fids0 a b)
    (Hnodup : (fids0.map (remapVal f2o)).Nodup) :
    (EditATXOrSPX f f2o).ret = true ∧
    (EditATXOrSPX f f2o).invalidated = false ∧
    ∃ fids', fids'.length = fids0.length ∧
      (∀ a b, a < b → b ≤ fids0.length → runStart vals (b - 1) = a →
        SegSorted fids' a b) ∧
      (EditATXOrSPX f f2o).fileAfter.map (fun g => g.pages 1) =
        some (some (.leaf 0 fids' vals)) := by
  obtain ⟨P1, P2, fids', Q1, Q2, Q3⟩ := processLeaf_single
    f.sizeIndexedValue f2o f.pages fids0 vals [] (-1) [] hp1 hn hcap
    Hruns Hnodup
  unfold EditATXOrSPX
  rw [if_neg hsv, hd]
  simp only [walkIdx]
  refine ⟨P1, P2, fids', Q1, Q2, ?_⟩
  rw [P2]
  simp only [Bool.false_eq_true, if_false, Option.map_some']
  rw [Q3]

/-- `C3`: the per-page scenario of the claim does hold (leaf
`[(10,A),(20,A),(30,B)]` with remap `{20 -> 5}` repairs to
`[(5,A),(10,A),(30,B)]`), but the general run-sort invariant is violated by
the code: on `c3BugFile` with remap `{30 -> 3}` the repair reports success
and does not invalidate the index, yet the `A`-run's row identifiers in
page-visitation order come back as `10, 20, 3` — not strictly ascending.
The sort that should cover the run fires at entry 0 of page 3 before page 3
is pushed into `anPagesAtThisValue` (FGdbLayer.cpp:505-516 runs after
lines 388-491), so the gather loop (lines 413-449) reads only page 2 and the
remapped identifier `3` on page 3 escapes the re-sort, contrary to the
stated intent of FGdbLayer.cpp:385-387. -/
theorem index_sort_run_divergence :
    ((EditATXOrSPX c3ScenFile [(20, 5)]).ret = true ∧
     (EditATXOrSPX c3ScenFile [(20, 5)]).fileAfter.map (fun g => g.pages 1) =
       some (some (.leaf 0 [5, 10, 30] [[65], [65], [66]]))) ∧
    ((EditATXOrSPX c3BugFile [(30, 3)]).ret = true ∧
     (EditATXOrSPX c3BugFile [(30, 3)]).invalidated = false ∧
     (EditATXOrSPX c3BugFile [(30, 3)]).fileAfter.map
        (fun g => (g.pages 2, g.pages 3)) =
       some (some (.leaf 3 [10, 20] [[65], [65]]),
             some (.leaf 0 [3] [[65]])) ∧
     ¬ SegSorted ([10, 20] ++ [3]) 0 3) := by
  refine ⟨⟨rfl, rfl⟩, rfl, rfl, rfl, fun h => ?_⟩
  exact absurd (h 1 (by omega) (by omega)) (by decide)
